import Mathlib

/-!
Maze: a verification development for `chenhowa.buildrooms.c` and `chenhowa.adventure.c`.

The two C programs are embedded shallowly.

* A C string (`char*`, `char[50]`) is the list of its characters before the
  terminating NUL; one C `char` is one `Char`.
* A pointer into the `rooms` array is the index of the room it points at, and
  a pointer that may be `NULL` is an `Option`.
* `rand()` is a list of draws (the values successive calls return).  A loop that
  asks for a draw when the list is empty has not returned within the given
  draws: the outcome is `pending`.
* An access outside an array, a string stored beyond the end of its buffer, an
  `int` that overflows, a division by zero and a failed `assert` are `fault`
  (or `none` where no draws are involved).
-/

namespace Maze

/-- A C string: the characters before the terminating NUL. -/
abbrev CString := List Char

/-- Result of running code that consumes random draws. -/
inductive Outcome (α : Type) where
  /-- The call returned with this result. -/
  | done (a : α)
  /-- The draws ran out while a loop was still asking for more. -/
  | pending
  /-- Undefined behaviour or a failed assertion. -/
  | fault
deriving DecidableEq, Repr

/-! ## `chenhowa.buildrooms.c` -/

namespace Buildrooms

def START_ROOM : Int := 1
def MID_ROOM : Int := 2
def END_ROOM : Int := 3
def NUM_ROOMS : Nat := 7
def NUM_NAMES : Nat := 10
def MAX_CONNECTIONS : Nat := 6
def MIN_CONNECTIONS : Nat := 3

/-- The generator's `struct Room`.  `connections` is the array of
`MAX_CONNECTIONS` room pointers; `numConnections` is only ever set to 0 and
incremented, so it is a natural number. -/
structure Room where
  name : Option CString
  connections : List (Option Nat)
  type : Int
  numConnections : Nat
deriving DecidableEq, Repr

/-- The function `initRoom(room)`: no name, type -1, no connections, every
connection pointer `NULL`. -/
def initRoom : Room :=
  { name := none, connections := List.replicate MAX_CONNECTIONS none,
    type := -1, numConnections := 0 }

/-- The loop of `main` that calls `initRoom` on each of the `NUM_ROOMS` rooms. -/
def initRooms : List Room := List.replicate NUM_ROOMS initRoom

/-- The assignment `rooms[i].type = t`. -/
def setType (rooms : List Room) (i : Nat) (t : Int) : Option (List Room) :=
  match rooms[i]? with
  | none => none
  | some r => some (rooms.set i { r with type := t })

/-- The loop `for (i = ...; i < count; i++) rooms[i].type = 2;` with `k`
iterations left, the next one at index `i`. -/
def assignMidLoop : Nat → Nat → List Room → Option (List Room)
  | 0, _, rooms => some rooms
  | k + 1, i, rooms =>
    match setType rooms i 2 with
    | none => none
    | some rooms1 => assignMidLoop k (i + 1) rooms1

/-- The loop `do { endRoom = rand() % count; } while (endRoom == startRoom);`. -/
def pickEndRoom (count startRoom : Nat) : List Nat → Outcome (Nat × List Nat)
  | [] => .pending
  | d :: ds =>
    if d % count = startRoom then pickEndRoom count startRoom ds
    else .done (d % count, ds)

/-- The function `assignRandomTypes(rooms, count)`. -/
def assignRandomTypes (rooms : List Room) (count : Nat) (draws : List Nat) :
    Outcome (List Room × List Nat) :=
  match assignMidLoop count 0 rooms with
  | none => .fault
  | some rooms1 =>
    if count = 0 then .fault
    else
      match draws with
      | [] => .pending
      | d :: ds =>
        match pickEndRoom count (d % count) ds with
        | .pending => .pending
        | .fault => .fault
        | .done (endRoom, rest) =>
          match setType rooms1 (d % count) 1 with
          | none => .fault
          | some rooms2 =>
            match setType rooms2 endRoom 3 with
            | none => .fault
            | some rooms3 => .done (rooms3, rest)

/-! ### The edge-fill phase -/

/-- The function `graphIsFull(rooms, count)`, as its loop with `k` iterations
left and the next one at index `i`.  A failed `assert` gives `none`. -/
def graphIsFullLoop (rooms : List Room) : Nat → Nat → Option Int
  | 0, _ => some 1
  | k + 1, i =>
    match rooms[i]? with
    | none => none
    | some r =>
      if r.numConnections ≤ MAX_CONNECTIONS then
        if r.numConnections < MIN_CONNECTIONS then some 0
        else graphIsFullLoop rooms k (i + 1)
      else none

/-- The function `graphIsFull(rooms, count)`. -/
def graphIsFull (rooms : List Room) (count : Nat) : Option Int :=
  graphIsFullLoop rooms count 0

/-- The function `getRandomRoom(rooms, count)`, given the value `d` its call of
`rand()` returns: the pointer `rooms + d % count`. -/
def getRandomRoom (count : Nat) (d : Nat) : Option Nat :=
  if count = 0 then none else some (d % count)

/-- The function `canAddConnectionFrom(room)` for the room at index `x`. -/
def canAddConnectionFrom (rooms : List Room) (x : Nat) : Option Int :=
  match rooms[x]? with
  | none => none
  | some r => some (if r.numConnections < MAX_CONNECTIONS then 1 else 0)

/-- The two assignments of `connectRoom` on the room `x` points at:
`x->connections[x->numConnections] = y; x->numConnections++;`. -/
def withConnection (rx : Room) (y : Nat) : Room :=
  { rx with connections := rx.connections.set rx.numConnections (some y),
            numConnections := rx.numConnections + 1 }

/-- The function `connectRoom(x, y)`; a store outside the `connections` array
gives `none`. -/
def connectRoom (rooms : List Room) (x y : Nat) : Option (List Room) :=
  match rooms[x]? with
  | none => none
  | some rx =>
    if rx.numConnections < rx.connections.length then
      some (rooms.set x (withConnection rx y))
    else none

/-- The function `isSameRoom(x, y)`. -/
def isSameRoom (x y : Nat) : Int := if x = y then 1 else 0

/-- The scan of `unconnected` over the connections of `rx`, with `k` iterations
left and the next one at slot `i`. -/
def unconnectedLoop (rx : Room) (y : Nat) : Nat → Nat → Option Int
  | 0, _ => some 1
  | k + 1, i =>
    match rx.connections[i]? with
    | none => none
    | some p => if p = some y then some 0 else unconnectedLoop rx y k (i + 1)

/-- The function `unconnected(x, y)`. -/
def unconnected (rooms : List Room) (x y : Nat) : Option Int :=
  match rooms[x]? with
  | none => none
  | some rx => unconnectedLoop rx y rx.numConnections 0

/-- The first loop of `addRandomConnection`:
`while (1) { x = getRandomRoom(rooms, count); if (canAddConnectionFrom(x) == 1) break; }`. -/
def pickFirst (rooms : List Room) (count : Nat) : List Nat → Outcome (Nat × List Nat)
  | [] => .pending
  | d :: ds =>
    match getRandomRoom count d with
    | none => .fault
    | some x =>
      match canAddConnectionFrom rooms x with
      | none => .fault
      | some c => if c = 1 then .done (x, ds) else pickFirst rooms count ds

/-- The second loop of `addRandomConnection`:
`do { y = getRandomRoom(rooms, count); } while (canAddConnectionFrom(y) == 0 || isSameRoom(x, y) == 1);`. -/
def pickSecond (rooms : List Room) (count x : Nat) : List Nat → Outcome (Nat × List Nat)
  | [] => .pending
  | d :: ds =>
    match getRandomRoom count d with
    | none => .fault
    | some y =>
      match canAddConnectionFrom rooms y with
      | none => .fault
      | some c =>
        if c = 0 ∨ isSameRoom x y = 1 then pickSecond rooms count x ds
        else .done (y, ds)

/-- The last statement of `addRandomConnection`:
`if (unconnected(x, y) && unconnected(y, x)) { connectRoom(x, y); connectRoom(y, x); }`. -/
def connectIfUnconnected (rooms : List Room) (x y : Nat) : Option (List Room) :=
  match unconnected rooms x y with
  | none => none
  | some u1 =>
    if u1 = 0 then some rooms
    else
      match unconnected rooms y x with
      | none => none
      | some u2 =>
        if u2 = 0 then some rooms
        else
          match connectRoom rooms x y with
          | none => none
          | some rooms1 => connectRoom rooms1 y x

/-- The function `addRandomConnection(rooms, count)`. -/
def addRandomConnection (rooms : List Room) (count : Nat) (draws : List Nat) :
    Outcome (List Room × List Nat) :=
  match pickFirst rooms count draws with
  | .pending => .pending
  | .fault => .fault
  | .done (x, ds1) =>
    match pickSecond rooms count x ds1 with
    | .pending => .pending
    | .fault => .fault
    | .done (y, ds2) =>
      match connectIfUnconnected rooms x y with
      | none => .fault
      | some rooms1 => .done (rooms1, ds2)

/-- The loop of `main`
`while (graphIsFull(rooms, NUM_ROOMS) == 0) { addRandomConnection(rooms, NUM_ROOMS); }`
run for at most `fuel` evaluations of its condition. -/
def fillLoop : Nat → List Room → List Nat → Outcome (List Room × List Nat)
  | 0, _, _ => .pending
  | fuel + 1, rooms, draws =>
    match graphIsFull rooms NUM_ROOMS with
    | none => .fault
    | some f =>
      if f = 0 then
        match addRandomConnection rooms NUM_ROOMS draws with
        | .pending => .pending
        | .fault => .fault
        | .done (rooms1, ds) => fillLoop fuel rooms1 ds
      else .done (rooms, draws)

/-- The first `numConnections` connections of a room: the entries the program
reads. -/
def links (r : Room) : List (Option Nat) := r.connections.take r.numConnections

/-- Room `b` occurs among the first `numConnections` connections of room `a`. -/
def connectedTo (rooms : List Room) (a b : Nat) : Prop :=
  ∃ ra, rooms[a]? = some ra ∧ some b ∈ links ra

/-- Rooms as `main` has them before the edge-fill: `NUM_ROOMS` rooms, each with
no connections and every connection pointer `NULL` as `initRoom` leaves them
(names and types are whatever was assigned). -/
def Initialised (rooms : List Room) : Prop :=
  rooms.length = NUM_ROOMS ∧
  ∀ r ∈ rooms, r.numConnections = 0 ∧ r.connections = List.replicate MAX_CONNECTIONS none

/-- States reachable from initialised rooms by calls of `addRandomConnection`
that return, for any draws. -/
inductive Reachable : List Room → Prop where
  | init (rooms : List Room) : Initialised rooms → Reachable rooms
  | step (rooms : List Room) (draws : List Nat) (rooms1 : List Room) (rest : List Nat) :
      Reachable rooms →
      addRandomConnection rooms NUM_ROOMS draws = .done (rooms1, rest) →
      Reachable rooms1

/-- The effect of a call of `addRandomConnection` that connects the rooms `x`
and `y`: both had a free slot, neither listed the other, and `y` is stored in
`x` and then `x` in `y`. -/
def EdgeAdded (rooms rooms1 : List Room) (x y : Nat) : Prop :=
  x ≠ y ∧ ∃ rx ry, rooms[x]? = some rx ∧ rooms[y]? = some ry ∧
    rx.numConnections < MAX_CONNECTIONS ∧ ry.numConnections < MAX_CONNECTIONS ∧
    rx.numConnections < rx.connections.length ∧ ry.numConnections < ry.connections.length ∧
    some y ∉ links rx ∧ some x ∉ links ry ∧
    rooms1 = (rooms.set x (withConnection rx y)).set y (withConnection ry x)

/-- The invariant of the edge-fill phase: `NUM_ROOMS` rooms, each with an array
of `MAX_CONNECTIONS` slots of which at most `MAX_CONNECTIONS` are used; every
used slot points at another room of the array; no room is listed twice; and a
room lists exactly the rooms that list it. -/
structure Good (rooms : List Room) : Prop where
  len : rooms.length = NUM_ROOMS
  slots : ∀ (i : Nat) (r : Room), rooms[i]? = some r →
    r.connections.length = MAX_CONNECTIONS ∧ r.numConnections ≤ MAX_CONNECTIONS
  valid : ∀ (i : Nat) (r : Room), rooms[i]? = some r →
    ∀ p ∈ links r, ∃ j, p = some j ∧ j < NUM_ROOMS ∧ j ≠ i
  nodup : ∀ (i : Nat) (r : Room), rooms[i]? = some r → (links r).Nodup
  symm : ∀ (i j : Nat) (ri rj : Room), rooms[i]? = some ri → rooms[j]? = some rj →
    some j ∈ links ri → some i ∈ links rj

/-- Draws that build the cycle 0-1-2-3-4-5-6-0 and the chords 0-3, 1-4, 2-5, 6-3. -/
def fillDraws : List Nat := [0, 1, 1, 2, 2, 3, 3, 4, 4, 5, 5, 6, 6, 0, 0, 3, 1, 4, 2, 5, 6, 3]


/-! ### Names -/

/-- The generator's `struct OneToOneNameMap`: the array of names, the array of
used flags and the number of names. -/
structure OneToOneNameMap where
  names : List CString
  used_names : List Int
  size : Nat
deriving DecidableEq, Repr

/-- The inner loop of `assignRandomNames` for room `i`:
`while (unassigned == 1) { name_index = rand() % name_map->size; if (...) {...} }`. -/
def assignOneName (i : Nat) :
    List Room → OneToOneNameMap → List Nat → Outcome (List Room × OneToOneNameMap × List Nat)
  | _, _, [] => .pending
  | rooms, name_map, d :: ds =>
    if name_map.size = 0 then .fault
    else
      match name_map.used_names[d % name_map.size]? with
      | none => .fault
      | some u =>
        if u = 0 then
          match name_map.names[d % name_map.size]?, rooms[i]? with
          | some nm, some r =>
            .done (rooms.set i { r with name := some nm },
                   { name_map with used_names := name_map.used_names.set (d % name_map.size) 1 },
                   ds)
          | _, _ => .fault
        else assignOneName i rooms name_map ds

/-- The outer loop of `assignRandomNames` with `k` iterations left, the next
one for room `i`. -/
def assignRandomNamesFrom :
    Nat → Nat → List Room → OneToOneNameMap → List Nat →
      Outcome (List Room × OneToOneNameMap × List Nat)
  | 0, _, rooms, name_map, ds => .done (rooms, name_map, ds)
  | k + 1, i, rooms, name_map, ds =>
    match assignOneName i rooms name_map ds with
    | .pending => .pending
    | .fault => .fault
    | .done (rooms1, map1, ds1) => assignRandomNamesFrom k (i + 1) rooms1 map1 ds1

/-- The function `assignRandomNames(rooms, count, name_map)`. -/
def assignRandomNames (rooms : List Room) (count : Nat) (name_map : OneToOneNameMap)
    (draws : List Nat) : Outcome (List Room × OneToOneNameMap × List Nat) :=
  assignRandomNamesFrom count 0 rooms name_map draws

/-- The ten hard-coded room names of `main`. -/
def poolNames : List CString :=
  ["FOYER".toList, "LONG_STAIRCASE".toList, "BASEMENT".toList, "DUNGEON".toList,
   "LIVING_ROOM".toList, "KITCHEN".toList, "DARK_ROOM".toList, "OPERATING_ROOM".toList,
   "DINING_ROOM".toList, "PRISON_CELL".toList]

/-- The name map `main` builds: the ten names, all unused. -/
def poolMap : OneToOneNameMap :=
  { names := poolNames, used_names := List.replicate NUM_NAMES 0, size := NUM_NAMES }

/-- What the first `i` rooms hold while names are assigned: each has a name of
the pool whose flag is set, and no two have the same name. -/
def NamesAssigned (i : Nat) (rooms : List Room) (name_map : OneToOneNameMap) : Prop :=
  (∀ j, j < i → ∃ (k : Nat) (nm : CString) (u : Int),
      name_map.names[k]? = some nm ∧ name_map.used_names[k]? = some u ∧ u ≠ 0 ∧
      (rooms[j]?).map Room.name = some (some nm)) ∧
  (∀ j1 j2, j1 < i → j2 < i → j1 ≠ j2 →
      (rooms[j1]?).map Room.name ≠ (rooms[j2]?).map Room.name)

/-! ### Writing a room file -/

/-- The loop of `printRoom` over the connections, with `k` iterations left and
the next one at slot `i`; the text it writes.  `%i` writes `i + 1` in decimal.
A slot outside the array, a pointer outside `rooms` and `%s` of a `NULL` name
give `none`. -/
def printConnections (rooms : List Room) (r : Room) : Nat → Nat → Option CString
  | 0, _ => some []
  | k + 1, i =>
    match r.connections[i]? with
    | none => none
    | some none =>
      match printConnections rooms r k (i + 1) with
      | none => none
      | some out => some ("NULL CONNECTION\n".toList ++ out)
    | some (some j) =>
      match rooms[j]? with
      | none => none
      | some rj =>
        match rj.name with
        | none => none
        | some nm =>
          match printConnections rooms r k (i + 1) with
          | none => none
          | some out =>
            some ("CONNECTION ".toList ++ Nat.toDigits 10 (i + 1) ++ ": ".toList ++ nm
              ++ "\n".toList ++ out)

/-- The `switch (r->type)` of `printRoom`. -/
def typeStr (type : Int) : CString :=
  if type = 1 then "START_ROOM".toList
  else if type = 2 then "MID_ROOM".toList
  else if type = 3 then "END_ROOM".toList
  else "UNASSIGNED_ROOM".toList

/-- The function `printRoom(file, r)` of the generator: the text written to
the file. -/
def printRoom (rooms : List Room) (r : Room) : Option CString :=
  match printConnections rooms r r.numConnections 0 with
  | none => none
  | some conns =>
    some ((match r.name with
            | none => "NULL\n".toList
            | some nm => "ROOM NAME: ".toList ++ nm ++ "\n".toList)
          ++ conns ++ "ROOM TYPE: ".toList ++ typeStr r.type ++ "\n".toList)

/-- The connection lines of a room file as the format describes them: for the
names `nm` in order, numbered from `i + 1`, the line `CONNECTION <number>: <nm>`. -/
def connectionLines : Nat → List CString → CString
  | _, [] => []
  | i, nm :: rest =>
    "CONNECTION ".toList ++ Nat.toDigits 10 (i + 1) ++ ": ".toList ++ nm ++ "\n".toList
      ++ connectionLines (i + 1) rest

/-- The names of the rooms that the first `numConnections` connections of `r`
point at are `cn`, in order. -/
def ConnectionNames (rooms : List Room) (r : Room) (cn : List CString) : Prop :=
  cn.length = r.numConnections ∧
  ∀ i, i < r.numConnections → ∃ (j : Nat) (rj : Room) (nm : CString),
    r.connections[i]? = some (some j) ∧ rooms[j]? = some rj ∧ rj.name = some nm ∧
    cn[i]? = some nm

/-- The rooms the edge-fill loop leaves from `initRooms` on `fillDraws`. -/
def filledRooms : List Room :=
  [{ initRoom with connections := [some 1, some 6, some 3, none, none, none], numConnections := 3 },
   { initRoom with connections := [some 0, some 2, some 4, none, none, none], numConnections := 3 },
   { initRoom with connections := [some 1, some 3, some 5, none, none, none], numConnections := 3 },
   { initRoom with connections := [some 2, some 4, some 0, some 6, none, none], numConnections := 4 },
   { initRoom with connections := [some 3, some 5, some 1, none, none, none], numConnections := 3 },
   { initRoom with connections := [some 4, some 6, some 2, none, none, none], numConnections := 3 },
   { initRoom with connections := [some 5, some 0, some 3, none, none, none], numConnections := 3 }]

/-- The rooms one call of `addRandomConnection` leaves from `initRooms` on the
draws 0, 1: rooms 0 and 1 are connected. -/
def oneEdgeRooms : List Room :=
  [{ initRoom with connections := [some 1, none, none, none, none, none], numConnections := 1 },
   { initRoom with connections := [some 0, none, none, none, none, none], numConnections := 1 },
   initRoom, initRoom, initRoom, initRoom, initRoom]

/-- The rooms `assignRandomNames` leaves from `initRooms` and `poolMap` on the
draws 3, 3, 13, 0, 9, 1, 21, 5, 6, 8. -/
def namedRooms : List Room :=
  [{ initRoom with name := some "DUNGEON".toList },
   { initRoom with name := some "FOYER".toList },
   { initRoom with name := some "PRISON_CELL".toList },
   { initRoom with name := some "LONG_STAIRCASE".toList },
   { initRoom with name := some "KITCHEN".toList },
   { initRoom with name := some "DARK_ROOM".toList },
   { initRoom with name := some "DINING_ROOM".toList }]

/-- The name map after that call: seven flags set. -/
def usedMap : OneToOneNameMap :=
  { names := poolNames, used_names := [1, 1, 0, 1, 0, 1, 1, 0, 1, 1], size := NUM_NAMES }

/-- A generated dungeon: `namedRooms` after `assignRandomTypes` on the draws
9, 2, 2, 5 and the edge-fill loop on `fillDraws`. -/
def dungeon : List Room :=
  [⟨some "DUNGEON".toList, [some 1, some 6, some 3, none, none, none], 2, 3⟩,
   ⟨some "FOYER".toList, [some 0, some 2, some 4, none, none, none], 2, 3⟩,
   ⟨some "PRISON_CELL".toList, [some 1, some 3, some 5, none, none, none], 1, 3⟩,
   ⟨some "LONG_STAIRCASE".toList, [some 2, some 4, some 0, some 6, none, none], 2, 4⟩,
   ⟨some "KITCHEN".toList, [some 3, some 5, some 1, none, none, none], 2, 3⟩,
   ⟨some "DARK_ROOM".toList, [some 4, some 6, some 2, none, none, none], 3, 3⟩,
   ⟨some "DINING_ROOM".toList, [some 5, some 0, some 3, none, none, none], 2, 3⟩]

/-- Room 3 of `dungeon`. -/
def dungeonRoom3 : Room :=
  ⟨some "LONG_STAIRCASE".toList, [some 2, some 4, some 0, some 6, none, none], 2, 4⟩

/-- The rooms of `dungeon` before the edge-fill loop. -/
def dungeonStart : List Room :=
  [⟨some "DUNGEON".toList, List.replicate 6 none, 2, 0⟩,
   ⟨some "FOYER".toList, List.replicate 6 none, 2, 0⟩,
   ⟨some "PRISON_CELL".toList, List.replicate 6 none, 1, 0⟩,
   ⟨some "LONG_STAIRCASE".toList, List.replicate 6 none, 2, 0⟩,
   ⟨some "KITCHEN".toList, List.replicate 6 none, 2, 0⟩,
   ⟨some "DARK_ROOM".toList, List.replicate 6 none, 3, 0⟩,
   ⟨some "DINING_ROOM".toList, List.replicate 6 none, 2, 0⟩]

/-- The rooms `assignRandomTypes` leaves from `initRooms` on the draws
9, 2, 2, 5: room 2 is the start room and room 5 the end room. -/
def typedRooms : List Room :=
  [{ initRoom with type := 2 }, { initRoom with type := 2 }, { initRoom with type := 1 },
   { initRoom with type := 2 }, { initRoom with type := 2 }, { initRoom with type := 3 },
   { initRoom with type := 2 }]

end Buildrooms

/-! ## `chenhowa.adventure.c` -/

namespace Adventure

def START_ROOM : Int := 1
def MID_ROOM : Int := 2
def END_ROOM : Int := 3
def NUM_ROOMS : Nat := 7
def NUM_NAMES : Nat := 10
def MAX_CONNECTIONS : Nat := 6
def MIN_CONNECTIONS : Nat := 3

/-- The game's `struct Room`: `name` is a `char[50]`, `connections` the array
of `MAX_CONNECTIONS` names (each a `char[50]`).  The buffers are modelled by
the strings they hold; storing a string of 50 or more characters overruns the
buffer and is a fault of the function that stores it. -/
structure Room where
  name : CString
  connections : List CString
  type : Int
  numConnections : Nat
deriving DecidableEq, Repr

/-- The game's `struct Player`.  `curRoom` is the index of the room pointed
at.  `history` is the string in the heap block and `histCap` the size of that
block, as last requested with `malloc` or `realloc`. -/
structure Player where
  curRoom : Nat
  history : CString
  histCap : Int
  visited : Int
deriving DecidableEq, Repr

/-- The function `initRoom(room)` of the game: empty strings, type -1, no
connections. -/
def initRoom : Room :=
  { name := [], connections := List.replicate MAX_CONNECTIONS [], type := -1,
    numConnections := 0 }

/-! ### `fscanf` -/

/-- The function `isspace` of the C locale: space, `\t`, `\n`, `\v`, `\f`, `\r`. -/
def isspace (c : Char) : Bool :=
  c = ' ' || c = '\t' || c = '\n' || c = '\x0b' || c = '\x0c' || c = '\r'

/-- A white-space directive: read up to the first character that is not
white space. -/
def skipSpace : List Char → List Char
  | [] => []
  | c :: cs => if isspace c then skipSpace cs else c :: cs

/-- The input item of `%s`: the longest run of characters that are not white
space, and the input after it. -/
def takeWord : List Char → CString × List Char
  | [] => ([], [])
  | c :: cs =>
    if isspace c then ([], c :: cs)
    else (c :: (takeWord cs).1, (takeWord cs).2)

/-- The value of a character as a digit, up to base 16. -/
def digitVal (c : Char) : Option Nat :=
  if '0' ≤ c ∧ c ≤ '9' then some (c.toNat - '0'.toNat)
  else if 'a' ≤ c ∧ c ≤ 'f' then some (c.toNat - 'a'.toNat + 10)
  else if 'A' ≤ c ∧ c ≤ 'F' then some (c.toNat - 'A'.toNat + 10)
  else none

/-- The longest run of digits of the given base, as values, and the input
after it. -/
def takeDigits (base : Nat) : List Char → List Nat × List Char
  | [] => ([], [])
  | c :: cs =>
    match digitVal c with
    | none => ([], c :: cs)
    | some v =>
      if v < base then (v :: (takeDigits base cs).1, (takeDigits base cs).2)
      else ([], c :: cs)

/-- The number a list of digits denotes. -/
def digitsValue (base : Nat) (ds : List Nat) : Int :=
  ds.foldl (fun acc d => acc * base + d) 0

/-- The digits of a `%i` item after the sign: `0x` or `0X` starts a
hexadecimal number, another leading `0` an octal one, anything else a decimal
one.  No digit is a matching failure. -/
def scanUnsigned : List Char → Option Int × List Char
  | '0' :: 'x' :: cs =>
    if (takeDigits 16 cs).1 = [] then (none, (takeDigits 16 cs).2)
    else (some (digitsValue 16 (takeDigits 16 cs).1), (takeDigits 16 cs).2)
  | '0' :: 'X' :: cs =>
    if (takeDigits 16 cs).1 = [] then (none, (takeDigits 16 cs).2)
    else (some (digitsValue 16 (takeDigits 16 cs).1), (takeDigits 16 cs).2)
  | '0' :: cs => (some (digitsValue 8 (takeDigits 8 cs).1), (takeDigits 8 cs).2)
  | cs =>
    if (takeDigits 10 cs).1 = [] then (none, (takeDigits 10 cs).2)
    else (some (digitsValue 10 (takeDigits 10 cs).1), (takeDigits 10 cs).2)

/-- The conversion `%i` once white space is skipped: an optionally signed
integer in the form `strtol` accepts with base 0.  The result is the value
(`none` for a matching failure) and the unread input. -/
def scanInt : List Char → Option Int × List Char
  | '-' :: cs => ((scanUnsigned cs).1.map (fun v => -v), (scanUnsigned cs).2)
  | '+' :: cs => scanUnsigned cs
  | cs => scanUnsigned cs

/-- The directives of the format strings the game uses. -/
inductive Directive where
  /-- White space in the format. -/
  | space
  /-- An ordinary character. -/
  | lit (c : Char)
  /-- The conversion `%s`. -/
  | str
  /-- The conversion `%i`. -/
  | int
deriving DecidableEq, Repr

/-- A value `fscanf` stores through one of its pointer arguments. -/
inductive Item where
  | str (s : CString)
  | int (n : Int)
deriving DecidableEq, Repr

/-- Split a format string into directives. -/
def parseFormat : List Char → List Directive
  | [] => []
  | '%' :: 's' :: cs => .str :: parseFormat cs
  | '%' :: 'i' :: cs => .int :: parseFormat cs
  | c :: cs => if isspace c then .space :: parseFormat cs else .lit c :: parseFormat cs

/-- Run the directives on the input: the items stored, in order, and the
unread input.  A directive that fails ends the call; an ordinary character
that differs stays unread. -/
def scanf : List Directive → List Char → List Item × List Char
  | [], inp => ([], inp)
  | .space :: ds, inp => scanf ds (skipSpace inp)
  | .lit _ :: _, [] => ([], [])
  | .lit c :: ds, x :: xs => if x = c then scanf ds xs else ([], x :: xs)
  | .str :: ds, inp =>
    if (takeWord (skipSpace inp)).1 = [] then ([], (takeWord (skipSpace inp)).2)
    else (.str (takeWord (skipSpace inp)).1 :: (scanf ds (takeWord (skipSpace inp)).2).1,
          (scanf ds (takeWord (skipSpace inp)).2).2)
  | .int :: ds, inp =>
    match (scanInt (skipSpace inp)).1 with
    | none => ([], (scanInt (skipSpace inp)).2)
    | some n => (.int n :: (scanf ds (scanInt (skipSpace inp)).2).1,
                 (scanf ds (scanInt (skipSpace inp)).2).2)

/-- The call `fscanf(file, format, ...)`: the items stored (the return value
is their number whenever it is not negative) and the unread rest of the file. -/
def fscanf (file : List Char) (format : String) : List Item × List Char :=
  scanf (parseFormat format.toList) file

/-- A name that `%s` reads back whole: not empty, no white space, and short
enough for a `char[50]`. -/
def GoodName (nm : CString) : Prop :=
  nm ≠ [] ∧ (∀ c ∈ nm, isspace c = false) ∧ nm.length < 50

/-! ### Reading a room file -/

/-- The loop of `readRoom`
`while (fscanf(file, "CONNECTION %i: %s\n", &trash, room->connections[room->numConnections]) == 2) room->numConnections++;`
run for at most `fuel` calls of `fscanf`.  A name stored outside the
`connections` array, or of 50 or more characters so that it overruns its
`char[50]` slot, gives `none`. -/
def readConnections : Nat → List Char → Room → Option (Room × List Char)
  | 0, _, _ => none
  | fuel + 1, file, room =>
    match fscanf file "CONNECTION %i: %s\n" with
    | ([Item.int _, Item.str s], rest) =>
      if room.numConnections < room.connections.length ∧ s.length < 50 then
        readConnections fuel rest
          { room with connections := room.connections.set room.numConnections s,
                      numConnections := room.numConnections + 1 }
      else none
    | (_, rest) => some (room, rest)

/-- The comparisons of `readRoom` on the tag it scanned. -/
def setTypeFromTag (room : Room) (type : CString) : Room :=
  if type = "MID_ROOM".toList then { room with type := MID_ROOM }
  else if type = "START_ROOM".toList then { room with type := START_ROOM }
  else if type = "END_ROOM".toList then { room with type := END_ROOM }
  else room

/-- The store of the first call of `fscanf` in `readRoom` into `room->name`, a
`char[50]`: a word of 50 or more characters overruns it, which gives `none`;
with no word scanned the name stays as it was. -/
def storeName (room : Room) : List Item → Option Room
  | Item.str s :: _ => if s.length < 50 then some { room with name := s } else none
  | _ => some room

/-- The local `char type[50]` of `readRoom` after the last call of `fscanf`:
zeroed by `memset` when no word was scanned; a word of 50 or more characters
overruns it, which gives `none`. -/
def storeTag : List Item → Option CString
  | Item.str s :: _ => if s.length < 50 then some s else none
  | _ => some []

/-- The function `readRoom(file, room)`.  Every successful call of `fscanf` in
the loop consumes input, so `file.length + 1` calls are never used up. -/
def readRoom (file : List Char) (room : Room) : Option Room :=
  match storeName room (fscanf file "ROOM NAME: %s\n").1 with
  | none => none
  | some room1 =>
    match readConnections (file.length + 1) (fscanf file "ROOM NAME: %s\n").2 room1 with
    | none => none
    | some (room2, rest) =>
      match storeTag (fscanf rest "ROOM TYPE: %s\n").1 with
      | none => none
      | some type => some (setTypeFromTag room2 type)

/-! ### Moving the player -/

/-- The largest value of an `int`. -/
def INT_MAX : Int := 2147483647

/-- The body of the `if` in the inner loop of `executeCommand` for room `j`:
`player->curRoom = rooms + j; player->visited++; player->history = realloc(player->history, 25 * player->visited); strcat(player->history, string); strcat(player->history, "\n");`.
It gives `none` when the block does not hold the history it is said to hold,
when `visited + 1` or `25 * visited` overflows an `int`, when the size asked
of `realloc` is not positive, and when the history with `string`, the newline
and the terminator does not fit the new block. -/
def visitRoom (player : Player) (j : Nat) (string : CString) : Option Player :=
  if player.histCap < (player.history.length : Int) + 1 then none
  else if INT_MAX < player.visited + 1 then none
  else if INT_MAX < 25 * (player.visited + 1) then none
  else if 25 * (player.visited + 1) ≤ 0 then none
  else if 25 * (player.visited + 1)
      < (player.history.length : Int) + (string.length : Int) + 2 then none
  else
    some { curRoom := j,
           visited := player.visited + 1,
           histCap := 25 * (player.visited + 1),
           history := player.history ++ string ++ "\n".toList }

/-- The inner loop of `executeCommand` over the rooms, with `k` iterations left
and the next one at index `j`: every room whose name equals `string` becomes
the current room, is counted and is appended to the history. -/
def enterRooms (rooms : List Room) (string : CString) : Nat → Nat → Player → Option Player
  | 0, _, player => some player
  | k + 1, j, player =>
    match rooms[j]? with
    | none => none
    | some rj =>
      if rj.name = string then
        match visitRoom player j string with
        | none => none
        | some player1 => enterRooms rooms string k (j + 1) player1
      else enterRooms rooms string k (j + 1) player

/-- The outer loop of `executeCommand` over the connections of the current
room `cur`, with `k` iterations left and the next one at slot `i`.  Leaving
the loop without a match returns 1. -/
def matchConnections (rooms : List Room) (player : Player) (string : CString) (cur : Room) :
    Nat → Nat → Option (Int × Player)
  | 0, _ => some (1, player)
  | k + 1, i =>
    match cur.connections[i]? with
    | none => none
    | some c =>
      if c = string then
        match enterRooms rooms string NUM_ROOMS 0 player with
        | none => none
        | some player1 => some (0, player1)
      else matchConnections rooms player string cur k (i + 1)

/-- The function `executeCommand(player, string, rooms)`: the value returned
and the player afterwards.  The clock handshake of the `time` branch and what
is printed do not touch the player and are left out.  A read outside an array
and a fault of `visitRoom` give `none`. -/
def executeCommand (player : Player) (string : CString) (rooms : List Room) :
    Option (Int × Player) :=
  if string = "time".toList then some (0, player)
  else
    match rooms[player.curRoom]? with
    | none => none
    | some cur => matchConnections rooms player string cur cur.numConnections 0

/-- The player after entering room `j` on the command `string`: the
assignments of the inner loop of `executeCommand`. -/
def entered (player : Player) (j : Nat) (string : CString) : Player :=
  { curRoom := j,
    visited := player.visited + 1,
    histCap := 25 * (player.visited + 1),
    history := player.history ++ string ++ "\n".toList }

/-- The first `numConnections` connection names of a room. -/
def exits (r : Room) : List CString := r.connections.take r.numConnections

/-- The graph the game loads from the room files of `Buildrooms.dungeon`. -/
def loadedRooms : List Room :=
  [⟨"DUNGEON".toList,
    ["FOYER".toList, "DINING_ROOM".toList, "LONG_STAIRCASE".toList, [], [], []], 2, 3⟩,
   ⟨"FOYER".toList,
    ["DUNGEON".toList, "PRISON_CELL".toList, "KITCHEN".toList, [], [], []], 2, 3⟩,
   ⟨"PRISON_CELL".toList,
    ["FOYER".toList, "LONG_STAIRCASE".toList, "DARK_ROOM".toList, [], [], []], 1, 3⟩,
   ⟨"LONG_STAIRCASE".toList,
    ["PRISON_CELL".toList, "KITCHEN".toList, "DUNGEON".toList, "DINING_ROOM".toList, [], []],
    2, 4⟩,
   ⟨"KITCHEN".toList,
    ["LONG_STAIRCASE".toList, "DARK_ROOM".toList, "FOYER".toList, [], [], []], 2, 3⟩,
   ⟨"DARK_ROOM".toList,
    ["KITCHEN".toList, "DINING_ROOM".toList, "PRISON_CELL".toList, [], [], []], 3, 3⟩,
   ⟨"DINING_ROOM".toList,
    ["DARK_ROOM".toList, "DUNGEON".toList, "LONG_STAIRCASE".toList, [], [], []], 2, 3⟩]

/-- The player as `main` sets it up for `loadedRooms`: in the start room
(room 2), nothing visited, an empty history in a buffer of 25 bytes. -/
def startPlayer : Player := { curRoom := 2, history := [], histCap := 25, visited := 0 }

/-! ### The game loop -/

/-- The loop of `promptPlayer` over the connections of the current room, with
`k` iterations left and the next one at slot `i`; the text it prints.  The
test `i < numConnections - 1` is on C integers. -/
def promptConnections (cur : Room) : Nat → Nat → Option CString
  | 0, _ => some []
  | k + 1, i =>
    match cur.connections[i]? with
    | none => none
    | some c =>
      match promptConnections cur k (i + 1) with
      | none => none
      | some out =>
        some (" ".toList ++ c
          ++ (if (i : Int) < (cur.numConnections : Int) - 1 then ",".toList else ".".toList)
          ++ out)

/-- The function `promptPlayer(player)`: the text printed, and the player and
the rooms afterwards (the function is handed a pointer to the player, through
which it reaches the rooms). -/
def promptPlayer (player : Player) (rooms : List Room) :
    Option (CString × Player × List Room) :=
  match rooms[player.curRoom]? with
  | none => none
  | some cur =>
    match promptConnections cur cur.numConnections 0 with
    | none => none
    | some conns =>
      some ("CURRENT LOCATION: ".toList ++ cur.name ++ "\n".toList
              ++ "POSSIBLE CONNECTIONS:".toList ++ conns ++ "\n".toList
              ++ "WHERE TO? >".toList,
            player, rooms)

/-- The connection part of the prompt as the text describes it: every name
preceded by a space, a comma after each name but the last, a full stop after
the last. -/
def connectionList : List CString → CString
  | [] => []
  | [c] => " ".toList ++ c ++ ".".toList
  | c :: d :: rest => " ".toList ++ c ++ ",".toList ++ connectionList (d :: rest)

/-- The loop of `main` that points `player.curRoom` at the start room, with `k`
iterations left and the next one at index `i`; `cur` is `none` while
`curRoom` is uninitialised. -/
def selectStartLoop (rooms : List Room) : Nat → Nat → Option Nat → Option (Option Nat)
  | 0, _, cur => some cur
  | k + 1, i, cur =>
    match rooms[i]? with
    | none => none
    | some r => selectStartLoop rooms k (i + 1) (if r.type = START_ROOM then some i else cur)

/-- The player as `main` sets it up: a history buffer of 25 bytes holding the
empty string, nothing visited, the current room the start room.  With no
start room `curRoom` stays uninitialised, which gives `none`. -/
def setupPlayer (rooms : List Room) : Option Player :=
  match selectStartLoop rooms NUM_ROOMS 0 none with
  | some (some s) => some { curRoom := s, history := [], histCap := 25, visited := 0 }
  | _ => none

/-- A sequence of calls of `executeCommand`, one for each command in order. -/
def runCommands (rooms : List Room) : Player → List CString → Option Player
  | player, [] => some player
  | player, cmd :: rest =>
    match executeCommand player cmd rooms with
    | none => none
    | some (_, player1) => runCommands rooms player1 rest

/-- The number of entries of the history: each entry ends with a newline. -/
def entries (history : CString) : Nat := history.count '\n'

/-- The loop of `main`
`while (player.curRoom->type != END_ROOM) { promptPlayer(&player); playerInput = getInput(stdin); executeCommand(&player, playerInput, rooms); ... }`
on the lines the user types.  When the lines are used up and the loop wants
another one the outcome is `pending`.  The result is the player and the lines
not read when the loop is left. -/
def gameLoop : List CString → List Room → Player → Outcome (Player × List CString)
  | [], rooms, player =>
    match rooms[player.curRoom]? with
    | none => .fault
    | some cur => if cur.type ≠ END_ROOM then .pending else .done (player, [])
  | cmd :: rest, rooms, player =>
    match rooms[player.curRoom]? with
    | none => .fault
    | some cur =>
      if cur.type ≠ END_ROOM then
        match promptPlayer player rooms with
        | none => .fault
        | some (_, player1, rooms1) =>
          match executeCommand player1 cmd rooms1 with
          | none => .fault
          | some (_, player2) => gameLoop rest rooms1 player2
      else .done (player, cmd :: rest)

/-- The current room of the player has type `END_ROOM`. -/
def AtEnd (rooms : List Room) (player : Player) : Prop :=
  ∃ cur, rooms[player.curRoom]? = some cur ∧ cur.type = END_ROOM

/-- A graph as `main` loads it: `NUM_ROOMS` rooms, each read by `readRoom` from
some file into a room set up by `initRoom`. -/
def Loaded (rooms : List Room) : Prop :=
  rooms.length = NUM_ROOMS ∧ ∀ r ∈ rooms, ∃ file, readRoom file initRoom = some r

/-- The room files the generator writes for `Buildrooms.dungeon`, in the order
of the rooms. -/
def dungeonFiles : List CString :=
  Buildrooms.dungeon.filterMap (Buildrooms.printRoom Buildrooms.dungeon)

/-- What the calls of `executeCommand` keep true of the player: the current
room is a room of the array and `visited` is the number of entries of the
history. -/
def Counted (rooms : List Room) (player : Player) : Prop :=
  player.curRoom < rooms.length ∧ player.visited = entries player.history

/-! ### The clock -/

/-- The fields of `struct tm` that `writeTime` reads. -/
structure Tm where
  tm_min : Int
  tm_hour : Int
  tm_mday : Int
  tm_mon : Int
  tm_year : Int
  tm_wday : Int
deriving DecidableEq, Repr

/-- The conversion `%d`: the decimal digits, after a minus sign for a negative
number. -/
def printD (n : Int) : CString :=
  if n < 0 then '-' :: Nat.toDigits 10 n.natAbs else Nat.toDigits 10 n.toNat

/-- The conversion `%02d`: as `%d`, padded with zeros to two characters. -/
def print02D (n : Int) : CString :=
  if 0 ≤ n ∧ n < 10 then '0' :: printD n else printD n

/-- The `switch (local_time.tm_wday)` of `writeTime`: what is written to the
file (the default case writes only to `stderr`). -/
def weekdayText (tm_wday : Int) : CString :=
  if tm_wday = 0 then "Sunday".toList
  else if tm_wday = 1 then "Monday".toList
  else if tm_wday = 2 then "Tuesday".toList
  else if tm_wday = 3 then "Wednesday".toList
  else if tm_wday = 4 then "Thurday".toList
  else if tm_wday = 5 then "Friday".toList
  else if tm_wday = 6 then "Saturday".toList
  else []

/-- The `switch (local_time.tm_mon)` of `writeTime`: what is written to the
file (the default case writes only to `stderr`). -/
def monthText (tm_mon : Int) : CString :=
  if tm_mon = 0 then "January".toList
  else if tm_mon = 1 then "February".toList
  else if tm_mon = 2 then "March".toList
  else if tm_mon = 3 then "April".toList
  else if tm_mon = 4 then "May".toList
  else if tm_mon = 5 then "June".toList
  else if tm_mon = 6 then "July".toList
  else if tm_mon = 7 then "August".toList
  else if tm_mon = 8 then "September".toList
  else if tm_mon = 9 then "October".toList
  else if tm_mon = 10 then "November".toList
  else if tm_mon = 11 then "December".toList
  else []

/-- One pass of the loop of `writeTime` for the local time `t`: the text
written to `currentTime.txt`. -/
def writeTime (t : Tm) : CString :=
  (if t.tm_hour = 0 then "12".toList
   else if t.tm_hour ≤ 12 then printD t.tm_hour
   else printD (t.tm_hour - 12))
  ++ ":".toList
  ++ print02D t.tm_min
  ++ (if t.tm_hour ≥ 12 then "pm".toList else "am".toList)
  ++ ", ".toList
  ++ weekdayText t.tm_wday
  ++ ", ".toList
  ++ monthText t.tm_mon
  ++ " ".toList
  ++ printD t.tm_mday
  ++ ", ".toList ++ printD (t.tm_year + 1900) ++ "\n".toList

/-- The hour on a 12-hour clock: 12 for hour 0, the hour itself for 1 to 12,
the hour less 12 for 13 to 23. -/
def hour12 (hour : Int) : Int :=
  if hour = 0 then 12 else if hour ≤ 12 then hour else hour - 12

/-- A number below 100 as two digits, the first one 0 below 10. -/
def twoDigits (n : Int) : CString :=
  [Nat.digitChar (n.toNat / 10), Nat.digitChar (n.toNat % 10)]

/-- The English names of the months, January first. -/
def monthNames : List CString :=
  ["January".toList, "February".toList, "March".toList, "April".toList, "May".toList,
   "June".toList, "July".toList, "August".toList, "September".toList, "October".toList,
   "November".toList, "December".toList]

/-- The English names of the days of the week, Sunday first. -/
def weekdayNames : List CString :=
  ["Sunday".toList, "Monday".toList, "Tuesday".toList, "Wednesday".toList,
   "Thursday".toList, "Friday".toList, "Saturday".toList]

/-- The text of a room file in the format of the generator: the name line, the
numbered connection lines and the type line with the given tag. -/
def roomFile (name : CString) (cn : List CString) (tag : CString) : CString :=
  "ROOM NAME: ".toList ++ (name ++ ("\n".toList ++ (Buildrooms.connectionLines 0 cn
    ++ ("ROOM TYPE: ".toList ++ (tag ++ "\n".toList)))))

/-- The rooms `loadedRooms` with the second connection of room 2 changed to
`ATTIC`, a name that no room has. -/
def danglingRooms : List Room :=
  loadedRooms.set 2
    ⟨"PRISON_CELL".toList, ["FOYER".toList, "ATTIC".toList, "DARK_ROOM".toList, [], [], []],
     1, 3⟩

/-- What the calls of `executeCommand` keep true of the history buffer when no
room name has more than 23 characters: the current room is a room of the
array, `visited` is not negative, the history has at most 24 characters for
each visit, and the size last requested for the buffer is 25 at the start and
`25 * visited` after a visit. -/
def Sized (rooms : List Room) (player : Player) : Prop :=
  player.curRoom < rooms.length ∧ 0 ≤ player.visited ∧
  (player.history.length : Int) ≤ 24 * player.visited ∧
  player.histCap = 25 * max player.visited 1

/-- The rooms `loadedRooms` with the name `DARK_ROOM` replaced by a name of 24
characters, in the room that has it and in the connections that list it. -/
def longRooms : List Room :=
  [⟨"DUNGEON".toList,
    ["FOYER".toList, "DINING_ROOM".toList, "LONG_STAIRCASE".toList, [], [], []], 2, 3⟩,
   ⟨"FOYER".toList,
    ["DUNGEON".toList, "PRISON_CELL".toList, "KITCHEN".toList, [], [], []], 2, 3⟩,
   ⟨"PRISON_CELL".toList,
    ["FOYER".toList, "LONG_STAIRCASE".toList, "THE_VERY_DARK_ROOM_BELOW".toList, [], [], []],
    1, 3⟩,
   ⟨"LONG_STAIRCASE".toList,
    ["PRISON_CELL".toList, "KITCHEN".toList, "DUNGEON".toList, "DINING_ROOM".toList, [], []],
    2, 4⟩,
   ⟨"KITCHEN".toList,
    ["LONG_STAIRCASE".toList, "THE_VERY_DARK_ROOM_BELOW".toList, "FOYER".toList, [], [], []],
    2, 3⟩,
   ⟨"THE_VERY_DARK_ROOM_BELOW".toList,
    ["KITCHEN".toList, "DINING_ROOM".toList, "PRISON_CELL".toList, [], [], []], 3, 3⟩,
   ⟨"DINING_ROOM".toList,
    ["THE_VERY_DARK_ROOM_BELOW".toList, "DUNGEON".toList, "LONG_STAIRCASE".toList, [], [], []],
    2, 3⟩]

/-- Room files in the format of the generator from which `readRoom` reads the
rooms `longRooms`, in the order of the rooms. -/
def longFiles : List CString :=
  [roomFile "DUNGEON".toList
     ["FOYER".toList, "DINING_ROOM".toList, "LONG_STAIRCASE".toList] "MID_ROOM".toList,
   roomFile "FOYER".toList
     ["DUNGEON".toList, "PRISON_CELL".toList, "KITCHEN".toList] "MID_ROOM".toList,
   roomFile "PRISON_CELL".toList
     ["FOYER".toList, "LONG_STAIRCASE".toList, "THE_VERY_DARK_ROOM_BELOW".toList]
     "START_ROOM".toList,
   roomFile "LONG_STAIRCASE".toList
     ["PRISON_CELL".toList, "KITCHEN".toList, "DUNGEON".toList, "DINING_ROOM".toList]
     "MID_ROOM".toList,
   roomFile "KITCHEN".toList
     ["LONG_STAIRCASE".toList, "THE_VERY_DARK_ROOM_BELOW".toList, "FOYER".toList]
     "MID_ROOM".toList,
   roomFile "THE_VERY_DARK_ROOM_BELOW".toList
     ["KITCHEN".toList, "DINING_ROOM".toList, "PRISON_CELL".toList] "END_ROOM".toList,
   roomFile "DINING_ROOM".toList
     ["THE_VERY_DARK_ROOM_BELOW".toList, "DUNGEON".toList, "LONG_STAIRCASE".toList]
     "MID_ROOM".toList]

/-- The commands `FOYER`, `PRISON_CELL` repeated `n` times: from room 2 of
`loadedRooms` each pair walks to room 1 and back. -/
def pingPong : Nat → List CString
  | 0 => []
  | n + 1 => "FOYER".toList :: "PRISON_CELL".toList :: pingPong n

/-! ### The two threads and the lock on the clock file -/

/-- The threads of the game: the thread of `main`, and the thread `main`
creates to run `writeTime`. -/
inductive Thread where
  | main
  | clock
deriving DecidableEq, Repr

/-- The state of `fileMutex`: free, or locked by one of the threads. -/
inductive Owner where
  | free
  | main
  | clock
deriving DecidableEq, Repr

/-- Where the thread of `main` stands.

* `start`: before `pthread_mutex_lock(&fileMutex)` in `main`;
* `locked`: after it, before `pthread_create`;
* `loop`: at the test of the `while` loop of `main`;
* `unlocked`: in `executeCommand` on `time`, after `pthread_mutex_unlock`: in
  `sleep(2)` or in `pthread_mutex_lock`;
* `relocked`: `pthread_mutex_lock` has returned, the file is not yet read;
* `finished`: after the loop;
* `crashed`: the process has faulted. -/
inductive MainPc where
  | start
  | locked
  | loop
  | unlocked
  | relocked
  | finished
  | crashed
deriving DecidableEq, Repr

/-- Where the thread of `writeTime` stands.

* `absent`: not yet created;
* `waiting`: in `pthread_mutex_lock` at the top of the loop;
* `writing`: the lock is taken, the file is not yet written;
* `written`: the file is written and closed, before `pthread_mutex_unlock`;
* `sleeping`: after the unlock, in `sleep(2)`. -/
inductive ClockPc where
  | absent
  | waiting
  | writing
  | written
  | sleeping
deriving DecidableEq, Repr

/-- The state of the game process as far as the lock is concerned.
`timeCommands` counts the `time` commands the thread of `main` has begun to
execute, `published` the times `writeTime` has written `currentTime.txt`,
`fileExists` tells whether that file exists, and `reads` lists, last first,
who held the lock at each read of the file by `executeCommand`. -/
structure Sys where
  owner : Owner
  mainPc : MainPc
  clockPc : ClockPc
  rooms : List Room
  player : Player
  inputs : List CString
  timeCommands : Nat
  published : Nat
  fileExists : Bool
  reads : List Owner

/-- The process when `main` has loaded the rooms and set up the player, before
it locks `fileMutex`, which `PTHREAD_MUTEX_INITIALIZER` leaves free. -/
def startSys (rooms : List Room) (player : Player) (inputs : List CString)
    (fileExists : Bool) : Sys :=
  { owner := .free, mainPc := .start, clockPc := .absent, rooms := rooms, player := player,
    inputs := inputs, timeCommands := 0, published := 0, fileExists := fileExists,
    reads := [] }

/-- One step of the thread of `main`.  A thread waiting in
`pthread_mutex_lock` or for a line of input stays where it is.  In the loop a
step is one pass up to the return of `executeCommand`, or, on `time`, up to
its `pthread_mutex_unlock`; unlocking a lock the thread does not hold, a fault
of `promptPlayer` or `executeCommand`, and reading a file that does not exist
crash the process. -/
def stepMain (s : Sys) : Sys :=
  match s.mainPc with
  | .start => if s.owner = .free then { s with owner := .main, mainPc := .locked } else s
  | .locked => { s with clockPc := .waiting, mainPc := .loop }
  | .loop =>
    match s.rooms[s.player.curRoom]? with
    | none => { s with mainPc := .crashed }
    | some cur =>
      if cur.type ≠ END_ROOM then
        match promptPlayer s.player s.rooms with
        | none => { s with mainPc := .crashed }
        | some (_, player1, rooms1) =>
          match s.inputs with
          | [] => s
          | cmd :: rest =>
            if cmd = "time".toList then
              if s.owner = .main then
                { s with rooms := rooms1, player := player1, inputs := rest, owner := .free,
                         mainPc := .unlocked, timeCommands := s.timeCommands + 1 }
              else { s with mainPc := .crashed }
            else
              match executeCommand player1 cmd rooms1 with
              | none => { s with mainPc := .crashed }
              | some (_, player2) =>
                { s with rooms := rooms1, player := player2, inputs := rest }
      else { s with mainPc := .finished }
  | .unlocked => if s.owner = .free then { s with owner := .main, mainPc := .relocked } else s
  | .relocked =>
    if s.fileExists then { s with reads := s.owner :: s.reads, mainPc := .loop }
    else { s with mainPc := .crashed }
  | .finished => s
  | .crashed => s

/-- One step of the thread of `writeTime`; it makes none before it is created
and after the process has crashed. -/
def stepClock (s : Sys) : Sys :=
  if s.mainPc = .crashed then s
  else
    match s.clockPc with
    | .absent => s
    | .waiting => if s.owner = .free then { s with owner := .clock, clockPc := .writing } else s
    | .writing => { s with published := s.published + 1, fileExists := true,
                           clockPc := .written }
    | .written =>
      if s.owner = .clock then { s with owner := .free, clockPc := .sleeping }
      else { s with mainPc := .crashed }
    | .sleeping => { s with clockPc := .waiting }

/-- One step of the thread the scheduler picks. -/
def stepThread : Thread → Sys → Sys
  | .main, s => stepMain s
  | .clock, s => stepClock s

/-- The process after the scheduler has picked the threads of `sched` in
order, each for one step. -/
def runSchedule : List Thread → Sys → Sys
  | [], s => s
  | t :: sched, s => runSchedule sched (stepThread t s)

/-- What every interleaving keeps true of the lock: while `main` has not
created the thread of `writeTime` nothing has happened; the thread of `main`
holds the lock everywhere but between the unlock and the lock of a `time`
command, where it does not; the thread of `writeTime` holds it exactly while
it writes; before the first `time` command that thread has not got past its
`pthread_mutex_lock`; and every read of the file was made with the lock
held by the thread of `main`. -/
def LockInv (s : Sys) : Prop :=
  (s.mainPc = .start → s.owner = .free ∧ s.clockPc = .absent ∧ s.timeCommands = 0) ∧
  (s.mainPc = .locked → s.owner = .main ∧ s.clockPc = .absent ∧ s.timeCommands = 0) ∧
  (s.mainPc = .loop ∨ s.mainPc = .relocked ∨ s.mainPc = .finished ∨ s.mainPc = .crashed →
    s.owner = .main) ∧
  (s.mainPc = .unlocked → s.owner ≠ .main ∧ 0 < s.timeCommands) ∧
  (s.owner = .clock ↔ s.clockPc = .writing ∨ s.clockPc = .written) ∧
  (s.timeCommands = 0 →
    (s.clockPc = .absent ∨ s.clockPc = .waiting) ∧ s.published = 0) ∧
  (∀ o ∈ s.reads, o = Owner.main)

end Adventure

/-! ## Proofs: `assignRandomTypes` -/

namespace Buildrooms

theorem setType_length {rooms rooms1 : List Room} {i : Nat} {t : Int}
    (h : setType rooms i t = some rooms1) : rooms1.length = rooms.length := by
  unfold setType at h
  split at h
  · simp at h
  · simp only [Option.some.injEq] at h
    subst h
    simp

theorem setType_type {rooms rooms1 : List Room} {i : Nat} {t : Int}
    (h : setType rooms i t = some rooms1) (j : Nat) :
    (rooms1[j]?).map Room.type =
      if j = i then some t else (rooms[j]?).map Room.type := by
  unfold setType at h
  split at h
  · simp at h
  · rename_i r hr
    simp only [Option.some.injEq] at h
    subst h
    have hi : i < rooms.length := by
      rcases Nat.lt_or_ge i rooms.length with hlt | hge
      · exact hlt
      · rw [List.getElem?_eq_none hge] at hr
        simp at hr
    by_cases hji : j = i
    · subst hji
      simp [List.getElem?_set, hi]
    · have hij : i ≠ j := fun e => hji e.symm
      simp [List.getElem?_set, hij, hji]

theorem assignMidLoop_spec :
    ∀ (k i : Nat) (rooms rooms1 : List Room),
      assignMidLoop k i rooms = some rooms1 →
      rooms1.length = rooms.length ∧
      ∀ j, j < rooms.length →
        (rooms1[j]?).map Room.type =
          if i ≤ j ∧ j < i + k then some 2 else (rooms[j]?).map Room.type := by
  intro k
  induction k with
  | zero =>
    intro i rooms rooms1 h
    simp only [assignMidLoop, Option.some.injEq] at h
    subst h
    refine ⟨rfl, ?_⟩
    intro j _
    have hno : ¬ (i ≤ j ∧ j < i + 0) := by omega
    rw [if_neg hno]
  | succ k ih =>
    intro i rooms rooms1 h
    simp only [assignMidLoop] at h
    split at h
    · simp at h
    · rename_i rooms2 h2
      obtain ⟨hl, hty⟩ := ih (i + 1) rooms2 rooms1 h
      have hl2 := setType_length h2
      refine ⟨by omega, ?_⟩
      intro j hj
      rw [hty j (by omega), setType_type h2 j]
      by_cases hji : j = i
      · subst hji
        have h1 : ¬ (j + 1 ≤ j ∧ j < j + 1 + k) := by omega
        have h2 : (j ≤ j ∧ j < j + (k + 1)) := by omega
        simp [h1, h2]
      · by_cases hin : i + 1 ≤ j ∧ j < i + 1 + k
        · have h2 : (i ≤ j ∧ j < i + (k + 1)) := by omega
          simp [hin, h2]
        · have h2 : ¬ (i ≤ j ∧ j < i + (k + 1)) := by omega
          simp [hin, h2, hji]

theorem pickEndRoom_spec (count startRoom : Nat) (hc : 0 < count) :
    ∀ (ds : List Nat) (e : Nat) (rest : List Nat),
      pickEndRoom count startRoom ds = .done (e, rest) →
      e ≠ startRoom ∧ e < count := by
  intro ds
  induction ds with
  | nil => intro e rest h; simp [pickEndRoom] at h
  | cons d ds ih =>
    intro e rest h
    simp only [pickEndRoom] at h
    split at h
    · exact ih e rest h
    · simp only [Outcome.done.injEq, Prod.mk.injEq] at h
      obtain ⟨he, _⟩ := h
      subst he
      exact ⟨by assumption, Nat.mod_lt _ hc⟩

/-- C1. For a room array of `count ≥ 2` rooms and draws for which
`assignRandomTypes` returns, there are two different indices `s` and `e` such
that room `s` has type `START_ROOM`, room `e` has type `END_ROOM` and every
other room has type `MID_ROOM`: exactly one start, exactly one end, the rest
mid. -/
theorem assignRandomTypes_one_start_one_end
    (rooms : List Room) (count : Nat) (draws : List Nat)
    (rooms1 : List Room) (rest : List Nat)
    (hlen : rooms.length = count) (hcount : 2 ≤ count)
    (hret : assignRandomTypes rooms count draws = .done (rooms1, rest)) :
    rooms1.length = count ∧
    ∃ s e, s < count ∧ e < count ∧ s ≠ e ∧
      ∀ i, i < count →
        (rooms1[i]?).map Room.type =
          some (if i = s then START_ROOM else if i = e then END_ROOM else MID_ROOM) := by
  unfold assignRandomTypes at hret
  split at hret
  · simp at hret
  rename_i roomsM hM
  have hc0 : count ≠ 0 := by omega
  rw [if_neg hc0] at hret
  cases draws with
  | nil => simp at hret
  | cons d ds =>
    simp only at hret
    split at hret
    · simp at hret
    · simp at hret
    rename_i e rest1 hpick
    split at hret
    · simp at hret
    rename_i roomsS hS
    split at hret
    · simp at hret
    rename_i roomsE hE
    simp only [Outcome.done.injEq, Prod.mk.injEq] at hret
    obtain ⟨h1, _⟩ := hret
    subst h1
    obtain ⟨hMl, hMt⟩ := assignMidLoop_spec count 0 rooms roomsM hM
    obtain ⟨hes, hec⟩ := pickEndRoom_spec count (d % count) (by omega) ds e rest1 hpick
    have hSl := setType_length hS
    have hEl := setType_length hE
    refine ⟨by omega, d % count, e, Nat.mod_lt _ (by omega), hec, fun h => hes h.symm, ?_⟩
    intro i hi
    rw [setType_type hE i, setType_type hS i, hMt i (by omega)]
    have hin : 0 ≤ i ∧ i < 0 + count := by omega
    by_cases h1 : i = e
    · have h2 : ¬ i = d % count := by omega
      simp [h1, hes, END_ROOM]
    · by_cases h2 : i = d % count
      · simp [h1, h2, START_ROOM]
        intro h3
        omega
      · simp [h1, h2, hin, MID_ROOM]
        intro h3
        omega

/-- Witness for C1: the seven initialised rooms and the draws 9, 2, 2, 5
(start room 2, a rejected draw, end room 5). -/
theorem assignRandomTypes_one_start_one_end_witness :
    initRooms.length = 7 ∧ 2 ≤ 7 ∧
    assignRandomTypes initRooms 7 [9, 2, 2, 5] = .done (typedRooms, []) ∧
    typedRooms.length = 7 ∧
    ∃ s e, s < 7 ∧ e < 7 ∧ s ≠ e ∧
      ∀ i, i < 7 →
        (typedRooms[i]?).map Room.type =
          some (if i = s then START_ROOM else if i = e then END_ROOM else MID_ROOM) :=
  ⟨by decide, by decide, by decide,
   assignRandomTypes_one_start_one_end initRooms 7 [9, 2, 2, 5] typedRooms []
      (by decide) (by decide) (by decide)⟩

end Buildrooms

/-! ## Proofs: the edge-fill phase -/

namespace Buildrooms

theorem take_set_self {α : Type} (l : List α) (n : Nat) (a : α) :
    (l.set n a).take n = l.take n := by
  apply List.ext_getElem?
  intro m
  simp only [List.getElem?_take, List.getElem?_set]
  by_cases h : m < n
  · have : n ≠ m := by omega
    simp [h, this]
  · simp [h]

theorem take_set_succ {α : Type} (l : List α) (n : Nat) (a : α) (h : n < l.length) :
    (l.set n a).take (n + 1) = l.take n ++ [a] := by
  rw [List.take_succ, take_set_self]
  simp [h]

theorem links_withConnection (rx : Room) (y : Nat)
    (h : rx.numConnections < rx.connections.length) :
    links (withConnection rx y) = links rx ++ [some y] := by
  simp only [links, withConnection]
  exact take_set_succ _ _ _ h

theorem unconnectedLoop_nonzero (rx : Room) (y : Nat) :
    ∀ (k i : Nat) (u : Int), unconnectedLoop rx y k i = some u → u ≠ 0 →
      some y ∉ (rx.connections.drop i).take k := by
  intro k
  induction k with
  | zero => intro i u _ _; simp
  | succ k ih =>
    intro i u h hu
    simp only [unconnectedLoop] at h
    split at h
    · simp at h
    · rename_i p hp
      split at h
      · simp only [Option.some.injEq] at h
        exact absurd h.symm hu
      · rename_i hne
        have hi : i < rx.connections.length := by
          rcases Nat.lt_or_ge i rx.connections.length with hlt | hge
          · exact hlt
          · rw [List.getElem?_eq_none hge] at hp
            simp at hp
        have hpe : rx.connections[i] = p := by
          rw [List.getElem?_eq_getElem hi] at hp
          simpa using hp
        rw [List.drop_eq_getElem_cons hi, List.take_succ_cons, hpe]
        intro hmem
        rcases List.mem_cons.mp hmem with h1 | h1
        · exact hne h1.symm
        · exact ih (i + 1) u h hu h1

theorem unconnectedLoop_zero (rx : Room) (y : Nat) :
    ∀ (k i : Nat), unconnectedLoop rx y k i = some 0 →
      some y ∈ (rx.connections.drop i).take k := by
  intro k
  induction k with
  | zero => intro i h; simp [unconnectedLoop] at h
  | succ k ih =>
    intro i h
    simp only [unconnectedLoop] at h
    split at h
    · simp at h
    · rename_i p hp
      have hi : i < rx.connections.length := by
        rcases Nat.lt_or_ge i rx.connections.length with hlt | hge
        · exact hlt
        · rw [List.getElem?_eq_none hge] at hp
          simp at hp
      have hpe : rx.connections[i] = p := by
        rw [List.getElem?_eq_getElem hi] at hp
        simpa using hp
      rw [List.drop_eq_getElem_cons hi, List.take_succ_cons, hpe]
      split at h
      · rename_i heq
        rw [heq]
        exact List.mem_cons_self _ _
      · exact List.mem_cons_of_mem _ (ih (i + 1) h)

theorem unconnected_nonzero {rooms : List Room} {x y : Nat} {u : Int}
    (h : unconnected rooms x y = some u) (hu : u ≠ 0) :
    ∃ rx, rooms[x]? = some rx ∧ some y ∉ links rx := by
  unfold unconnected at h
  split at h
  · simp at h
  · rename_i rx hrx
    refine ⟨rx, hrx, ?_⟩
    have := unconnectedLoop_nonzero rx y rx.numConnections 0 u h hu
    simpa [links] using this

theorem unconnected_zero {rooms : List Room} {x y : Nat}
    (h : unconnected rooms x y = some 0) : connectedTo rooms x y := by
  unfold unconnected at h
  split at h
  · simp at h
  · rename_i rx hrx
    refine ⟨rx, hrx, ?_⟩
    have := unconnectedLoop_zero rx y rx.numConnections 0 h
    simpa [links] using this

theorem pickFirst_spec (rooms : List Room) (count : Nat) :
    ∀ (ds : List Nat) (x : Nat) (rest : List Nat),
      pickFirst rooms count ds = .done (x, rest) →
      x < count ∧ ∃ rx, rooms[x]? = some rx ∧ rx.numConnections < MAX_CONNECTIONS := by
  intro ds
  induction ds with
  | nil => intro x rest h; simp [pickFirst] at h
  | cons d ds ih =>
    intro x rest h
    simp only [pickFirst, getRandomRoom, canAddConnectionFrom] at h
    by_cases hc : count = 0
    · simp [hc] at h
    · simp only [hc, if_false] at h
      cases hr : rooms[d % count]? with
      | none => simp [hr] at h
      | some r =>
        simp only [hr] at h
        by_cases hn : r.numConnections < MAX_CONNECTIONS
        · simp only [hn, if_true, Outcome.done.injEq, Prod.mk.injEq] at h
          obtain ⟨hx, _⟩ := h
          subst hx
          exact ⟨Nat.mod_lt _ (by omega), r, hr, hn⟩
        · simp only [hn, if_false] at h
          exact ih x rest (by simpa using h)

theorem pickSecond_spec (rooms : List Room) (count x : Nat) :
    ∀ (ds : List Nat) (y : Nat) (rest : List Nat),
      pickSecond rooms count x ds = .done (y, rest) →
      y < count ∧ x ≠ y ∧ ∃ ry, rooms[y]? = some ry ∧ ry.numConnections < MAX_CONNECTIONS := by
  intro ds
  induction ds with
  | nil => intro y rest h; simp [pickSecond] at h
  | cons d ds ih =>
    intro y rest h
    simp only [pickSecond, getRandomRoom, canAddConnectionFrom, isSameRoom] at h
    by_cases hc : count = 0
    · simp [hc] at h
    · simp only [hc, if_false] at h
      cases hr : rooms[d % count]? with
      | none => simp [hr] at h
      | some r =>
        simp only [hr] at h
        by_cases hn : r.numConnections < MAX_CONNECTIONS
        · by_cases hxy : x = d % count
          · have hor : ((1 : Int) = 0 ∨ (if x = d % count then (1 : Int) else 0) = 1) := by
              right; simp [hxy]
            simp only [hn, if_true] at h
            rw [if_pos hor] at h
            exact ih y rest h
          · simp only [hn, hxy, if_true, if_false] at h
            simp only [one_ne_zero, zero_ne_one, or_self, if_false, Outcome.done.injEq,
              Prod.mk.injEq] at h
            obtain ⟨hy, _⟩ := h
            subst hy
            exact ⟨Nat.mod_lt _ (by omega), hxy, r, hr, hn⟩
        · simp only [hn, if_false, true_or, if_true] at h
          exact ih y rest h

theorem connectRoom_spec {rooms rooms1 : List Room} {x y : Nat}
    (h : connectRoom rooms x y = some rooms1) :
    ∃ rx, rooms[x]? = some rx ∧ rx.numConnections < rx.connections.length ∧
      rooms1 = rooms.set x (withConnection rx y) := by
  unfold connectRoom at h
  split at h
  · simp at h
  · rename_i rx hrx
    split at h
    · rename_i hlt
      simp only [Option.some.injEq] at h
      exact ⟨rx, hrx, hlt, h.symm⟩
    · simp at h

theorem connectIfUnconnected_effect {rooms rooms1 : List Room} {x y : Nat} (hxy : x ≠ y)
    (h : connectIfUnconnected rooms x y = some rooms1) :
    (rooms1 = rooms ∧ (connectedTo rooms x y ∨ connectedTo rooms y x)) ∨
    ∃ rx ry, rooms[x]? = some rx ∧ rooms[y]? = some ry ∧
      rx.numConnections < rx.connections.length ∧ ry.numConnections < ry.connections.length ∧
      some y ∉ links rx ∧ some x ∉ links ry ∧
      rooms1 = (rooms.set x (withConnection rx y)).set y (withConnection ry x) := by
  unfold connectIfUnconnected at h
  split at h
  · simp at h
  rename_i u1 hu1
  split at h
  · rename_i hz
    subst hz
    simp only [Option.some.injEq] at h
    exact Or.inl ⟨h.symm, Or.inl (unconnected_zero hu1)⟩
  rename_i hnz1
  split at h
  · simp at h
  rename_i u2 hu2
  split at h
  · rename_i hz
    subst hz
    simp only [Option.some.injEq] at h
    exact Or.inl ⟨h.symm, Or.inr (unconnected_zero hu2)⟩
  rename_i hnz2
  split at h
  · simp at h
  rename_i roomsA hA
  obtain ⟨rx, hrx, hxlt, hAeq⟩ := connectRoom_spec hA
  obtain ⟨ry, hry, hylt, hBeq⟩ := connectRoom_spec h
  obtain ⟨rx2, hrx2, hnx⟩ := unconnected_nonzero hu1 hnz1
  obtain ⟨ry2, hry2, hny⟩ := unconnected_nonzero hu2 hnz2
  rw [hrx] at hrx2
  simp only [Option.some.injEq] at hrx2
  subst hrx2
  have hry0 : rooms[y]? = some ry := by
    rw [hAeq, List.getElem?_set] at hry
    simpa [hxy] using hry
  rw [hry0] at hry2
  simp only [Option.some.injEq] at hry2
  subst hry2
  refine Or.inr ⟨rx, ry, hrx, hry0, hxlt, hylt, hnx, hny, ?_⟩
  rw [hBeq, hAeq]

theorem addRandomConnection_effect {rooms rooms1 : List Room} {count : Nat}
    {draws rest : List Nat}
    (h : addRandomConnection rooms count draws = .done (rooms1, rest)) :
    (rooms1 = rooms ∧ ∃ x y, x < count ∧ y < count ∧ x ≠ y ∧
        (connectedTo rooms x y ∨ connectedTo rooms y x)) ∨
    ∃ x y, x < count ∧ y < count ∧ EdgeAdded rooms rooms1 x y := by
  unfold addRandomConnection at h
  split at h
  · simp at h
  · simp at h
  rename_i x ds1 hx
  split at h
  · simp at h
  · simp at h
  rename_i y ds2 hy
  split at h
  · simp at h
  rename_i roomsA hA
  simp only [Outcome.done.injEq, Prod.mk.injEq] at h
  obtain ⟨h1, _⟩ := h
  subst h1
  obtain ⟨hxc, rx, hrx, hxn⟩ := pickFirst_spec rooms count draws x ds1 hx
  obtain ⟨hyc, hxy, ry, hry, hyn⟩ := pickSecond_spec rooms count x ds1 y ds2 hy
  rcases connectIfUnconnected_effect hxy hA with ⟨he, hc⟩ | ⟨rx2, ry2, hrx2, hry2, h3, h4, h5, h6, h7⟩
  · exact Or.inl ⟨he, x, y, hxc, hyc, hxy, hc⟩
  · rw [hrx] at hrx2
    rw [hry] at hry2
    simp only [Option.some.injEq] at hrx2 hry2
    subst hrx2
    subst hry2
    exact Or.inr ⟨x, y, hxc, hyc, hxy, rx, ry, hrx, hry, hxn, hyn, h3, h4, h5, h6, h7⟩

/-- After an edge between `x` and `y` is added, room `i` is the old room `i`
with one more entry when `i` is `x` or `y`, and the old room otherwise. -/
theorem EdgeAdded.room {rooms rooms1 : List Room} {x y : Nat}
    (h : EdgeAdded rooms rooms1 x y) (i : Nat) (r1 : Room) (hr1 : rooms1[i]? = some r1) :
    ∃ r, rooms[i]? = some r ∧ r1.name = r.name ∧ r1.type = r.type ∧
      r1.connections.length = r.connections.length ∧
      links r1 = links r ++ (if i = x then [some y] else if i = y then [some x] else []) ∧
      r1.numConnections = r.numConnections + (if i = x ∨ i = y then 1 else 0) := by
  obtain ⟨hxy, rx, ry, hrx, hry, _, _, hxl, hyl, _, _, heq⟩ := h
  subst heq
  have hxlen : x < rooms.length := by
    rcases Nat.lt_or_ge x rooms.length with hlt | hge
    · exact hlt
    · rw [List.getElem?_eq_none hge] at hrx
      simp at hrx
  have hylen : y < rooms.length := by
    rcases Nat.lt_or_ge y rooms.length with hlt | hge
    · exact hlt
    · rw [List.getElem?_eq_none hge] at hry
      simp at hry
  rw [List.getElem?_set, List.getElem?_set] at hr1
  by_cases hiy : y = i
  · subst hiy
    have hyx : ¬ y = x := fun e => hxy e.symm
    simp only [List.length_set, hylen, if_true, Option.some.injEq] at hr1
    subst hr1
    refine ⟨ry, hry, rfl, rfl, by simp [withConnection], ?_, ?_⟩
    · rw [links_withConnection ry x hyl]
      simp [hyx]
    · simp [withConnection]
  · simp only [hiy, if_false] at hr1
    by_cases hix : x = i
    · subst hix
      simp only [hxlen, if_true, Option.some.injEq] at hr1
      subst hr1
      refine ⟨rx, hrx, rfl, rfl, by simp [withConnection], ?_, ?_⟩
      · rw [links_withConnection rx y hxl]
        simp
      · simp [withConnection]
    · simp only [hix, if_false] at hr1
      have h1 : ¬ i = x := fun e => hix e.symm
      have h2 : ¬ i = y := fun e => hiy e.symm
      exact ⟨r1, hr1, rfl, rfl, rfl, by simp [h1, h2], by simp [h1, h2]⟩

theorem EdgeAdded.length {rooms rooms1 : List Room} {x y : Nat}
    (h : EdgeAdded rooms rooms1 x y) : rooms1.length = rooms.length := by
  obtain ⟨_, rx, ry, _, _, _, _, _, _, _, _, heq⟩ := h
  subst heq
  simp

theorem mem_of_getElem?_some {α : Type} {l : List α} {i : Nat} {a : α}
    (h : l[i]? = some a) : a ∈ l := List.mem_iff_getElem?.mpr ⟨i, h⟩

theorem Good.of_initialised {rooms : List Room} (h : Initialised rooms) : Good rooms := by
  obtain ⟨hlen, hall⟩ := h
  have hl : ∀ (i : Nat) (r : Room), rooms[i]? = some r → links r = [] := by
    intro i r hr
    have hm : r ∈ rooms := mem_of_getElem?_some hr
    simp [links, (hall r hm).1]
  refine ⟨hlen, ?_, ?_, ?_, ?_⟩
  · intro i r hr
    have hm : r ∈ rooms := mem_of_getElem?_some hr
    obtain ⟨h0, hc⟩ := hall r hm
    rw [hc, h0]
    simp
  · intro i r hr p hp
    rw [hl i r hr] at hp
    simp at hp
  · intro i r hr
    rw [hl i r hr]
    exact List.nodup_nil
  · intro i j ri rj hri _ hmem
    rw [hl i ri hri] at hmem
    simp at hmem

theorem Good.edgeAdded {rooms rooms1 : List Room} {x y : Nat} (hg : Good rooms)
    (hx : x < NUM_ROOMS) (hy : y < NUM_ROOMS) (h : EdgeAdded rooms rooms1 x y) :
    Good rooms1 := by
  have hroom := EdgeAdded.room h
  have hlen := EdgeAdded.length h
  obtain ⟨hxy, rx, ry, hrx, hry, hxn, hyn, _, _, hnx, hny, _⟩ := h
  refine ⟨by rw [hlen]; exact hg.len, ?_, ?_, ?_, ?_⟩
  · intro i r1 hr1
    obtain ⟨r, hr, _, _, hcl, _, hnum⟩ := hroom i r1 hr1
    obtain ⟨hs1, hs2⟩ := hg.slots i r hr
    refine ⟨by rw [hcl]; exact hs1, ?_⟩
    rw [hnum]
    by_cases hix : i = x
    · subst hix
      rw [hrx] at hr
      simp only [Option.some.injEq] at hr
      subst hr
      simp only [true_or, if_true]
      omega
    · by_cases hiy : i = y
      · subst hiy
        rw [hry] at hr
        simp only [Option.some.injEq] at hr
        subst hr
        simp only [or_true, if_true]
        omega
      · simp only [hix, hiy, or_self, if_false]
        omega
  · intro i r1 hr1 p hp
    obtain ⟨r, hr, _, _, _, hlk, _⟩ := hroom i r1 hr1
    rw [hlk] at hp
    rcases List.mem_append.mp hp with hp | hp
    · exact hg.valid i r hr p hp
    · by_cases hix : i = x
      · rw [if_pos hix] at hp
        exact ⟨y, List.mem_singleton.mp hp, hy, by omega⟩
      · rw [if_neg hix] at hp
        by_cases hiy : i = y
        · rw [if_pos hiy] at hp
          exact ⟨x, List.mem_singleton.mp hp, hx, by omega⟩
        · rw [if_neg hiy] at hp
          simp at hp
  · intro i r1 hr1
    obtain ⟨r, hr, _, _, _, hlk, _⟩ := hroom i r1 hr1
    rw [hlk]
    have hnd := hg.nodup i r hr
    by_cases hix : i = x
    · subst hix
      rw [hrx] at hr
      simp only [Option.some.injEq] at hr
      subst hr
      simp only [if_true]
      exact List.Nodup.append hnd (List.nodup_singleton _)
        (by
          intro a ha hb
          rw [List.mem_singleton.mp hb] at ha
          exact hnx ha)
    · by_cases hiy : i = y
      · subst hiy
        rw [hry] at hr
        simp only [Option.some.injEq] at hr
        subst hr
        simp only [hix, if_true, if_false]
        exact List.Nodup.append hnd (List.nodup_singleton _)
          (by
            intro a ha hb
            rw [List.mem_singleton.mp hb] at ha
            exact hny ha)
      · simpa [hix, hiy] using hnd
  · intro i j ri1 rj1 hri1 hrj1 hmem
    obtain ⟨ri, hri, _, _, _, hlki, _⟩ := hroom i ri1 hri1
    obtain ⟨rj, hrj, _, _, _, hlkj, _⟩ := hroom j rj1 hrj1
    rw [hlki] at hmem
    rw [hlkj]
    rcases List.mem_append.mp hmem with hm | hm
    · exact List.mem_append_left _ (hg.symm i j ri rj hri hrj hm)
    · apply List.mem_append_right
      by_cases hix : i = x
      · rw [if_pos hix] at hm
        have hjy : j = y := by simpa using hm
        have hjx : ¬ j = x := by omega
        rw [if_neg hjx, if_pos hjy, hix]
        exact List.mem_singleton_self _
      · rw [if_neg hix] at hm
        by_cases hiy : i = y
        · rw [if_pos hiy] at hm
          have hjx : j = x := by simpa using hm
          rw [if_pos hjx, hiy]
          exact List.mem_singleton_self _
        · rw [if_neg hiy] at hm
          simp at hm

theorem Good.addRandomConnection {rooms rooms1 : List Room} {draws rest : List Nat}
    (hg : Good rooms)
    (h : addRandomConnection rooms NUM_ROOMS draws = .done (rooms1, rest)) : Good rooms1 := by
  rcases addRandomConnection_effect h with ⟨he, _⟩ | ⟨x, y, hx, hy, hadd⟩
  · rw [he]
    exact hg
  · exact Good.edgeAdded hg hx hy hadd

theorem Reachable.good {rooms : List Room} (h : Reachable rooms) : Good rooms := by
  induction h with
  | init rooms hinit => exact Good.of_initialised hinit
  | step rooms draws rooms1 rest _ hstep ih => exact Good.addRandomConnection ih hstep

theorem graphIsFullLoop_full (rooms : List Room) :
    ∀ (k i : Nat) (f : Int), graphIsFullLoop rooms k i = some f → f ≠ 0 →
      ∀ j, i ≤ j → j < i + k →
        ∃ r, rooms[j]? = some r ∧
          MIN_CONNECTIONS ≤ r.numConnections ∧ r.numConnections ≤ MAX_CONNECTIONS := by
  intro k
  induction k with
  | zero => intro i f _ _ j h1 h2; omega
  | succ k ih =>
    intro i f h hf j h1 h2
    simp only [graphIsFullLoop] at h
    split at h
    · simp at h
    · rename_i r hr
      split at h
      · rename_i hmax
        split at h
        · simp only [Option.some.injEq] at h
          exact absurd h.symm hf
        · rename_i hmin
          by_cases hji : j = i
          · subst hji
            exact ⟨r, hr, by omega, hmax⟩
          · exact ih (i + 1) f h hf j (by omega) (by omega)
      · simp at h

theorem initialised_initRooms : Initialised initRooms := by
  refine ⟨by decide, ?_⟩
  intro r hr
  have : r = initRoom := List.eq_of_mem_replicate hr
  subst this
  exact ⟨rfl, rfl⟩

theorem fillLoop_done :
    ∀ (fuel : Nat) (rooms : List Room) (draws : List Nat) (rooms1 : List Room)
      (rest : List Nat),
      fillLoop fuel rooms draws = .done (rooms1, rest) → Reachable rooms →
      Reachable rooms1 ∧ ∃ f, graphIsFull rooms1 NUM_ROOMS = some f ∧ f ≠ 0 := by
  intro fuel
  induction fuel with
  | zero => intro rooms draws rooms1 rest h _; simp [fillLoop] at h
  | succ fuel ih =>
    intro rooms draws rooms1 rest h hreach
    simp only [fillLoop] at h
    split at h
    · simp at h
    · rename_i f hf
      split at h
      · split at h
        · simp at h
        · simp at h
        · rename_i rooms2 ds hstep
          exact ih rooms2 ds rooms1 rest h (Reachable.step rooms draws rooms2 ds hreach hstep)
      · rename_i hne
        simp only [Outcome.done.injEq, Prod.mk.injEq] at h
        obtain ⟨h1, _⟩ := h
        subst h1
        exact ⟨hreach, f, hf, hne⟩

theorem getElem?_of_lt_good {rooms : List Room} (hg : Good rooms) {i : Nat}
    (hi : i < NUM_ROOMS) : ∃ r, rooms[i]? = some r := by
  have : i < rooms.length := by rw [hg.len]; exact hi
  exact ⟨rooms[i], List.getElem?_eq_getElem this⟩

/-- C2. When the edge-fill loop, started from the 7 initialised rooms with no
connections, finishes, there are still 7 rooms and each has between
`MIN_CONNECTIONS` = 3 and `MAX_CONNECTIONS` = 6 connections. -/
theorem fillLoop_degree_bounds (fuel : Nat) (rooms0 : List Room) (draws : List Nat)
    (rooms1 : List Room) (rest : List Nat)
    (hinit : Initialised rooms0)
    (hrun : fillLoop fuel rooms0 draws = .done (rooms1, rest)) :
    rooms1.length = 7 ∧
    ∀ r ∈ rooms1, 3 ≤ r.numConnections ∧ r.numConnections ≤ 6 := by
  obtain ⟨hreach, f, hf, hne⟩ := fillLoop_done fuel rooms0 draws rooms1 rest hrun
    (Reachable.init rooms0 hinit)
  have hlen := hreach.good.len
  refine ⟨hlen, ?_⟩
  intro r hr
  obtain ⟨j, hj⟩ := List.mem_iff_getElem?.mp hr
  have hjlt : j < rooms1.length := by
    rcases Nat.lt_or_ge j rooms1.length with hlt | hge
    · exact hlt
    · rw [List.getElem?_eq_none hge] at hj
      simp at hj
  obtain ⟨r2, hr2, hb⟩ := graphIsFullLoop_full rooms1 NUM_ROOMS 0 f hf hne j (Nat.zero_le _)
    (by rw [hlen] at hjlt; simpa [NUM_ROOMS] using hjlt)
  rw [hj] at hr2
  simp only [Option.some.injEq] at hr2
  subst hr2
  exact hb

/-- Witness for C2: the edge-fill loop on `initRooms` with the draws `fillDraws`
finishes with the rooms `filledRooms`. -/
theorem fillLoop_degree_bounds_witness :
    Initialised initRooms ∧ fillLoop 12 initRooms fillDraws = .done (filledRooms, []) ∧
    filledRooms.length = 7 ∧
    ∀ r ∈ filledRooms, 3 ≤ r.numConnections ∧ r.numConnections ≤ 6 :=
  ⟨initialised_initRooms, by decide,
   fillLoop_degree_bounds 12 initRooms fillDraws filledRooms [] initialised_initRooms
     (by decide)⟩

/-- C3. In every state reachable from the initialised rooms by calls of
`addRandomConnection`, room `b` occurs among the first `numConnections`
connections of room `a` if and only if `a` occurs among those of `b`. -/
theorem reachable_connection_symmetric (rooms : List Room) (h : Reachable rooms)
    (a b : Nat) : connectedTo rooms a b ↔ connectedTo rooms b a := by
  have hg := h.good
  have key : ∀ a b, connectedTo rooms a b → connectedTo rooms b a := by
    intro a b ⟨ra, hra, hmem⟩
    obtain ⟨j, hj, hjlt, _⟩ := hg.valid a ra hra (some b) hmem
    simp only [Option.some.injEq] at hj
    subst hj
    obtain ⟨rb, hrb⟩ := getElem?_of_lt_good hg hjlt
    exact ⟨rb, hrb, hg.symm a b ra rb hra hrb hmem⟩
  exact ⟨key a b, key b a⟩

/-- Witness for C3: after one call on the draws 0, 1 the rooms 0 and 1 list
each other. -/
theorem reachable_connection_symmetric_witness :
    Reachable oneEdgeRooms ∧ (connectedTo oneEdgeRooms 0 1 ↔ connectedTo oneEdgeRooms 1 0) :=
  ⟨Reachable.step initRooms [0, 1] oneEdgeRooms [] (Reachable.init _ initialised_initRooms)
      (by decide),
   reachable_connection_symmetric oneEdgeRooms
     (Reachable.step initRooms [0, 1] oneEdgeRooms [] (Reachable.init _ initialised_initRooms)
      (by decide)) 0 1⟩

/-- C4. In every state reachable from the initialised rooms by calls of
`addRandomConnection`, no room occurs among its own connections and no room
occurs twice among the connections of a room. -/
theorem reachable_irreflexive_nodup (rooms : List Room) (h : Reachable rooms) :
    (∀ a, ¬ connectedTo rooms a a) ∧
    ∀ (a : Nat) (ra : Room), rooms[a]? = some ra → (links ra).Nodup := by
  have hg := h.good
  refine ⟨?_, hg.nodup⟩
  intro a ⟨ra, hra, hmem⟩
  obtain ⟨j, hj, _, hne⟩ := hg.valid a ra hra (some a) hmem
  simp only [Option.some.injEq] at hj
  exact hne hj.symm

/-- Witness for C4: the rooms the edge-fill loop leaves on `fillDraws`. -/
theorem reachable_irreflexive_nodup_witness :
    Reachable filledRooms ∧
    (∀ a, ¬ connectedTo filledRooms a a) ∧
    ∀ (a : Nat) (ra : Room), filledRooms[a]? = some ra → (links ra).Nodup :=
  ⟨(fillLoop_done 12 initRooms fillDraws filledRooms [] (by decide)
      (Reachable.init _ initialised_initRooms)).1,
   reachable_irreflexive_nodup filledRooms
     (fillLoop_done 12 initRooms fillDraws filledRooms [] (by decide)
        (Reachable.init _ initialised_initRooms)).1⟩

theorem Good.links_length {rooms : List Room} (hg : Good rooms) {i : Nat} {r : Room}
    (hr : rooms[i]? = some r) : (links r).length = r.numConnections := by
  obtain ⟨h1, h2⟩ := hg.slots i r hr
  simp only [links, List.length_take]
  omega

/-- Two different rooms that do not list each other, each with at least three
connections among the seven rooms, list a common room. -/
theorem Good.common_neighbour {rooms : List Room} (hg : Good rooms) {a b : Nat}
    {ra rb : Room} (hab : a ≠ b) (ha : a < NUM_ROOMS) (hb : b < NUM_ROOMS)
    (hra : rooms[a]? = some ra) (hrb : rooms[b]? = some rb)
    (h3a : 3 ≤ ra.numConnections) (h3b : 3 ≤ rb.numConnections)
    (hnot : some b ∉ links ra) :
    ∃ w, some w ∈ links ra ∧ some w ∈ links rb := by
  by_contra hcon
  have hdisj : (links ra).Disjoint (links rb) := by
    intro p hpa hpb
    obtain ⟨j, hj, _, _⟩ := hg.valid a ra hra p hpa
    subst hj
    exact hcon ⟨j, hpa, hpb⟩
  have hnd : (links ra ++ links rb).Nodup :=
    List.Nodup.append (hg.nodup a ra hra) (hg.nodup b rb hrb) hdisj
  have hnota : some a ∉ links rb := fun hm => hnot (hg.symm b a rb ra hrb hra hm)
  have hsub : (links ra ++ links rb).toFinset ⊆
      (((Finset.range NUM_ROOMS).erase a).erase b).image some := by
    intro p hp
    rw [List.mem_toFinset, List.mem_append] at hp
    rw [Finset.mem_image]
    rcases hp with hp | hp
    · obtain ⟨j, hj, hjlt, hja⟩ := hg.valid a ra hra p hp
      subst hj
      refine ⟨j, ?_, rfl⟩
      rw [Finset.mem_erase, Finset.mem_erase, Finset.mem_range]
      refine ⟨?_, hja, hjlt⟩
      intro e
      subst e
      exact hnot hp
    · obtain ⟨j, hj, hjlt, hjb⟩ := hg.valid b rb hrb p hp
      subst hj
      refine ⟨j, ?_, rfl⟩
      rw [Finset.mem_erase, Finset.mem_erase, Finset.mem_range]
      refine ⟨hjb, ?_, hjlt⟩
      intro e
      subst e
      exact hnota hp
  have hcard : ((((Finset.range NUM_ROOMS).erase a).erase b).image some).card = 5 := by
    rw [Finset.card_image_of_injective _ (Option.some_injective _)]
    rw [Finset.card_erase_of_mem, Finset.card_erase_of_mem, Finset.card_range]
    · rfl
    · exact Finset.mem_range.mpr ha
    · rw [Finset.mem_erase]
      exact ⟨fun e => hab e.symm, Finset.mem_range.mpr hb⟩
  have hle := Finset.card_le_card hsub
  rw [List.toFinset_card_of_nodup hnd, hcard, List.length_append,
    hg.links_length hra, hg.links_length hrb] at hle
  omega

/-- In a good state where every room has at least three connections, any room
is reachable from any other in at most two steps. -/
theorem Good.connected {rooms : List Room} (hg : Good rooms)
    (hdeg : ∀ r ∈ rooms, 3 ≤ r.numConnections) (a b : Nat)
    (ha : a < NUM_ROOMS) (hb : b < NUM_ROOMS) :
    Relation.ReflTransGen (connectedTo rooms) a b := by
  by_cases hab : a = b
  · subst hab
    exact Relation.ReflTransGen.refl
  obtain ⟨ra, hra⟩ := getElem?_of_lt_good hg ha
  obtain ⟨rb, hrb⟩ := getElem?_of_lt_good hg hb
  by_cases hadj : some b ∈ links ra
  · exact Relation.ReflTransGen.single ⟨ra, hra, hadj⟩
  · obtain ⟨w, hwa, hwb⟩ := hg.common_neighbour hab ha hb hra hrb
      (hdeg ra (mem_of_getElem?_some hra)) (hdeg rb (mem_of_getElem?_some hrb)) hadj
    obtain ⟨j, hj, hjlt, _⟩ := hg.valid b rb hrb (some w) hwb
    simp only [Option.some.injEq] at hj
    subst hj
    obtain ⟨rw, hrw⟩ := getElem?_of_lt_good hg hjlt
    have hwb2 : some b ∈ links rw := hg.symm b w rb rw hrb hrw hwb
    exact Relation.ReflTransGen.trans
      (Relation.ReflTransGen.single ⟨ra, hra, hwa⟩)
      (Relation.ReflTransGen.single ⟨rw, hrw, hwb2⟩)

theorem fillLoop_full_degree {fuel : Nat} {rooms0 : List Room} {draws : List Nat}
    {rooms1 : List Room} {rest : List Nat} (hinit : Initialised rooms0)
    (hrun : fillLoop fuel rooms0 draws = .done (rooms1, rest)) :
    Good rooms1 ∧ ∀ r ∈ rooms1, 3 ≤ r.numConnections := by
  obtain ⟨hreach, f, hf, hne⟩ := fillLoop_done fuel rooms0 draws rooms1 rest hrun
    (Reachable.init rooms0 hinit)
  refine ⟨hreach.good, ?_⟩
  intro r hr
  obtain ⟨j, hj⟩ := List.mem_iff_getElem?.mp hr
  have hjlt : j < rooms1.length := by
    rcases Nat.lt_or_ge j rooms1.length with hlt | hge
    · exact hlt
    · rw [List.getElem?_eq_none hge] at hj
      simp at hj
  obtain ⟨r2, hr2, hb⟩ := graphIsFullLoop_full rooms1 NUM_ROOMS 0 f hf hne j (Nat.zero_le _)
    (by rw [hreach.good.len] at hjlt; simpa using hjlt)
  rw [hj] at hr2
  simp only [Option.some.injEq] at hr2
  subst hr2
  exact hb.1

/-- C5. Every graph on which the edge-fill loop, started from the 7 initialised
rooms with no connections, finishes is connected: following connections leads
from any room to any other room, so in particular from the room of type
`START_ROOM` to the room of type `END_ROOM`. -/
theorem fillLoop_connected (fuel : Nat) (rooms0 : List Room) (draws : List Nat)
    (rooms1 : List Room) (rest : List Nat)
    (hinit : Initialised rooms0)
    (hrun : fillLoop fuel rooms0 draws = .done (rooms1, rest)) :
    (∀ a b, a < 7 → b < 7 → Relation.ReflTransGen (connectedTo rooms1) a b) ∧
    ∀ (s e : Nat) (rs re : Room), rooms1[s]? = some rs → rooms1[e]? = some re →
      rs.type = START_ROOM → re.type = END_ROOM →
      Relation.ReflTransGen (connectedTo rooms1) s e := by
  obtain ⟨hg, hdeg⟩ := fillLoop_full_degree hinit hrun
  refine ⟨fun a b ha hb => hg.connected hdeg a b ha hb, ?_⟩
  intro s e rs re hrs hre _ _
  have hlt : ∀ (i : Nat) (r : Room), rooms1[i]? = some r → i < NUM_ROOMS := by
    intro i r hr
    rcases Nat.lt_or_ge i rooms1.length with hlt | hge
    · rw [hg.len] at hlt
      exact hlt
    · rw [List.getElem?_eq_none hge] at hr
      simp at hr
  exact hg.connected hdeg s e (hlt s rs hrs) (hlt e re hre)

theorem initialised_dungeonStart : Initialised dungeonStart := by
  refine ⟨by decide, ?_⟩
  decide

/-- Witness for C5: the edge-fill loop takes `dungeonStart` to `dungeon`, whose
start room is room 2 and whose end room is room 5. -/
theorem fillLoop_connected_witness :
    Initialised dungeonStart ∧ fillLoop 12 dungeonStart fillDraws = .done (dungeon, []) ∧
    (∀ a b, a < 7 → b < 7 → Relation.ReflTransGen (connectedTo dungeon) a b) ∧
    ∀ (s e : Nat) (rs re : Room), dungeon[s]? = some rs → dungeon[e]? = some re →
      rs.type = START_ROOM → re.type = END_ROOM →
      Relation.ReflTransGen (connectedTo dungeon) s e :=
  ⟨initialised_dungeonStart, by decide,
   fillLoop_connected 12 dungeonStart fillDraws dungeon [] initialised_dungeonStart
     (by decide)⟩

/-! ## Proofs: `assignRandomNames` -/

theorem assignOneName_spec (i : Nat) (rooms : List Room) (name_map : OneToOneNameMap) :
    ∀ (ds : List Nat) (rooms1 : List Room) (map1 : OneToOneNameMap) (rest : List Nat),
      assignOneName i rooms name_map ds = .done (rooms1, map1, rest) →
      ∃ (idx : Nat) (nm : CString) (r : Room),
        name_map.used_names[idx]? = some 0 ∧ name_map.names[idx]? = some nm ∧
        rooms[i]? = some r ∧ rooms1 = rooms.set i { r with name := some nm } ∧
        map1 = { name_map with used_names := name_map.used_names.set idx 1 } := by
  intro ds
  induction ds with
  | nil => intro rooms1 map1 rest h; simp [assignOneName] at h
  | cons d ds ih =>
    intro rooms1 map1 rest h
    simp only [assignOneName] at h
    split at h
    · simp at h
    split at h
    · simp at h
    rename_i u hu
    split at h
    · rename_i hz
      subst hz
      split at h
      · rename_i nm r hnm hr
        simp only [Outcome.done.injEq, Prod.mk.injEq] at h
        obtain ⟨h1, h2, _⟩ := h
        exact ⟨d % name_map.size, nm, r, hu, hnm, hr, h1.symm, h2.symm⟩
      · simp at h
    · exact ih rooms1 map1 rest h

theorem getElem?_lt_of_some {α : Type} {l : List α} {i : Nat} {a : α}
    (h : l[i]? = some a) : i < l.length := by
  rcases Nat.lt_or_ge i l.length with hlt | hge
  · exact hlt
  · rw [List.getElem?_eq_none hge] at h
    simp at h

theorem NamesAssigned.step {i : Nat} {rooms : List Room} {name_map : OneToOneNameMap}
    (hnd : name_map.names.Nodup) (hinv : NamesAssigned i rooms name_map)
    {idx : Nat} {nm : CString} {r : Room}
    (hu : name_map.used_names[idx]? = some 0) (hnm : name_map.names[idx]? = some nm)
    (hr : rooms[i]? = some r) :
    NamesAssigned (i + 1) (rooms.set i { r with name := some nm })
      { name_map with used_names := name_map.used_names.set idx 1 } := by
  obtain ⟨hA, hB⟩ := hinv
  have hi : i < rooms.length := getElem?_lt_of_some hr
  have hidx : idx < name_map.used_names.length := getElem?_lt_of_some hu
  have hnew : ((rooms.set i { r with name := some nm })[i]?).map Room.name = some (some nm) := by
    simp [List.getElem?_set, hi]
  have hold : ∀ j, j < i →
      ((rooms.set i { r with name := some nm })[j]?).map Room.name =
        (rooms[j]?).map Room.name := by
    intro j hj
    have : i ≠ j := by omega
    simp [List.getElem?_set, this]
  have hdiff : ∀ j, j < i → (rooms[j]?).map Room.name ≠ some (some nm) := by
    intro j hj heq
    obtain ⟨k, nm2, u, hk, hku, hune, hjn⟩ := hA j hj
    rw [hjn] at heq
    simp only [Option.some.injEq] at heq
    subst heq
    have hklt : k < name_map.names.length := getElem?_lt_of_some hk
    have hkidx : k = idx := List.getElem?_inj hklt hnd (by rw [hk, hnm])
    subst hkidx
    rw [hu] at hku
    simp only [Option.some.injEq] at hku
    exact hune hku.symm
  refine ⟨?_, ?_⟩
  · intro j hj
    by_cases hji : j = i
    · subst hji
      refine ⟨idx, nm, 1, hnm, ?_, one_ne_zero, hnew⟩
      simp [List.getElem?_set, hidx]
    · obtain ⟨k, nm2, u, hk, hku, hune, hjn⟩ := hA j (by omega)
      by_cases hkidx : idx = k
      · subst hkidx
        refine ⟨idx, nm2, 1, hk, ?_, one_ne_zero, ?_⟩
        · simp [List.getElem?_set, hidx]
        · rw [hold j (by omega)]
          exact hjn
      · refine ⟨k, nm2, u, hk, ?_, hune, ?_⟩
        · simp only [List.getElem?_set, hkidx, if_false]
          exact hku
        · rw [hold j (by omega)]
          exact hjn
  · intro j1 j2 h1 h2 hne
    by_cases e1 : j1 = i
    · subst e1
      rw [hnew, hold j2 (by omega)]
      exact fun e => hdiff j2 (by omega) e.symm
    · by_cases e2 : j2 = i
      · subst e2
        rw [hnew, hold j1 (by omega)]
        exact hdiff j1 (by omega)
      · rw [hold j1 (by omega), hold j2 (by omega)]
        exact hB j1 j2 (by omega) (by omega) hne

theorem assignRandomNamesFrom_spec :
    ∀ (k i : Nat) (rooms : List Room) (name_map : OneToOneNameMap) (ds : List Nat)
      (rooms1 : List Room) (map1 : OneToOneNameMap) (rest : List Nat),
      assignRandomNamesFrom k i rooms name_map ds = .done (rooms1, map1, rest) →
      name_map.names.Nodup → NamesAssigned i rooms name_map →
      NamesAssigned (i + k) rooms1 map1 ∧ map1.names = name_map.names := by
  intro k
  induction k with
  | zero =>
    intro i rooms name_map ds rooms1 map1 rest h _ hinv
    simp only [assignRandomNamesFrom, Outcome.done.injEq, Prod.mk.injEq] at h
    obtain ⟨h1, h2, _⟩ := h
    subst h1
    subst h2
    exact ⟨hinv, rfl⟩
  | succ k ih =>
    intro i rooms name_map ds rooms1 map1 rest h hnd hinv
    simp only [assignRandomNamesFrom] at h
    split at h
    · simp at h
    · simp at h
    rename_i rooms2 map2 ds2 hone
    obtain ⟨idx, nm, r, hu, hnm, hr, hrooms, hmap⟩ :=
      assignOneName_spec i rooms name_map ds rooms2 map2 ds2 hone
    have hstep := NamesAssigned.step hnd hinv hu hnm hr
    rw [← hrooms, ← hmap] at hstep
    have hnd2 : map2.names.Nodup := by rw [hmap]; exact hnd
    obtain ⟨hfin, hnames⟩ := ih (i + 1) rooms2 map2 ds2 rooms1 map1 rest h hnd2 hstep
    refine ⟨?_, ?_⟩
    · have : i + (k + 1) = i + 1 + k := by omega
      rw [this]
      exact hfin
    · rw [hnames, hmap]

/-- C6. For a name map whose names are pairwise distinct and whose used flags
are all 0, a count not above the map size and draws for which
`assignRandomNames` returns, each of the first `count` rooms holds a name of
the pool and no two of them hold the same name. -/
theorem assignRandomNames_distinct (rooms : List Room) (count : Nat)
    (name_map : OneToOneNameMap) (draws : List Nat)
    (rooms1 : List Room) (map1 : OneToOneNameMap) (rest : List Nat)
    (hnd : name_map.names.Nodup)
    (_hflags : ∀ u ∈ name_map.used_names, u = 0)
    (_hcount : count ≤ name_map.size)
    (hret : assignRandomNames rooms count name_map draws = .done (rooms1, map1, rest)) :
    (∀ i, i < count → ∃ nm ∈ name_map.names, (rooms1[i]?).map Room.name = some (some nm)) ∧
    (∀ i j, i < count → j < count → i ≠ j →
      (rooms1[i]?).map Room.name ≠ (rooms1[j]?).map Room.name) := by
  have hinv0 : NamesAssigned 0 rooms name_map :=
    ⟨fun j hj => absurd hj (Nat.not_lt_zero j), fun j1 _ hj _ _ => absurd hj (Nat.not_lt_zero j1)⟩
  obtain ⟨⟨hA, hB⟩, hnames⟩ :=
    assignRandomNamesFrom_spec count 0 rooms name_map draws rooms1 map1 rest hret hnd hinv0
  rw [Nat.zero_add] at hA hB
  refine ⟨?_, hB⟩
  intro i hi
  obtain ⟨k, nm, _, hk, _, _, hname⟩ := hA i hi
  rw [hnames] at hk
  exact ⟨nm, mem_of_getElem?_some hk, hname⟩

/-- Witness for C6: the ten names of `main`, seven rooms and the draws
3, 3, 13, 0, 9, 1, 21, 5, 6, 8. -/
theorem assignRandomNames_distinct_witness :
    poolMap.names.Nodup ∧ (∀ u ∈ poolMap.used_names, u = 0) ∧ 7 ≤ poolMap.size ∧
    assignRandomNames initRooms 7 poolMap [3, 3, 13, 0, 9, 1, 21, 5, 6, 8]
      = .done (namedRooms, usedMap, []) ∧
    (∀ i, i < 7 → ∃ nm ∈ poolMap.names, (namedRooms[i]?).map Room.name = some (some nm)) ∧
    (∀ i j, i < 7 → j < 7 → i ≠ j →
      (namedRooms[i]?).map Room.name ≠ (namedRooms[j]?).map Room.name) :=
  ⟨by decide, by decide, by decide, by decide,
   assignRandomNames_distinct initRooms 7 poolMap [3, 3, 13, 0, 9, 1, 21, 5, 6, 8]
     namedRooms usedMap [] (by decide) (by decide) (by decide) (by decide)⟩

end Buildrooms

/-! ## Proofs: the room file -/

namespace Buildrooms

theorem printConnections_eq (rooms : List Room) (r : Room) :
    ∀ (cn : List CString) (i : Nat),
      (∀ t, t < cn.length → ∃ (j : Nat) (rj : Room) (nm : CString),
        r.connections[i + t]? = some (some j) ∧ rooms[j]? = some rj ∧ rj.name = some nm ∧
        cn[t]? = some nm) →
      printConnections rooms r cn.length i = some (connectionLines i cn) := by
  intro cn
  induction cn with
  | nil => intro i _; rfl
  | cons nm rest ih =>
    intro i h
    obtain ⟨j, rj, nm2, hslot, hroom, hnm, hcn⟩ := h 0 (by simp)
    simp only [List.getElem?_cons_zero, Option.some.injEq] at hcn
    subst hcn
    have hrest := ih (i + 1) (by
      intro t ht
      obtain ⟨j2, rj2, nm3, h1, h2, h3, h4⟩ := h (t + 1) (by simpa using ht)
      refine ⟨j2, rj2, nm3, ?_, h2, h3, ?_⟩
      · have : i + 1 + t = i + (t + 1) := by omega
        rw [this]
        exact h1
      · simpa using h4)
    simp only [List.length_cons, printConnections]
    rw [Nat.add_zero] at hslot
    rw [hslot]
    simp only [hroom, hnm, hrest, connectionLines]

theorem ConnectionNames.print {rooms : List Room} {r : Room} {cn : List CString}
    (h : ConnectionNames rooms r cn) :
    printConnections rooms r r.numConnections 0 = some (connectionLines 0 cn) := by
  obtain ⟨hlen, hall⟩ := h
  rw [← hlen]
  apply printConnections_eq
  intro t ht
  rw [Nat.zero_add]
  exact hall t (by omega)

/-- C8. For a room with a name, whose connections point at named rooms, and
whose type is 1, 2 or 3, `printRoom` writes exactly the line `ROOM NAME: <name>`,
then one line `CONNECTION i: <name>` for each connection in list order,
numbered from 1, then the line `ROOM TYPE: ` with `START_ROOM`, `MID_ROOM` or
`END_ROOM` for type 1, 2 or 3. -/
theorem printRoom_format (rooms : List Room) (r : Room) (name : CString)
    (cn : List CString)
    (hname : r.name = some name) (hconn : ConnectionNames rooms r cn)
    (htype : r.type = 1 ∨ r.type = 2 ∨ r.type = 3) :
    printRoom rooms r =
      some ("ROOM NAME: ".toList ++ name ++ "\n".toList
        ++ connectionLines 0 cn
        ++ "ROOM TYPE: ".toList
        ++ (if r.type = 1 then "START_ROOM".toList
            else if r.type = 2 then "MID_ROOM".toList else "END_ROOM".toList)
        ++ "\n".toList) ∧
    cn.length = r.numConnections := by
  refine ⟨?_, hconn.1⟩
  unfold printRoom
  rw [hconn.print, hname]
  rcases htype with h | h | h <;> simp [h, typeStr]

theorem connectionNames_dungeonRoom3 :
    ConnectionNames dungeon dungeonRoom3
      ["PRISON_CELL".toList, "KITCHEN".toList, "DUNGEON".toList, "DINING_ROOM".toList] := by
  refine ⟨rfl, ?_⟩
  intro i hi
  have hi4 : i < 4 := hi
  have : i = 0 ∨ i = 1 ∨ i = 2 ∨ i = 3 := by omega
  rcases this with h | h | h | h <;> subst h
  · exact ⟨2, _, _, rfl, rfl, rfl, rfl⟩
  · exact ⟨4, _, _, rfl, rfl, rfl, rfl⟩
  · exact ⟨0, _, _, rfl, rfl, rfl, rfl⟩
  · exact ⟨6, _, _, rfl, rfl, rfl, rfl⟩

/-- Witness for C8: room 3 of `dungeon`. -/
theorem printRoom_format_witness :
    printRoom dungeon dungeonRoom3 =
      some ("ROOM NAME: LONG_STAIRCASE\nCONNECTION 1: PRISON_CELL\nCONNECTION 2: KITCHEN\nCONNECTION 3: DUNGEON\nCONNECTION 4: DINING_ROOM\nROOM TYPE: MID_ROOM\n").toList :=
  (printRoom_format dungeon dungeonRoom3 "LONG_STAIRCASE".toList
    ["PRISON_CELL".toList, "KITCHEN".toList, "DUNGEON".toList, "DINING_ROOM".toList]
    rfl connectionNames_dungeonRoom3 (Or.inr (Or.inl rfl))).1

end Buildrooms

namespace Adventure

theorem skipSpace_word (nm rest : List Char) (hne : nm ≠ [])
    (hns : ∀ c ∈ nm, isspace c = false) : skipSpace (nm ++ rest) = nm ++ rest := by
  cases nm with
  | nil => exact absurd rfl hne
  | cons c cs =>
    have hc : isspace c = false := hns c (List.mem_cons_self _ _)
    simp [skipSpace, hc]

theorem takeWord_word (nm rest : List Char) (hns : ∀ c ∈ nm, isspace c = false) :
    takeWord (nm ++ '\n' :: rest) = (nm, '\n' :: rest) := by
  induction nm with
  | nil => simp [takeWord, isspace]
  | cons c cs ih =>
    have hc : isspace c = false := hns c (List.mem_cons_self _ _)
    have ih2 := ih (fun d hd => hns d (List.mem_cons_of_mem _ hd))
    simp [takeWord, hc, ih2]

theorem parseFormat_name :
    parseFormat "ROOM NAME: %s\n".toList =
      [.lit 'R', .lit 'O', .lit 'O', .lit 'M', .space, .lit 'N', .lit 'A', .lit 'M', .lit 'E',
       .lit ':', .space, .str, .space] := by decide

theorem parseFormat_type :
    parseFormat "ROOM TYPE: %s\n".toList =
      [.lit 'R', .lit 'O', .lit 'O', .lit 'M', .space, .lit 'T', .lit 'Y', .lit 'P', .lit 'E',
       .lit ':', .space, .str, .space] := by decide

theorem parseFormat_connection :
    parseFormat "CONNECTION %i: %s\n".toList =
      [.lit 'C', .lit 'O', .lit 'N', .lit 'N', .lit 'E', .lit 'C', .lit 'T', .lit 'I', .lit 'O',
       .lit 'N', .space, .int, .lit ':', .space, .str, .space] := by decide

/-- Scanning the line `ROOM NAME: <nm>` stores `nm` and leaves what follows
the white space after it. -/
theorem fscanf_name_line (nm rest : List Char) (hne : nm ≠ [])
    (hns : ∀ c ∈ nm, isspace c = false) :
    fscanf ("ROOM NAME: ".toList ++ (nm ++ ("\n".toList ++ rest))) "ROOM NAME: %s\n"
      = ([Item.str nm], skipSpace rest) := by
  have ht : "ROOM NAME: ".toList = ['R', 'O', 'O', 'M', ' ', 'N', 'A', 'M', 'E', ':', ' '] := by
    decide
  have hn : "\n".toList = ['\n'] := by decide
  unfold fscanf
  rw [parseFormat_name, ht, hn]
  simp [scanf, skipSpace, isspace, skipSpace_word nm _ hne hns, takeWord_word nm _ hns, hne]

/-- Scanning the line `ROOM TYPE: <tag>` stores `tag`. -/
theorem fscanf_type_line (tag rest : List Char) (hne : tag ≠ [])
    (hns : ∀ c ∈ tag, isspace c = false) :
    fscanf ("ROOM TYPE: ".toList ++ (tag ++ ("\n".toList ++ rest))) "ROOM TYPE: %s\n"
      = ([Item.str tag], skipSpace rest) := by
  have ht : "ROOM TYPE: ".toList = ['R', 'O', 'O', 'M', ' ', 'T', 'Y', 'P', 'E', ':', ' '] := by
    decide
  have hn : "\n".toList = ['\n'] := by decide
  unfold fscanf
  rw [parseFormat_type, ht, hn]
  simp [scanf, skipSpace, isspace, skipSpace_word tag _ hne hns, takeWord_word tag _ hns, hne]

/-- Scanning the line `CONNECTION <d>: <nm>` for `d` from 1 to 6 stores `d` and
`nm`. -/
theorem fscanf_connection_line (d : Nat) (nm rest : List Char) (hd1 : 1 ≤ d) (hd6 : d ≤ 6)
    (hne : nm ≠ []) (hns : ∀ c ∈ nm, isspace c = false) :
    fscanf ("CONNECTION ".toList ++ (Nat.toDigits 10 d ++ (": ".toList ++ (nm ++
        ("\n".toList ++ rest))))) "CONNECTION %i: %s\n"
      = ([Item.int d, Item.str nm], skipSpace rest) := by
  have ht : "CONNECTION ".toList =
      ['C', 'O', 'N', 'N', 'E', 'C', 'T', 'I', 'O', 'N', ' '] := by decide
  have hc : ": ".toList = [':', ' '] := by decide
  have hn : "\n".toList = ['\n'] := by decide
  unfold fscanf
  rw [parseFormat_connection, ht, hc, hn]
  have hcases : d = 1 ∨ d = 2 ∨ d = 3 ∨ d = 4 ∨ d = 5 ∨ d = 6 := by omega
  rcases hcases with h | h | h | h | h | h <;> subst h <;>
    simp [scanf, skipSpace, isspace, scanInt, scanUnsigned, takeDigits, digitVal, digitsValue,
      Nat.toDigits, Nat.toDigitsCore, Nat.digitChar,
      skipSpace_word nm _ hne hns, takeWord_word nm _ hns, hne]

/-- On input that starts with `R` the connection format matches nothing and
consumes nothing. -/
theorem fscanf_connection_stop (rest : List Char) :
    fscanf ('R' :: rest) "CONNECTION %i: %s\n" = ([], 'R' :: rest) := by
  unfold fscanf
  rw [parseFormat_connection]
  simp [scanf]

theorem skipSpace_lines (i : Nat) (cn : List CString) (tail t : List Char)
    (htail : tail = 'R' :: t) :
    skipSpace (Buildrooms.connectionLines i cn ++ tail) = Buildrooms.connectionLines i cn ++ tail := by
  have ht : "CONNECTION ".toList =
      ['C', 'O', 'N', 'N', 'E', 'C', 'T', 'I', 'O', 'N', ' '] := by decide
  cases cn with
  | nil => simp [Buildrooms.connectionLines, htail, skipSpace, isspace]
  | cons nm rest => simp [Buildrooms.connectionLines, ht, skipSpace, isspace]

theorem length_le_connectionLines (i : Nat) (cn : List CString) :
    cn.length ≤ (Buildrooms.connectionLines i cn).length := by
  induction cn generalizing i with
  | nil => simp
  | cons nm rest ih =>
    have ht : "\n".toList = ['\n'] := by decide
    have := ih (i + 1)
    simp only [Buildrooms.connectionLines, List.length_append, List.length_cons, ht,
      List.length_nil]
    omega

/-- The loop of `readRoom` on the connection lines of `cn`, numbered from
`i + 1`, followed by a line that starts with `R`: the names are stored in the
slots from `i` on and the input is left at that line. -/
theorem readConnections_lines :
    ∀ (cn : List CString) (i fuel : Nat) (room : Room) (tail t : List Char),
      (∀ nm ∈ cn, GoodName nm) →
      room.numConnections = i → i + cn.length ≤ room.connections.length →
      i + cn.length ≤ 6 → cn.length < fuel → tail = 'R' :: t →
      ∃ room1, readConnections fuel (Buildrooms.connectionLines i cn ++ tail) room
          = some (room1, tail) ∧
        room1.name = room.name ∧ room1.type = room.type ∧
        room1.numConnections = i + cn.length ∧
        room1.connections.length = room.connections.length ∧
        room1.connections.take (i + cn.length) = room.connections.take i ++ cn := by
  intro cn
  induction cn with
  | nil =>
    intro i fuel room tail t _ hnum _ _ hfuel htail
    obtain ⟨f, rfl⟩ : ∃ f, fuel = f + 1 := ⟨fuel - 1, by simp at hfuel; omega⟩
    refine ⟨room, ?_, rfl, rfl, by simpa using hnum, rfl, by simp⟩
    simp only [Buildrooms.connectionLines, List.nil_append, readConnections, htail,
      fscanf_connection_stop]
  | cons nm rest ih =>
    intro i fuel room tail t hgood hnum hslots hsix hfuel htail
    obtain ⟨f, rfl⟩ : ∃ f, fuel = f + 1 := ⟨fuel - 1, by simp at hfuel; omega⟩
    simp only [List.length_cons] at hslots hsix hfuel
    obtain ⟨hne, hns, hshort⟩ := hgood nm (List.mem_cons_self _ _)
    have hlt : room.numConnections < room.connections.length ∧ nm.length < 50 :=
      ⟨by omega, hshort⟩
    have hscan := fscanf_connection_line (i + 1) nm
      (Buildrooms.connectionLines (i + 1) rest ++ tail) (by omega) (by omega) hne hns
    rw [skipSpace_lines (i + 1) rest tail t htail] at hscan
    obtain ⟨room1, hrun, hn1, hty1, hnum1, hlen1, htake1⟩ :=
      ih (i + 1) f
        { room with connections := room.connections.set room.numConnections nm,
                    numConnections := room.numConnections + 1 }
        tail t (fun x hx => hgood x (List.mem_cons_of_mem _ hx))
        (by simp [hnum]) (by simp; omega) (by omega) (by omega) htail
    refine ⟨room1, ?_, hn1, hty1, ?_, ?_, ?_⟩
    · simp only [Buildrooms.connectionLines, List.append_assoc, readConnections]
      rw [hscan]
      simp only [hlt, and_self, if_true]
      exact hrun
    · rw [hnum1]
      simp only [List.length_cons]
      omega
    · rw [hlen1]
      simp
    · have h1 : i + (rest.length + 1) = i + 1 + rest.length := by omega
      simp only [List.length_cons]
      rw [h1, htake1]
      show List.take (i + 1) (room.connections.set room.numConnections nm) ++ rest = _
      rw [hnum, Buildrooms.take_set_succ _ _ _ (by omega)]
      simp

theorem typeStr_good (type : Int) :
    Buildrooms.typeStr type ≠ [] ∧ ∀ c ∈ Buildrooms.typeStr type, isspace c = false := by
  unfold Buildrooms.typeStr
  split
  · decide
  · split
    · decide
    · split <;> decide

theorem setTypeFromTag_typeStr (room : Room) (type : Int)
    (htype : type = 1 ∨ type = 2 ∨ type = 3) :
    setTypeFromTag room (Buildrooms.typeStr type) = { room with type := type } := by
  rcases htype with h | h | h <;> subst h
  · have h1 : Buildrooms.typeStr 1 = "START_ROOM".toList := by decide
    have h2 : ¬ "START_ROOM".toList = "MID_ROOM".toList := by decide
    rw [h1]
    unfold setTypeFromTag
    rw [if_neg h2, if_pos rfl]
    rfl
  · have h1 : Buildrooms.typeStr 2 = "MID_ROOM".toList := by decide
    rw [h1]
    unfold setTypeFromTag
    rw [if_pos rfl]
    rfl
  · have h1 : Buildrooms.typeStr 3 = "END_ROOM".toList := by decide
    have h2 : ¬ "END_ROOM".toList = "MID_ROOM".toList := by decide
    have h3 : ¬ "END_ROOM".toList = "START_ROOM".toList := by decide
    rw [h1]
    unfold setTypeFromTag
    rw [if_neg h2, if_neg h3, if_pos rfl]
    rfl

/-- The last call of `fscanf` in `readRoom` on the type line: the tag is in
`type`, which stays empty when the tag is empty. -/
theorem storeTag_type_line (tag : CString) (hns : ∀ c ∈ tag, isspace c = false)
    (hshort : tag.length < 50) :
    storeTag (fscanf ("ROOM TYPE: ".toList ++ (tag ++ "\n".toList)) "ROOM TYPE: %s\n").1
      = some tag := by
  by_cases hne : tag = []
  · subst hne
    decide
  · have h := fscanf_type_line tag [] hne hns
    simp only [List.append_nil] at h
    rw [h]
    simp only [storeTag, hshort, if_true]

/-- Reading a room file in the format of the generator, with at most six
connections and every word shorter than 50 characters: the name and the
connection names are stored, and the type is set from the tag by the
comparisons of `readRoom`. -/
theorem readRoom_roomFile (name : CString) (cn : List CString) (tag : CString)
    (hname : GoodName name) (hcn : ∀ nm ∈ cn, GoodName nm) (hlen : cn.length ≤ 6)
    (htag : ∀ c ∈ tag, isspace c = false) (hshort : tag.length < 50) :
    ∃ room1, readRoom (roomFile name cn tag) initRoom = some (setTypeFromTag room1 tag) ∧
      room1.name = name ∧ room1.type = -1 ∧ room1.numConnections = cn.length ∧
      room1.connections.take cn.length = cn := by
  have hR : "ROOM TYPE: ".toList = 'R' :: "OOM TYPE: ".toList := by decide
  have htail : "ROOM TYPE: ".toList ++ (tag ++ "\n".toList)
      = 'R' :: ("OOM TYPE: ".toList ++ (tag ++ "\n".toList)) := by
    rw [hR]
    rfl
  have hfuel : cn.length < (roomFile name cn tag).length + 1 := by
    have := length_le_connectionLines 0 cn
    simp only [roomFile, List.length_append]
    omega
  obtain ⟨room1, hrun, hn1, hty1, hnum1, _, htake1⟩ :=
    readConnections_lines cn 0 ((roomFile name cn tag).length + 1)
      { initRoom with name := name } ("ROOM TYPE: ".toList ++ (tag ++ "\n".toList)) _
      hcn rfl (by simp [initRoom, MAX_CONNECTIONS]; omega) (by omega) hfuel htail
  refine ⟨room1, ?_, hn1, hty1, by omega, by simpa using htake1⟩
  unfold readRoom
  have hscan1 := fscanf_name_line name
    (Buildrooms.connectionLines 0 cn ++ ("ROOM TYPE: ".toList ++ (tag ++ "\n".toList)))
    hname.1 hname.2.1
  rw [skipSpace_lines 0 cn _ _ htail] at hscan1
  rw [show fscanf (roomFile name cn tag) "ROOM NAME: %s\n" = _ from hscan1]
  simp only [storeName, hname.2.2, if_true, hrun, storeTag_type_line tag htag hshort]

theorem typeStr_short (type : Int) : (Buildrooms.typeStr type).length < 50 := by
  unfold Buildrooms.typeStr
  split
  · decide
  · split
    · decide
    · split <;> decide

/-- C7. Round trip: for a room with a name, connections to named rooms, type
1, 2 or 3 and at most 6 connections, where the name and the connection names
are not empty, contain no white space and have fewer than 50 characters,
`readRoom` on the text the generator's `printRoom` writes, into a room set up
by `initRoom`, yields the same name, type, number of connections and
connection names in the same order. -/
theorem print_read_roundtrip (rooms : List Buildrooms.Room) (r : Buildrooms.Room)
    (name : CString) (cn : List CString)
    (hname : r.name = some name) (hconn : Buildrooms.ConnectionNames rooms r cn)
    (htype : r.type = 1 ∨ r.type = 2 ∨ r.type = 3) (hnum : r.numConnections ≤ 6)
    (hgood : GoodName name) (hcgood : ∀ nm ∈ cn, GoodName nm) :
    ∃ txt room1, Buildrooms.printRoom rooms r = some txt ∧
      readRoom txt initRoom = some room1 ∧
      room1.name = name ∧ room1.type = r.type ∧
      room1.numConnections = r.numConnections ∧
      room1.connections.take r.numConnections = cn := by
  have hlen := hconn.1
  have hprint := Buildrooms.ConnectionNames.print hconn
  have htxt : Buildrooms.printRoom rooms r
      = some (roomFile name cn (Buildrooms.typeStr r.type)) := by
    unfold Buildrooms.printRoom
    rw [hprint, hname]
    simp [roomFile, List.append_assoc]
  obtain ⟨room1, hread, hn1, _, hnum1, htake1⟩ :=
    readRoom_roomFile name cn (Buildrooms.typeStr r.type) hgood hcgood (by omega)
      (typeStr_good r.type).2 (typeStr_short r.type)
  rw [setTypeFromTag_typeStr room1 r.type htype] at hread
  refine ⟨roomFile name cn (Buildrooms.typeStr r.type), { room1 with type := r.type },
    htxt, hread, hn1, rfl, ?_, ?_⟩
  · show room1.numConnections = _
    omega
  · show room1.connections.take r.numConnections = cn
    rw [← hlen]
    exact htake1

theorem goodName_of_decide (nm : CString) (h1 : nm ≠ [])
    (h2 : nm.all (fun c => !isspace c) = true) (h3 : nm.length < 50) : GoodName nm := by
  refine ⟨h1, ?_, h3⟩
  intro c hc
  have := List.all_eq_true.mp h2 c hc
  simpa using this

/-- Witness for C7: room 3 of `Buildrooms.dungeon`. -/
theorem print_read_roundtrip_witness :
    ∃ txt room1, Buildrooms.printRoom Buildrooms.dungeon Buildrooms.dungeonRoom3 = some txt ∧
      readRoom txt initRoom = some room1 ∧
      room1.name = "LONG_STAIRCASE".toList ∧ room1.type = 2 ∧
      room1.numConnections = 4 ∧
      room1.connections.take 4 =
        ["PRISON_CELL".toList, "KITCHEN".toList, "DUNGEON".toList, "DINING_ROOM".toList] :=
  print_read_roundtrip Buildrooms.dungeon Buildrooms.dungeonRoom3 "LONG_STAIRCASE".toList
    ["PRISON_CELL".toList, "KITCHEN".toList, "DUNGEON".toList, "DINING_ROOM".toList]
    rfl Buildrooms.connectionNames_dungeonRoom3 (Or.inr (Or.inl rfl)) (by decide)
    (goodName_of_decide _ (by decide) (by decide) (by decide))
    (by
      intro nm hnm
      simp only [List.mem_cons, List.mem_singleton, List.not_mem_nil, or_false] at hnm
      rcases hnm with h | h | h | h <;> subst h <;>
        exact goodName_of_decide _ (by decide) (by decide) (by decide))

/-! ## Proofs: `executeCommand` -/

theorem enterRooms_none (rooms : List Room) (string : CString) :
    ∀ (k j0 : Nat) (p : Player), j0 + k ≤ rooms.length →
      (∀ (j : Nat) (rj : Room), j0 ≤ j → rooms[j]? = some rj → rj.name ≠ string) →
      enterRooms rooms string k j0 p = some p := by
  intro k
  induction k with
  | zero => intro j0 p _ _; rfl
  | succ k ih =>
    intro j0 p hlen hno
    have hj0 : j0 < rooms.length := by omega
    simp only [enterRooms, List.getElem?_eq_getElem hj0]
    have hne := hno j0 rooms[j0] (Nat.le_refl _) (List.getElem?_eq_getElem hj0)
    rw [if_neg hne]
    exact ih (j0 + 1) p (by omega) (fun j rj hj hr => hno j rj (by omega) hr)

theorem name_index_unique {rooms : List Room} (hnd : (rooms.map Room.name).Nodup)
    {a b : Nat} {ra rb : Room} (ha : rooms[a]? = some ra) (hb : rooms[b]? = some rb)
    (hname : ra.name = rb.name) : a = b := by
  have hal : a < (rooms.map Room.name).length := by
    rw [List.length_map]
    exact Buildrooms.getElem?_lt_of_some ha
  apply List.getElem?_inj hal hnd
  rw [List.getElem?_map, List.getElem?_map, ha, hb]
  simp [hname]

/-- A call of `visitRoom` that returns made the assignments of `entered`, and
the block asked of `realloc` holds the new history. -/
theorem visitRoom_some {p p1 : Player} {j : Nat} {string : CString}
    (h : visitRoom p j string = some p1) :
    p1 = entered p j string ∧ (p.history.length : Int) + 1 ≤ p.histCap ∧
      0 ≤ p.visited ∧ 25 * (p.visited + 1) ≤ INT_MAX ∧
      (p.history.length : Int) + (string.length : Int) + 2 ≤ 25 * (p.visited + 1) := by
  unfold visitRoom at h
  split_ifs at h with h1 h2 h3 h4 h5
  simp only [Option.some.injEq] at h
  refine ⟨h.symm, by omega, by omega, by omega, by omega⟩

/-- The function `visitRoom` returns when the history fits its block, the new
size does not overflow and the new history fits the new block. -/
theorem visitRoom_fits (p : Player) (j : Nat) (string : CString)
    (hblock : (p.history.length : Int) + 1 ≤ p.histCap) (hvis : 0 ≤ p.visited)
    (hmax : 25 * (p.visited + 1) ≤ INT_MAX)
    (hfit : (p.history.length : Int) + (string.length : Int) + 2 ≤ 25 * (p.visited + 1)) :
    visitRoom p j string = some (entered p j string) := by
  have hI : INT_MAX = 2147483647 := rfl
  unfold visitRoom
  rw [if_neg (by omega), if_neg (by omega), if_neg (by omega), if_neg (by omega),
    if_neg (by omega)]
  rfl

theorem enterRooms_one (rooms : List Room) (string : CString)
    (hnd : (rooms.map Room.name).Nodup) (j : Nat) (rj : Room)
    (hj : rooms[j]? = some rj) (hname : rj.name = string) :
    ∀ (k j0 : Nat) (p : Player), j0 + k ≤ rooms.length → j0 ≤ j → j < j0 + k →
      enterRooms rooms string k j0 p = visitRoom p j string := by
  intro k
  induction k with
  | zero => intro j0 p _ h1 h2; omega
  | succ k ih =>
    intro j0 p hlen h1 h2
    have hj0 : j0 < rooms.length := by omega
    simp only [enterRooms, List.getElem?_eq_getElem hj0]
    by_cases hhere : rooms[j0].name = string
    · rw [if_pos hhere]
      have hjj : j0 = j :=
        name_index_unique hnd (List.getElem?_eq_getElem hj0) hj (by rw [hhere, hname])
      subst hjj
      cases hv : visitRoom p j0 string with
      | none => rfl
      | some p1 =>
        exact enterRooms_none rooms string k (j0 + 1) _ (by omega) (by
          intro j2 r2 hle hr2 heq
          have : j2 = j0 := name_index_unique hnd hr2 hj (by rw [heq, hname])
          omega)
    · rw [if_neg hhere]
      have hne : j0 ≠ j := by
        intro e
        subst e
        rw [List.getElem?_eq_getElem hj0] at hj
        simp only [Option.some.injEq] at hj
        rw [hj] at hhere
        exact hhere hname
      exact ih (j0 + 1) p (by omega) (by omega) (by omega)

theorem matchConnections_none (rooms : List Room) (player : Player) (string : CString)
    (cur : Room) :
    ∀ (k i : Nat), i + k ≤ cur.connections.length →
      string ∉ (cur.connections.drop i).take k →
      matchConnections rooms player string cur k i = some (1, player) := by
  intro k
  induction k with
  | zero => intro i _ _; rfl
  | succ k ih =>
    intro i hlen hno
    have hi : i < cur.connections.length := by omega
    rw [List.drop_eq_getElem_cons hi, List.take_succ_cons] at hno
    simp only [matchConnections, List.getElem?_eq_getElem hi]
    have hne : ¬ cur.connections[i] = string := fun e => hno (by rw [e]; exact List.mem_cons_self _ _)
    rw [if_neg hne]
    exact ih (i + 1) (by omega) (fun hm => hno (List.mem_cons_of_mem _ hm))

theorem matchConnections_some (rooms : List Room) (player : Player) (string : CString)
    (cur : Room) (player1 : Player)
    (henter : enterRooms rooms string NUM_ROOMS 0 player = some player1) :
    ∀ (k i : Nat), i + k ≤ cur.connections.length →
      string ∈ (cur.connections.drop i).take k →
      matchConnections rooms player string cur k i = some (0, player1) := by
  intro k
  induction k with
  | zero => intro i _ h; simp at h
  | succ k ih =>
    intro i hlen hmem
    have hi : i < cur.connections.length := by omega
    rw [List.drop_eq_getElem_cons hi, List.take_succ_cons] at hmem
    simp only [matchConnections, List.getElem?_eq_getElem hi]
    by_cases hhere : cur.connections[i] = string
    · rw [if_pos hhere, henter]
    · rw [if_neg hhere]
      rcases List.mem_cons.mp hmem with h | h
      · exact absurd h.symm hhere
      · exact ih (i + 1) (by omega) h

theorem matchConnections_fault (rooms : List Room) (player : Player) (string : CString)
    (cur : Room)
    (henter : enterRooms rooms string NUM_ROOMS 0 player = none) :
    ∀ (k i : Nat), i + k ≤ cur.connections.length →
      string ∈ (cur.connections.drop i).take k →
      matchConnections rooms player string cur k i = none := by
  intro k
  induction k with
  | zero => intro i _ h; simp at h
  | succ k ih =>
    intro i hlen hmem
    have hi : i < cur.connections.length := by omega
    rw [List.drop_eq_getElem_cons hi, List.take_succ_cons] at hmem
    simp only [matchConnections, List.getElem?_eq_getElem hi]
    by_cases hhere : cur.connections[i] = string
    · rw [if_pos hhere, henter]
    · rw [if_neg hhere]
      rcases List.mem_cons.mp hmem with h | h
      · exact absurd h.symm hhere
      · exact ih (i + 1) (by omega) h

/-- With pairwise distinct room names, a command that is not `time`, equals one
of the connection names of the current room and is the name of room `j` makes
`executeCommand` return what `visitRoom` gives for room `j`, with the value
0. -/
theorem executeCommand_move (player : Player) (string : CString) (rooms : List Room)
    (cur rj : Room) (j : Nat)
    (hlen : rooms.length = 7)
    (hnd : (rooms.map Room.name).Nodup)
    (hcur : rooms[player.curRoom]? = some cur)
    (hslots : cur.numConnections ≤ cur.connections.length)
    (htime : string ≠ "time".toList)
    (hmem : string ∈ exits cur)
    (hj : rooms[j]? = some rj) (hname : rj.name = string) :
    executeCommand player string rooms
      = (visitRoom player j string).map (fun player1 => (0, player1)) := by
  have hjlt : j < rooms.length := Buildrooms.getElem?_lt_of_some hj
  have henter : enterRooms rooms string NUM_ROOMS 0 player = visitRoom player j string :=
    enterRooms_one rooms string hnd j rj hj hname NUM_ROOMS 0 player
      (by rw [hlen]; decide) (Nat.zero_le _) (by rw [hlen] at hjlt; simpa [NUM_ROOMS] using hjlt)
  unfold executeCommand
  rw [if_neg htime, hcur]
  cases hv : visitRoom player j string with
  | some player1 =>
    rw [hv] at henter
    exact matchConnections_some rooms player string cur _ henter cur.numConnections 0
      (by omega) (by simpa [exits] using hmem)
  | none =>
    rw [hv] at henter
    exact matchConnections_fault rooms player string cur henter cur.numConnections 0
      (by omega) (by simpa [exits] using hmem)

/-- C9, within the capacity of the history block. Valid move: in a graph of 7 rooms with pairwise distinct
names whose connection names all name a room, for a command other than `time`
that equals one of the current room's connection names, when the history fits
its block, `visited` is not negative, `25 * (visited + 1)` is at most `INT_MAX`
and the history with the name, a newline and the terminator fits in
`25 * (visited + 1)` bytes, `executeCommand` returns 0, makes the room with
that name the current room, appends the name and a newline to the history and
adds 1 to `visited`. -/
theorem executeCommand_valid_move (player : Player) (string : CString) (rooms : List Room)
    (cur : Room)
    (hlen : rooms.length = 7)
    (hnd : (rooms.map Room.name).Nodup)
    (hnames : ∀ r ∈ rooms, ∀ c ∈ exits r, ∃ r1 ∈ rooms, r1.name = c)
    (hcur : rooms[player.curRoom]? = some cur)
    (hslots : cur.numConnections ≤ cur.connections.length)
    (htime : string ≠ "time".toList)
    (hmem : string ∈ exits cur)
    (hblock : (player.history.length : Int) + 1 ≤ player.histCap)
    (hvis : 0 ≤ player.visited)
    (hmax : 25 * (player.visited + 1) ≤ INT_MAX)
    (hfit : (player.history.length : Int) + (string.length : Int) + 2
      ≤ 25 * (player.visited + 1)) :
    ∃ (j : Nat) (rj : Room) (player1 : Player),
      rooms[j]? = some rj ∧ rj.name = string ∧
      executeCommand player string rooms = some (0, player1) ∧
      player1.curRoom = j ∧
      player1.history = player.history ++ string ++ "\n".toList ∧
      player1.visited = player.visited + 1 := by
  obtain ⟨rj, hrj, hname⟩ := hnames cur (Buildrooms.mem_of_getElem?_some hcur) string hmem
  obtain ⟨j, hj⟩ := List.mem_iff_getElem?.mp hrj
  refine ⟨j, rj, entered player j string, hj, hname, ?_, rfl, rfl, rfl⟩
  rw [executeCommand_move player string rooms cur rj j hlen hnd hcur hslots htime hmem hj hname,
    visitRoom_fits player j string hblock hvis hmax hfit]
  rfl

/-- Witness for C9: from the start room of `loadedRooms` the command
`DARK_ROOM`. -/
theorem executeCommand_valid_move_witness :
    ∃ (j : Nat) (rj : Room) (player1 : Player),
      loadedRooms[j]? = some rj ∧ rj.name = "DARK_ROOM".toList ∧
      executeCommand startPlayer "DARK_ROOM".toList loadedRooms = some (0, player1) ∧
      player1.curRoom = j ∧
      player1.history = startPlayer.history ++ "DARK_ROOM".toList ++ "\n".toList ∧
      player1.visited = startPlayer.visited + 1 :=
  executeCommand_valid_move startPlayer "DARK_ROOM".toList loadedRooms
    ⟨"PRISON_CELL".toList,
     ["FOYER".toList, "LONG_STAIRCASE".toList, "DARK_ROOM".toList, [], [], []], 1, 3⟩
    (by decide) (by decide) (by decide) (by decide) (by decide) (by decide) (by decide)
    (by decide) (by decide) (by decide) (by decide)

/-- C10. Invalid move: for a command that is not `time` and equals none of the
first `numConnections` connection names of the current room, `executeCommand`
returns 1 and leaves the player (current room, history, visited) unchanged. -/
theorem executeCommand_invalid_move (player : Player) (string : CString) (rooms : List Room)
    (cur : Room)
    (hcur : rooms[player.curRoom]? = some cur)
    (hslots : cur.numConnections ≤ cur.connections.length)
    (htime : string ≠ "time".toList)
    (hno : string ∉ exits cur) :
    executeCommand player string rooms = some (1, player) := by
  unfold executeCommand
  rw [if_neg htime, hcur]
  exact matchConnections_none rooms player string cur cur.numConnections 0
    (by omega) (by simpa [exits] using hno)

/-- Witness for C10: from the start room of `loadedRooms` the command
`dark_room`, which differs from the connection `DARK_ROOM` in case only. -/
theorem executeCommand_invalid_move_witness :
    executeCommand startPlayer "dark_room".toList loadedRooms = some (1, startPlayer) :=
  executeCommand_invalid_move startPlayer "dark_room".toList loadedRooms
    ⟨"PRISON_CELL".toList,
     ["FOYER".toList, "LONG_STAIRCASE".toList, "DARK_ROOM".toList, [], [], []], 1, 3⟩
    (by decide) (by decide) (by decide) (by decide)

end Adventure

/-! ## Proofs: the fuel of `readRoom` is enough -/

namespace Adventure

theorem skipSpace_length_le (l : List Char) : (skipSpace l).length ≤ l.length := by
  induction l with
  | nil => simp [skipSpace]
  | cons c cs ih =>
    simp only [skipSpace]
    split
    · simp only [List.length_cons]; omega
    · exact Nat.le_refl _

theorem takeWord_length_le (l : List Char) : (takeWord l).2.length ≤ l.length := by
  induction l with
  | nil => simp [takeWord]
  | cons c cs ih =>
    simp only [takeWord]
    split
    · exact Nat.le_refl _
    · simp only [List.length_cons]; omega

theorem takeDigits_length_le (base : Nat) (l : List Char) :
    (takeDigits base l).2.length ≤ l.length := by
  induction l with
  | nil => simp [takeDigits]
  | cons c cs ih =>
    simp only [takeDigits]
    split
    · exact Nat.le_refl _
    · split
      · simp only [List.length_cons]; omega
      · exact Nat.le_refl _

theorem scanUnsigned_length_le (l : List Char) : (scanUnsigned l).2.length ≤ l.length := by
  unfold scanUnsigned
  split
  · rename_i cs
    have := takeDigits_length_le 16 cs
    split <;> simp only [List.length_cons] <;> omega
  · rename_i cs
    have := takeDigits_length_le 16 cs
    split <;> simp only [List.length_cons] <;> omega
  · rename_i cs _ _
    have := takeDigits_length_le 8 cs
    simp only [List.length_cons]
    omega
  · have := takeDigits_length_le 10 l
    split <;> exact this

theorem scanInt_length_le (l : List Char) : (scanInt l).2.length ≤ l.length := by
  unfold scanInt
  split
  · rename_i cs
    have := scanUnsigned_length_le cs
    simp only [List.length_cons]
    omega
  · rename_i cs
    have := scanUnsigned_length_le cs
    simp only [List.length_cons]
    omega
  · exact scanUnsigned_length_le l

theorem scanf_length_le : ∀ (ds : List Directive) (inp : List Char),
    (scanf ds inp).2.length ≤ inp.length := by
  intro ds
  induction ds with
  | nil => intro inp; simp [scanf]
  | cons d ds ih =>
    intro inp
    cases d with
    | space =>
      simp only [scanf]
      exact Nat.le_trans (ih _) (skipSpace_length_le inp)
    | lit c =>
      cases inp with
      | nil => simp [scanf]
      | cons x xs =>
        simp only [scanf]
        split
        · have := ih xs
          simp only [List.length_cons]
          omega
        · exact Nat.le_refl _
    | str =>
      simp only [scanf]
      have h1 := takeWord_length_le (skipSpace inp)
      have h2 := skipSpace_length_le inp
      split
      · exact Nat.le_trans h1 h2
      · exact Nat.le_trans (ih _) (Nat.le_trans h1 h2)
    | int =>
      simp only [scanf]
      have h1 := scanInt_length_le (skipSpace inp)
      have h2 := skipSpace_length_le inp
      split
      · exact Nat.le_trans h1 h2
      · exact Nat.le_trans (ih _) (Nat.le_trans h1 h2)

/-- A call of `fscanf` with the connection format that stores an item has
consumed input. -/
theorem fscanf_connection_consumes (file : List Char)
    (h : (fscanf file "CONNECTION %i: %s\n").1 ≠ []) :
    (fscanf file "CONNECTION %i: %s\n").2.length < file.length := by
  unfold fscanf at h ⊢
  rw [parseFormat_connection] at h ⊢
  cases file with
  | nil => simp [scanf] at h
  | cons x xs =>
    simp only [scanf] at h ⊢
    split
    · have := scanf_length_le
        [.lit 'O', .lit 'N', .lit 'N', .lit 'E', .lit 'C', .lit 'T', .lit 'I', .lit 'O',
         .lit 'N', .space, .int, .lit ':', .space, .str, .space] xs
      simp only [List.length_cons]
      omega
    · rename_i hne
      rw [if_neg hne] at h
      exact absurd rfl h

/-- The loop of `readRoom` does not depend on the fuel once the fuel exceeds
the length of the input: the loop gives `none` only for a name stored
outside the `connections` array or beyond the end of its slot. -/
theorem readConnections_fuel :
    ∀ (f1 f2 : Nat) (file : List Char) (room : Room),
      file.length < f1 → file.length < f2 →
      readConnections f1 file room = readConnections f2 file room := by
  intro f1
  induction f1 with
  | zero => intro f2 file room h; omega
  | succ f1 ih =>
    intro f2 file room h1 h2
    obtain ⟨g, rfl⟩ : ∃ g, f2 = g + 1 := ⟨f2 - 1, by omega⟩
    simp only [readConnections]
    split
    · rename_i n s rest heq
      have hcons := fscanf_connection_consumes file (by rw [heq]; simp)
      rw [heq] at hcons
      simp only at hcons
      split
      · exact ih g rest _ (by omega) (by omega)
      · rfl
    · rfl

end Adventure

/-! ## Proofs: the prompt and the game loop -/

namespace Adventure

/-- C11. For every player and every rooms, `executeCommand` on the command
`time` returns 0 and leaves the player (current room, history, visited)
unchanged; the test for `time` comes before any connection is compared, so
this also holds when a connection of the current room is named `time`. -/
theorem executeCommand_time (player : Player) (rooms : List Room) :
    executeCommand player "time".toList rooms = some (0, player) := by
  unfold executeCommand
  rw [if_pos rfl]

theorem promptConnections_eq (cur : Room) :
    ∀ (k i : Nat), i + k = cur.numConnections → cur.numConnections ≤ cur.connections.length →
      promptConnections cur k i = some (connectionList ((cur.connections.drop i).take k)) := by
  intro k
  induction k with
  | zero => intro i _ _; simp [promptConnections, connectionList]
  | succ k ih =>
    intro i hik hlen
    have hi : i < cur.connections.length := by omega
    have hrec := ih (i + 1) (by omega) hlen
    simp only [promptConnections, List.getElem?_eq_getElem hi, hrec]
    rw [List.drop_eq_getElem_cons hi, List.take_succ_cons]
    cases k with
    | zero =>
      have hsep : ¬ ((i : Int) < (cur.numConnections : Int) - 1) := by omega
      simp [hsep, connectionList]
    | succ k =>
      have hi1 : i + 1 < cur.connections.length := by omega
      have hsep : (i : Int) < (cur.numConnections : Int) - 1 := by omega
      rw [List.drop_eq_getElem_cons hi1, List.take_succ_cons]
      simp [hsep, connectionList]

/-- C20. `promptPlayer` leaves the player and the rooms as they are and prints
exactly `CURRENT LOCATION: <name of the current room>`, a newline,
`POSSIBLE CONNECTIONS:` followed by the connection names of the current room
in list order, each preceded by a space, a comma after each but the last and a
full stop after the last, a newline, and `WHERE TO? >`. -/
theorem promptPlayer_output (player : Player) (rooms : List Room) (cur : Room)
    (hcur : rooms[player.curRoom]? = some cur)
    (hslots : cur.numConnections ≤ cur.connections.length) :
    promptPlayer player rooms =
      some ("CURRENT LOCATION: ".toList ++ cur.name ++ "\n".toList
              ++ "POSSIBLE CONNECTIONS:".toList ++ connectionList (exits cur) ++ "\n".toList
              ++ "WHERE TO? >".toList,
            player, rooms) := by
  unfold promptPlayer
  rw [hcur]
  have h := promptConnections_eq cur cur.numConnections 0 (by omega) hslots
  rw [List.drop_zero] at h
  simp only [h, exits]

/-- Witness for C20: the prompt in the start room of `loadedRooms`. -/
theorem promptPlayer_output_witness :
    promptPlayer startPlayer loadedRooms =
      some ("CURRENT LOCATION: PRISON_CELL\nPOSSIBLE CONNECTIONS: FOYER, LONG_STAIRCASE, DARK_ROOM.\nWHERE TO? >".toList,
            startPlayer, loadedRooms) :=
  promptPlayer_output startPlayer loadedRooms
    ⟨"PRISON_CELL".toList,
     ["FOYER".toList, "LONG_STAIRCASE".toList, "DARK_ROOM".toList, [], [], []], 1, 3⟩
    (by decide) (by decide)

theorem promptPlayer_frame {player player1 : Player} {rooms rooms1 : List Room}
    {out : CString} (h : promptPlayer player rooms = some (out, player1, rooms1)) :
    player1 = player ∧ rooms1 = rooms := by
  unfold promptPlayer at h
  split at h
  · simp at h
  · split at h
    · simp at h
    · simp only [Option.some.injEq, Prod.mk.injEq] at h
      exact ⟨h.2.1.symm, h.2.2.symm⟩

/-- When the game loop is left, the lines it read take the player, by
successive calls of `executeCommand`, to the state in which it is left; that
state is in the end room, and no state before it is. -/
theorem gameLoop_done :
    ∀ (inputs : List CString) (rooms : List Room) (player player1 : Player)
      (rest : List CString),
      gameLoop inputs rooms player = .done (player1, rest) →
      ∃ used, inputs = used ++ rest ∧ runCommands rooms player used = some player1 ∧
        AtEnd rooms player1 ∧
        ∀ pre q, pre <+: used → pre ≠ used → runCommands rooms player pre = some q →
          ¬ AtEnd rooms q := by
  intro inputs
  induction inputs with
  | nil =>
    intro rooms player player1 rest h
    simp only [gameLoop] at h
    split at h
    · simp at h
    · rename_i cur hcur
      split at h
      · simp at h
      · rename_i hend
        simp only [Outcome.done.injEq, Prod.mk.injEq] at h
        obtain ⟨h1, h2⟩ := h
        subst h1
        subst h2
        refine ⟨[], rfl, rfl, ⟨cur, hcur, by simpa using hend⟩, ?_⟩
        intro pre q hpre hne
        exact absurd (List.prefix_nil.mp hpre) hne
  | cons cmd rest0 ih =>
    intro rooms player player1 rest h
    simp only [gameLoop] at h
    split at h
    · simp at h
    · rename_i cur hcur
      split at h
      · rename_i hnot
        split at h
        · simp at h
        · rename_i out pl1 rooms1 hprompt
          obtain ⟨hp, hr⟩ := promptPlayer_frame hprompt
          subst hp
          subst hr
          split at h
          · simp at h
          · rename_i ret player2 hexec
            obtain ⟨used, huse, hrun, hend, hfirst⟩ := ih rooms1 player2 player1 rest h
            refine ⟨cmd :: used, by rw [huse]; rfl, ?_, hend, ?_⟩
            · simp only [runCommands, hexec]
              exact hrun
            · intro pre q hpre hne hq
              cases pre with
              | nil =>
                simp only [runCommands, Option.some.injEq] at hq
                subst hq
                intro ⟨c2, hc2, hty⟩
                rw [hcur] at hc2
                simp only [Option.some.injEq] at hc2
                subst hc2
                exact hnot hty
              | cons c pre0 =>
                obtain ⟨hc, hpre0⟩ := List.cons_prefix_cons.mp hpre
                subst hc
                simp only [runCommands, hexec] at hq
                exact hfirst pre0 q hpre0 (fun e => hne (by rw [e])) hq
      · rename_i hend
        simp only [Outcome.done.injEq, Prod.mk.injEq] at h
        obtain ⟨h1, h2⟩ := h
        subst h1
        subst h2
        refine ⟨[], rfl, rfl, ⟨cur, hcur, by simpa using hend⟩, ?_⟩
        intro pre q hpre hne
        exact absurd (List.prefix_nil.mp hpre) hne

/-- C13. Win detection.  In the end room the game loop stops at once and reads
no further command; in any other room it reads the next command and executes
it; and when it stops, the player is in the end room for the first time: the
lines read lead to that state and no state before it is in the end room. -/
theorem gameLoop_win_detection (rooms : List Room) :
    (∀ (inputs : List CString) (player : Player), AtEnd rooms player →
      gameLoop inputs rooms player = .done (player, inputs)) ∧
    (∀ (cmd : CString) (rest : List CString) (player : Player) (cur : Room),
      rooms[player.curRoom]? = some cur → cur.type ≠ END_ROOM →
      cur.numConnections ≤ cur.connections.length →
      gameLoop (cmd :: rest) rooms player =
        match executeCommand player cmd rooms with
        | none => .fault
        | some (_, player1) => gameLoop rest rooms player1) ∧
    (∀ (inputs : List CString) (player player1 : Player) (rest : List CString),
      gameLoop inputs rooms player = .done (player1, rest) →
      ∃ used, inputs = used ++ rest ∧ runCommands rooms player used = some player1 ∧
        AtEnd rooms player1 ∧
        ∀ pre q, pre <+: used → pre ≠ used → runCommands rooms player pre = some q →
          ¬ AtEnd rooms q) := by
  refine ⟨?_, ?_, ?_⟩
  · intro inputs player ⟨cur, hcur, hend⟩
    cases inputs with
    | nil => simp [gameLoop, hcur, hend]
    | cons cmd rest => simp [gameLoop, hcur, hend]
  · intro cmd rest player cur hcur hne hslots
    have hprompt := promptConnections_eq cur cur.numConnections 0 (by omega) hslots
    simp only [gameLoop, hcur, promptPlayer, hprompt]
    rw [if_pos hne]
  · intro inputs player player1 rest hloop
    exact gameLoop_done inputs rooms player player1 rest hloop

/-- Witness for C13: from the start room of `loadedRooms` the lines `dark_room`
(not understood), `time` and `DARK_ROOM` (the end room); the line `FOYER`
after them is not read. -/
theorem gameLoop_win_detection_witness :
    gameLoop ["dark_room".toList, "time".toList, "DARK_ROOM".toList, "FOYER".toList]
        loadedRooms startPlayer
      = .done (entered startPlayer 5 "DARK_ROOM".toList, ["FOYER".toList]) ∧
    ∃ used, ["dark_room".toList, "time".toList, "DARK_ROOM".toList, "FOYER".toList]
        = used ++ ["FOYER".toList] ∧
      runCommands loadedRooms startPlayer used
        = some (entered startPlayer 5 "DARK_ROOM".toList) ∧
      AtEnd loadedRooms (entered startPlayer 5 "DARK_ROOM".toList) ∧
      ∀ pre q, pre <+: used → pre ≠ used → runCommands loadedRooms startPlayer pre = some q →
        ¬ AtEnd loadedRooms q :=
  ⟨by decide,
   (gameLoop_win_detection loadedRooms).2.2
     ["dark_room".toList, "time".toList, "DARK_ROOM".toList, "FOYER".toList]
     startPlayer (entered startPlayer 5 "DARK_ROOM".toList) ["FOYER".toList] (by decide)⟩

/-! ## Proofs: loaded graphs and the history -/

set_option maxRecDepth 1000000 in
theorem loadedRooms_read :
    dungeonFiles.map (fun file => readRoom file initRoom) = loadedRooms.map some := by
  decide

theorem loaded_loadedRooms : Loaded loadedRooms := by
  refine ⟨by decide, ?_⟩
  intro r hr
  have hmem : some r ∈ dungeonFiles.map (fun file => readRoom file initRoom) := by
    rw [loadedRooms_read]
    exact List.mem_map_of_mem some hr
  obtain ⟨file, _, hfile⟩ := List.mem_map.mp hmem
  exact ⟨file, hfile⟩

theorem takeWord_no_space (l : List Char) :
    ∀ c ∈ (takeWord l).1, isspace c = false := by
  induction l with
  | nil => intro c hc; simp [takeWord] at hc
  | cons x xs ih =>
    intro c hc
    simp only [takeWord] at hc
    split at hc
    · simp at hc
    · rename_i hx
      rcases List.mem_cons.mp hc with h | h
      · rw [h]
        simpa using hx
      · exact ih c h

/-- Every string `fscanf` stores through `%s` is free of white space. -/
theorem scanf_str_no_space :
    ∀ (ds : List Directive) (inp : List Char) (s : CString),
      Item.str s ∈ (scanf ds inp).1 → ∀ c ∈ s, isspace c = false := by
  intro ds
  induction ds with
  | nil => intro inp s h; simp [scanf] at h
  | cons d ds ih =>
    intro inp s h
    cases d with
    | space =>
      simp only [scanf] at h
      exact ih _ s h
    | lit c =>
      cases inp with
      | nil => simp [scanf] at h
      | cons x xs =>
        simp only [scanf] at h
        split at h
        · exact ih _ s h
        · simp at h
    | str =>
      simp only [scanf] at h
      split at h
      · simp at h
      · rcases List.mem_cons.mp h with h1 | h1
        · simp only [Item.str.injEq] at h1
          rw [h1]
          exact takeWord_no_space _
        · exact ih _ s h1
    | int =>
      simp only [scanf] at h
      split at h
      · simp at h
      · rcases List.mem_cons.mp h with h1 | h1
        · simp at h1
        · exact ih _ s h1

theorem readConnections_keeps :
    ∀ (fuel : Nat) (file : List Char) (room room1 : Room) (rest : List Char),
      readConnections fuel file room = some (room1, rest) →
      room.numConnections ≤ room.connections.length →
      room1.name = room.name ∧ room1.type = room.type ∧
      room1.numConnections ≤ room1.connections.length := by
  intro fuel
  induction fuel with
  | zero => intro file room room1 rest h _; simp [readConnections] at h
  | succ fuel ih =>
    intro file room room1 rest h hle
    simp only [readConnections] at h
    split at h
    · split at h
      · rename_i hlt
        obtain ⟨h1, h2, h3⟩ := ih _ _ room1 rest h (by simp; omega)
        exact ⟨h1, h2, h3⟩
      · simp at h
    · simp only [Option.some.injEq, Prod.mk.injEq] at h
      obtain ⟨h1, _⟩ := h
      subst h1
      exact ⟨rfl, rfl, hle⟩

theorem setTypeFromTag_keeps (room : Room) (tag : CString) :
    (setTypeFromTag room tag).name = room.name ∧
    (setTypeFromTag room tag).connections = room.connections ∧
    (setTypeFromTag room tag).numConnections = room.numConnections := by
  unfold setTypeFromTag
  split
  · exact ⟨rfl, rfl, rfl⟩
  · split
    · exact ⟨rfl, rfl, rfl⟩
    · split <;> exact ⟨rfl, rfl, rfl⟩

theorem storeName_wellFormed {items : List Item} {room1 : Room}
    (hitems : ∀ s, Item.str s ∈ items → ∀ c ∈ s, isspace c = false)
    (h : storeName initRoom items = some room1) :
    (∀ c ∈ room1.name, isspace c = false) ∧
      room1.numConnections ≤ room1.connections.length := by
  unfold storeName at h
  split at h
  · rename_i s tl
    split at h
    · simp only [Option.some.injEq] at h
      subst h
      exact ⟨hitems s (List.mem_cons_self _ _), by simp [initRoom]⟩
    · simp at h
  · simp only [Option.some.injEq] at h
    subst h
    exact ⟨by simp [initRoom], by simp [initRoom]⟩

/-- A room read by `readRoom` into a room set up by `initRoom` has a name free
of white space and uses no more connection slots than the array has. -/
theorem readRoom_wellFormed {file : List Char} {r : Room}
    (h : readRoom file initRoom = some r) :
    (∀ c ∈ r.name, isspace c = false) ∧ r.numConnections ≤ r.connections.length := by
  unfold readRoom at h
  split at h
  · simp at h
  · rename_i room1 hname
    split at h
    · simp at h
    · rename_i room2 rest hloop
      split at h
      · simp at h
      · rename_i type htype
        simp only [Option.some.injEq] at h
        subst h
        obtain ⟨hk1, hk2, hk3⟩ := setTypeFromTag_keeps room2 type
        rw [hk1, hk2, hk3]
        obtain ⟨hs1, hs2⟩ :=
          storeName_wellFormed (fun s hs => scanf_str_no_space _ _ s hs) hname
        obtain ⟨h1, _, h3⟩ := readConnections_keeps _ _ _ room2 rest hloop hs2
        refine ⟨?_, h3⟩
        rw [h1]
        exact hs1

/-- With pairwise distinct room names a call of `executeCommand` from a room
of the array leaves the player as it is and returns 0 or 1, or it is one call
of `visitRoom` for the room that has the command as its name. -/
theorem executeCommand_cases (rooms : List Room) (player : Player) (string : CString)
    (hlen : rooms.length = NUM_ROOMS) (hnd : (rooms.map Room.name).Nodup)
    (hslots : ∀ r ∈ rooms, r.numConnections ≤ r.connections.length)
    (hcur : player.curRoom < rooms.length) :
    executeCommand player string rooms = some (0, player) ∨
    executeCommand player string rooms = some (1, player) ∨
    ∃ j rj, rooms[j]? = some rj ∧ rj.name = string ∧
      executeCommand player string rooms
        = (visitRoom player j string).map (fun player1 => (0, player1)) := by
  by_cases htime : string = "time".toList
  · left
    unfold executeCommand
    rw [if_pos htime]
  · have hc : rooms[player.curRoom]? = some rooms[player.curRoom] :=
      List.getElem?_eq_getElem hcur
    have hsl := hslots _ (List.getElem_mem hcur)
    by_cases hmem : string ∈ exits rooms[player.curRoom]
    · by_cases hroom : ∃ r ∈ rooms, r.name = string
      · obtain ⟨rj, hrj, hname⟩ := hroom
        obtain ⟨j, hj⟩ := List.mem_iff_getElem?.mp hrj
        right
        right
        exact ⟨j, rj, hj, hname,
          executeCommand_move player string rooms _ rj j (by rw [hlen]; rfl) hnd hc hsl htime
            hmem hj hname⟩
      · left
        have henter : enterRooms rooms string NUM_ROOMS 0 player = some player :=
          enterRooms_none rooms string NUM_ROOMS 0 player (by rw [hlen]; omega)
            (fun j rj _ hj hn => hroom ⟨rj, Buildrooms.mem_of_getElem?_some hj, hn⟩)
        unfold executeCommand
        rw [if_neg htime, hc]
        exact matchConnections_some rooms player string _ player henter _ 0
          (by omega) (by simpa [exits] using hmem)
    · right
      left
      unfold executeCommand
      rw [if_neg htime, hc]
      exact matchConnections_none rooms player string _ _ 0
        (by omega) (by simpa [exits] using hmem)

/-- With room names of at most 23 characters a call of `executeCommand` that
returns keeps `Sized` and adds at most 1 to `visited`. -/
theorem executeCommand_sized {rooms : List Room} {player p1 : Player} {string : CString}
    {ret : Int} (hlen : rooms.length = NUM_ROOMS) (hnd : (rooms.map Room.name).Nodup)
    (hshort : ∀ r ∈ rooms, r.name.length ≤ 23)
    (hslots : ∀ r ∈ rooms, r.numConnections ≤ r.connections.length)
    (hp : Sized rooms player)
    (h : executeCommand player string rooms = some (ret, p1)) :
    Sized rooms p1 ∧ p1.visited ≤ player.visited + 1 ∧
      (p1 = player ∨ ∃ r ∈ rooms, r.name = string) := by
  rcases executeCommand_cases rooms player string hlen hnd hslots hp.1 with
    h0 | h1 | ⟨j, rj, hj, hname, hmove⟩
  · rw [h0] at h
    simp only [Option.some.injEq, Prod.mk.injEq] at h
    rw [← h.2]
    exact ⟨hp, by omega, Or.inl rfl⟩
  · rw [h1] at h
    simp only [Option.some.injEq, Prod.mk.injEq] at h
    rw [← h.2]
    exact ⟨hp, by omega, Or.inl rfl⟩
  · rw [hmove] at h
    cases hv : visitRoom player j string with
    | none => simp [hv] at h
    | some p2 =>
      simp only [hv, Option.map_some', Option.some.injEq, Prod.mk.injEq] at h
      obtain ⟨heq, _, _, _, _⟩ := visitRoom_some hv
      obtain ⟨_, hvis, hh, _⟩ := hp
      have hs : string.length ≤ 23 := by
        rw [← hname]
        exact hshort _ (Buildrooms.mem_of_getElem?_some hj)
      have hn : "\n".toList.length = 1 := by decide
      rw [← h.2, heq]
      refine ⟨⟨Buildrooms.getElem?_lt_of_some hj, ?_, ?_, ?_⟩, le_refl _,
        Or.inr ⟨rj, Buildrooms.mem_of_getElem?_some hj, hname⟩⟩
      · show 0 ≤ player.visited + 1
        omega
      · show ((player.history ++ string ++ "\n".toList).length : Int)
          ≤ 24 * (player.visited + 1)
        rw [List.length_append, List.length_append, hn]
        push_cast
        omega
      · show 25 * (player.visited + 1) = 25 * max (player.visited + 1) 1
        rw [max_eq_left (by omega)]

/-- With room names of at most 23 characters a call of `executeCommand` from a
state with fewer than 85899345 visits returns: the size `25 * (visited + 1)`
is at most `INT_MAX` and holds the history. -/
theorem executeCommand_returns (rooms : List Room) (player : Player) (string : CString)
    (hlen : rooms.length = NUM_ROOMS) (hnd : (rooms.map Room.name).Nodup)
    (hshort : ∀ r ∈ rooms, r.name.length ≤ 23)
    (hslots : ∀ r ∈ rooms, r.numConnections ≤ r.connections.length)
    (hp : Sized rooms player) (hv : player.visited < 85899345) :
    ∃ ret p1, executeCommand player string rooms = some (ret, p1) := by
  rcases executeCommand_cases rooms player string hlen hnd hslots hp.1 with
    h0 | h1 | ⟨j, rj, hj, hname, hmove⟩
  · exact ⟨0, player, h0⟩
  · exact ⟨1, player, h1⟩
  · obtain ⟨_, hvis, hh, hcap⟩ := hp
    have hs : string.length ≤ 23 := by
      rw [← hname]
      exact hshort _ (Buildrooms.mem_of_getElem?_some hj)
    have hI : INT_MAX = 2147483647 := rfl
    have hblock : (player.history.length : Int) + 1 ≤ player.histCap := by
      rw [hcap]
      rcases lt_or_ge player.visited 1 with hlt | hge
      · rw [max_eq_right (by omega)]
        omega
      · rw [max_eq_left hge]
        omega
    refine ⟨0, entered player j string, ?_⟩
    rw [hmove, visitRoom_fits player j string hblock hvis (by omega) (by omega)]
    rfl

theorem runCommands_sized (rooms : List Room) (hlen : rooms.length = NUM_ROOMS)
    (hnd : (rooms.map Room.name).Nodup)
    (hshort : ∀ r ∈ rooms, r.name.length ≤ 23)
    (hslots : ∀ r ∈ rooms, r.numConnections ≤ r.connections.length) :
    ∀ (cmds : List CString) (player p1 : Player), Sized rooms player →
      runCommands rooms player cmds = some p1 → Sized rooms p1 := by
  intro cmds
  induction cmds with
  | nil =>
    intro player p1 hp h
    simp only [runCommands, Option.some.injEq] at h
    rw [← h]
    exact hp
  | cons cmd rest ih =>
    intro player p1 hp h
    simp only [runCommands] at h
    split at h
    · simp at h
    · rename_i ret p2 hexec
      exact ih p2 p1 (executeCommand_sized hlen hnd hshort hslots hp hexec).1 h

/-- With room names of at most 23 characters a sequence of calls that keeps
the number of visits at most 85899345 runs through. -/
theorem runCommands_returns (rooms : List Room) (hlen : rooms.length = NUM_ROOMS)
    (hnd : (rooms.map Room.name).Nodup)
    (hshort : ∀ r ∈ rooms, r.name.length ≤ 23)
    (hslots : ∀ r ∈ rooms, r.numConnections ≤ r.connections.length) :
    ∀ (cmds : List CString) (player : Player), Sized rooms player →
      player.visited + (cmds.length : Int) ≤ 85899345 →
      ∃ p1, runCommands rooms player cmds = some p1 := by
  intro cmds
  induction cmds with
  | nil => intro player _ _; exact ⟨player, rfl⟩
  | cons cmd rest ih =>
    intro player hp hbound
    simp only [List.length_cons, Nat.cast_add, Nat.cast_one] at hbound
    obtain ⟨ret, p2, hexec⟩ :=
      executeCommand_returns rooms player cmd hlen hnd hshort hslots hp (by omega)
    obtain ⟨hs2, hv2, _⟩ := executeCommand_sized hlen hnd hshort hslots hp hexec
    obtain ⟨p1, hrun⟩ := ih p2 hs2 (by omega)
    exact ⟨p1, by simp only [runCommands, hexec]; exact hrun⟩

theorem selectStartLoop_lt (rooms : List Room) :
    ∀ (k i : Nat) (cur : Option Nat) (s : Nat),
      selectStartLoop rooms k i cur = some (some s) →
      (∀ c, cur = some c → c < rooms.length) → s < rooms.length := by
  intro k
  induction k with
  | zero =>
    intro i cur s h hcur
    simp only [selectStartLoop, Option.some.injEq] at h
    exact hcur s h
  | succ k ih =>
    intro i cur s h hcur
    simp only [selectStartLoop] at h
    split at h
    · simp at h
    · rename_i r hr
      apply ih (i + 1) _ s h
      intro c hc
      split at hc
      · simp only [Option.some.injEq] at hc
        rw [← hc]
        exact Buildrooms.getElem?_lt_of_some hr
      · exact hcur c hc

theorem setupPlayer_counted {rooms : List Room} {p0 : Player}
    (h : setupPlayer rooms = some p0) :
    Counted rooms p0 ∧ p0.history = [] ∧ p0.visited = 0 ∧ p0.histCap = 25 := by
  unfold setupPlayer at h
  split at h
  · rename_i s hs
    simp only [Option.some.injEq] at h
    subst h
    have hlt := selectStartLoop_lt rooms NUM_ROOMS 0 none s hs (by simp)
    exact ⟨⟨hlt, by simp [entries]⟩, rfl, rfl, rfl⟩
  · simp at h

theorem Loaded.wellFormed {rooms : List Room} (h : Loaded rooms) :
    (∀ r ∈ rooms, ∀ c ∈ r.name, isspace c = false) ∧
    (∀ r ∈ rooms, r.numConnections ≤ r.connections.length) := by
  refine ⟨?_, ?_⟩
  · intro r hr
    obtain ⟨file, hfile⟩ := h.2 r hr
    exact (readRoom_wellFormed hfile).1
  · intro r hr
    obtain ⟨file, hfile⟩ := h.2 r hr
    exact (readRoom_wellFormed hfile).2

theorem setupPlayer_sized {rooms : List Room} {p0 : Player}
    (h : setupPlayer rooms = some p0) : Sized rooms p0 := by
  obtain ⟨hc, hh, hv, hcap⟩ := setupPlayer_counted h
  refine ⟨hc.1, by omega, ?_, ?_⟩
  · rw [hh, hv]
    simp
  · rw [hcap, hv]
    rfl

theorem print02D_twoDigits (m : Int) (h0 : 0 ≤ m) (h1 : m ≤ 59) :
    print02D m = twoDigits m := by
  obtain ⟨n, rfl⟩ : ∃ n : Nat, m = n := ⟨m.toNat, by omega⟩
  have hn : n < 60 := by omega
  interval_cases n <;> decide

theorem monthText_monthNames (mon : Int) (h0 : 0 ≤ mon) (h1 : mon ≤ 11) :
    monthText mon = monthNames.getD mon.toNat [] := by
  obtain ⟨n, rfl⟩ : ∃ n : Nat, mon = n := ⟨mon.toNat, by omega⟩
  have hn : n < 12 := by omega
  interval_cases n <;> decide

/-- C14. For a local time with hour 0 to 23, minute 0 to 59 and month 0 to 11
the text `writeTime` writes is the hour on a 12-hour clock, a colon, the
minute as two digits, `pm` from hour 12 on and `am` before, then the weekday
field, then the English name of the month, the day of the month, the year
`tm_year + 1900` and a newline; for 15:07 on Tuesday 18 July 2017 the line is
`3:07pm, Tuesday, July 18, 2017`. -/
theorem writeTime_format (t : Tm)
    (_hhour : 0 ≤ t.tm_hour ∧ t.tm_hour ≤ 23)
    (hmin : 0 ≤ t.tm_min ∧ t.tm_min ≤ 59)
    (hmon : 0 ≤ t.tm_mon ∧ t.tm_mon ≤ 11) :
    writeTime t =
      printD (hour12 t.tm_hour) ++ ":".toList ++ twoDigits t.tm_min
        ++ (if t.tm_hour ≥ 12 then "pm".toList else "am".toList)
        ++ ", ".toList ++ weekdayText t.tm_wday
        ++ ", ".toList ++ monthNames.getD t.tm_mon.toNat [] ++ " ".toList ++ printD t.tm_mday
        ++ ", ".toList ++ printD (t.tm_year + 1900) ++ "\n".toList ∧
    writeTime { tm_min := 7, tm_hour := 15, tm_mday := 18, tm_mon := 6, tm_year := 117,
                tm_wday := 2 }
      = "3:07pm, Tuesday, July 18, 2017\n".toList := by
  refine ⟨?_, by decide⟩
  have h12 : printD 12 = "12".toList := by decide
  have hhr : (if t.tm_hour = 0 then "12".toList
      else if t.tm_hour ≤ 12 then printD t.tm_hour
      else printD (t.tm_hour - 12)) = printD (hour12 t.tm_hour) := by
    unfold hour12
    split
    · exact h12.symm
    · split <;> rfl
  unfold writeTime
  rw [hhr, print02D_twoDigits t.tm_min hmin.1 hmin.2,
    monthText_monthNames t.tm_mon hmon.1 hmon.2]

/-- Witness for C14: 00:05 on Sunday 1 January 2023. -/
theorem writeTime_format_witness :
    writeTime { tm_min := 5, tm_hour := 0, tm_mday := 1, tm_mon := 0, tm_year := 123,
                tm_wday := 0 }
      = "12:05am, Sunday, January 1, 2023\n".toList :=
  (writeTime_format { tm_min := 5, tm_hour := 0, tm_mday := 1, tm_mon := 0, tm_year := 123,
                      tm_wday := 0 }
    (by decide) (by decide) (by decide)).1

/-- C15. The weekday field `writeTime` writes is the name of the weekday for
`tm_wday` 0, 1, 2, 3, 5 and 6, but for `tm_wday` 4 it is `Thurday`, not
`Thursday`: at 15:07 on Thursday 20 July 2017 the line written is
`3:07pm, Thurday, July 20, 2017`. -/
theorem writeTime_weekday_thursday :
    (∀ w ∈ [0, 1, 2, 3, 5, 6], weekdayText w = weekdayNames.getD w.toNat []) ∧
    weekdayNames.getD 4 [] = "Thursday".toList ∧
    weekdayText 4 = "Thurday".toList ∧
    weekdayText 4 ≠ weekdayNames.getD 4 [] ∧
    writeTime { tm_min := 7, tm_hour := 15, tm_mday := 20, tm_mon := 6, tm_year := 117,
                tm_wday := 4 }
      = "3:07pm, Thurday, July 20, 2017\n".toList := by
  decide

/-! ## Proofs: a room file with an unknown type tag -/

end Adventure

/-! ## Proofs: the effect of one call and runs that never finish -/

namespace Buildrooms

theorem EdgeAdded.rooms_at {rooms rooms1 : List Room} {x y : Nat}
    (h : EdgeAdded rooms rooms1 x y) :
    ∃ rx ry, rooms[x]? = some rx ∧ rooms[y]? = some ry ∧
      rx.numConnections < MAX_CONNECTIONS ∧ ry.numConnections < MAX_CONNECTIONS ∧
      ¬ connectedTo rooms x y ∧ ¬ connectedTo rooms y x ∧
      rooms1[x]? = some (withConnection rx y) ∧ rooms1[y]? = some (withConnection ry x) ∧
      ∀ i, i ≠ x → i ≠ y → rooms1[i]? = rooms[i]? := by
  obtain ⟨hxy, rx, ry, hrx, hry, hxn, hyn, _, _, hnx, hny, heq⟩ := h
  have hxlen : x < rooms.length := getElem?_lt_of_some hrx
  have hylen : y < rooms.length := getElem?_lt_of_some hry
  refine ⟨rx, ry, hrx, hry, hxn, hyn, ?_, ?_, ?_, ?_, ?_⟩
  · intro ⟨ra, hra, hmem⟩
    rw [hrx] at hra
    simp only [Option.some.injEq] at hra
    subst hra
    exact hnx hmem
  · intro ⟨ra, hra, hmem⟩
    rw [hry] at hra
    simp only [Option.some.injEq] at hra
    subst hra
    exact hny hmem
  · subst heq
    rw [List.getElem?_set, List.getElem?_set]
    have hyx : ¬ y = x := fun e => hxy e.symm
    simp [hyx, hxlen]
  · subst heq
    rw [List.getElem?_set]
    simp [hylen]
  · intro i hix hiy
    subst heq
    rw [List.getElem?_set, List.getElem?_set]
    have h1 : ¬ y = i := fun e => hiy e.symm
    have h2 : ¬ x = i := fun e => hix e.symm
    simp [h1, h2]

/-- A call of `addRandomConnection` that returns has left both loops with a
room each, and the rooms afterwards are what `connectIfUnconnected` makes of
these two. -/
theorem addRandomConnection_chosen {rooms rooms1 : List Room} {count : Nat}
    {draws rest : List Nat}
    (h : addRandomConnection rooms count draws = .done (rooms1, rest)) :
    ∃ x y ds1, pickFirst rooms count draws = .done (x, ds1) ∧
      pickSecond rooms count x ds1 = .done (y, rest) ∧
      connectIfUnconnected rooms x y = some rooms1 := by
  unfold addRandomConnection at h
  split at h
  · simp at h
  · simp at h
  rename_i x ds1 hx
  split at h
  · simp at h
  · simp at h
  rename_i y ds2 hy
  split at h
  · simp at h
  rename_i roomsA hA
  simp only [Outcome.done.injEq, Prod.mk.injEq] at h
  obtain ⟨h1, h2⟩ := h
  subst h1
  subst h2
  exact ⟨x, y, ds1, hx, hy, hA⟩

/-- C18. A call of `addRandomConnection` that returns, in any state, has
chosen two different rooms with fewer than 6 connections each: `x`, with which
its first loop ends, and `y`, with which its second loop ends.  When one of
the two lists the other the call leaves every room as it was.  Otherwise it
stores `y` in the next free slot of `x` and `x` in the next free slot of `y`
and adds 1 to the `numConnections` of these two rooms; every other room, every
entry already listed, and every name and type stay as they were. -/
theorem addRandomConnection_frame (rooms : List Room) (count : Nat) (draws : List Nat)
    (rooms1 : List Room) (rest : List Nat)
    (h : addRandomConnection rooms count draws = .done (rooms1, rest)) :
    ∃ x y ds1 rx ry, pickFirst rooms count draws = .done (x, ds1) ∧
      pickSecond rooms count x ds1 = .done (y, rest) ∧
      x < count ∧ y < count ∧ x ≠ y ∧
      rooms[x]? = some rx ∧ rooms[y]? = some ry ∧
      rx.numConnections < 6 ∧ ry.numConnections < 6 ∧
      (((connectedTo rooms x y ∨ connectedTo rooms y x) ∧ rooms1 = rooms) ∨
       (¬ connectedTo rooms x y ∧ ¬ connectedTo rooms y x ∧
        rooms1.length = rooms.length ∧
        rooms1[x]? = some (withConnection rx y) ∧ rooms1[y]? = some (withConnection ry x) ∧
        (∀ i, i ≠ x → i ≠ y → rooms1[i]? = rooms[i]?) ∧
        (∀ i r1, rooms1[i]? = some r1 → ∃ r, rooms[i]? = some r ∧
          r1.name = r.name ∧ r1.type = r.type ∧
          links r1 = links r ++ (if i = x then [some y] else if i = y then [some x] else []) ∧
          r1.numConnections = r.numConnections + (if i = x ∨ i = y then 1 else 0)))) := by
  obtain ⟨x, y, ds1, hx, hy, hA⟩ := addRandomConnection_chosen h
  obtain ⟨hxc, rx, hrx, hxn⟩ := pickFirst_spec rooms count draws x ds1 hx
  obtain ⟨hyc, hxy, ry, hry, hyn⟩ := pickSecond_spec rooms count x ds1 y rest hy
  refine ⟨x, y, ds1, rx, ry, hx, hy, hxc, hyc, hxy, hrx, hry, hxn, hyn, ?_⟩
  rcases connectIfUnconnected_effect hxy hA with
    ⟨he, hc⟩ | ⟨rx2, ry2, hrx2, hry2, h3, h4, h5, h6, h7⟩
  · exact Or.inl ⟨hc, he⟩
  · rw [hrx] at hrx2
    rw [hry] at hry2
    simp only [Option.some.injEq] at hrx2 hry2
    subst hrx2
    subst hry2
    have hadd : EdgeAdded rooms rooms1 x y :=
      ⟨hxy, rx, ry, hrx, hry, hxn, hyn, h3, h4, h5, h6, h7⟩
    obtain ⟨rx3, ry3, hrx3, hry3, _, _, hnc1, hnc2, h1x, h1y, hother⟩ := hadd.rooms_at
    rw [hrx] at hrx3
    rw [hry] at hry3
    simp only [Option.some.injEq] at hrx3 hry3
    subst hrx3
    subst hry3
    refine Or.inr ⟨hnc1, hnc2, hadd.length, h1x, h1y, hother, ?_⟩
    intro i r1 hr1
    obtain ⟨r, hr, hn, ht, _, hl, hc⟩ := hadd.room i r1 hr1
    exact ⟨r, hr, hn, ht, hl, hc⟩

/-- Witness for C18: on the draws 0, 1 the first call connects rooms 0 and 1 of
`initRooms`. -/
theorem addRandomConnection_frame_witness :
    addRandomConnection initRooms 7 [0, 1] = .done (oneEdgeRooms, []) ∧
    ∃ x y ds1 rx ry, pickFirst initRooms 7 [0, 1] = .done (x, ds1) ∧
      pickSecond initRooms 7 x ds1 = .done (y, []) ∧
      x < 7 ∧ y < 7 ∧ x ≠ y ∧
      initRooms[x]? = some rx ∧ initRooms[y]? = some ry ∧
      rx.numConnections < 6 ∧ ry.numConnections < 6 ∧
      (((connectedTo initRooms x y ∨ connectedTo initRooms y x) ∧ oneEdgeRooms = initRooms) ∨
       (¬ connectedTo initRooms x y ∧ ¬ connectedTo initRooms y x ∧
        oneEdgeRooms.length = initRooms.length ∧
        oneEdgeRooms[x]? = some (withConnection rx y) ∧
        oneEdgeRooms[y]? = some (withConnection ry x) ∧
        (∀ i, i ≠ x → i ≠ y → oneEdgeRooms[i]? = initRooms[i]?) ∧
        (∀ i r1, oneEdgeRooms[i]? = some r1 → ∃ r, initRooms[i]? = some r ∧
          r1.name = r.name ∧ r1.type = r.type ∧
          links r1 = links r ++ (if i = x then [some y] else if i = y then [some x] else []) ∧
          r1.numConnections = r.numConnections + (if i = x ∨ i = y then 1 else 0)))) :=
  ⟨by decide, addRandomConnection_frame initRooms 7 [0, 1] oneEdgeRooms [] (by decide)⟩

theorem pickSecond_same_pending (rooms : List Room) (count c : Nat) (hc : count ≠ 0)
    (hroom : ∃ r, rooms[c % count]? = some r) :
    ∀ n, pickSecond rooms count (c % count) (List.replicate n c) = .pending := by
  intro n
  induction n with
  | zero => rfl
  | succ n ih =>
    obtain ⟨r, hr⟩ := hroom
    simp only [List.replicate_succ, pickSecond, getRandomRoom, hc, if_false,
      canAddConnectionFrom, hr, isSameRoom, if_true, or_true]
    exact ih

theorem Initialised.graph_not_full {rooms : List Room} (h : Initialised rooms) :
    graphIsFull rooms NUM_ROOMS = some 0 := by
  obtain ⟨hlen, hall⟩ := h
  have h0 : 0 < rooms.length := by rw [hlen]; decide
  have hz := (hall rooms[0] (List.getElem_mem h0)).1
  simp [graphIsFull, NUM_ROOMS, graphIsFullLoop, List.getElem?_eq_getElem h0, hz,
    MAX_CONNECTIONS, MIN_CONNECTIONS]

theorem addRandomConnection_same_pending {rooms : List Room} (h : Initialised rooms)
    (c n : Nat) : addRandomConnection rooms NUM_ROOMS (List.replicate n c) = .pending := by
  cases n with
  | zero => rfl
  | succ n =>
    have hlt : c % NUM_ROOMS < rooms.length := by
      rw [h.1]
      exact Nat.mod_lt _ (by decide)
    have hz := (h.2 rooms[c % NUM_ROOMS] (List.getElem_mem hlt)).1
    have hr : rooms[c % NUM_ROOMS]? = some rooms[c % NUM_ROOMS] := List.getElem?_eq_getElem hlt
    have h7 : NUM_ROOMS ≠ 0 := by decide
    have hfirst : pickFirst rooms NUM_ROOMS (List.replicate (n + 1) c)
        = .done (c % NUM_ROOMS, List.replicate n c) := by
      simp only [List.replicate_succ, pickFirst, getRandomRoom, h7, if_false,
        canAddConnectionFrom, hr, hz]
      simp [MAX_CONNECTIONS]
    unfold addRandomConnection
    rw [hfirst]
    simp only [pickSecond_same_pending rooms NUM_ROOMS c h7 ⟨_, hr⟩ n]

/-- C19. The edge-fill is not bound to end: there is an infinite sequence of
draws, for example any that always yields the same number, such that for every
`n` the loop, started from the initialised rooms, has not finished after the
first `n` draws, however many turns it is given. -/
theorem fillLoop_may_not_terminate (rooms0 : List Room) (hinit : Initialised rooms0) :
    (∀ c n fuel, fillLoop fuel rooms0 (List.replicate n c) = .pending) ∧
    ∃ s : Nat → Nat, ∀ n fuel, fillLoop fuel rooms0 ((List.range n).map s) = .pending := by
  have hconst : ∀ c n fuel, fillLoop fuel rooms0 (List.replicate n c) = .pending := by
    intro c n fuel
    cases fuel with
    | zero => rfl
    | succ fuel =>
      simp only [fillLoop, hinit.graph_not_full, if_true,
        addRandomConnection_same_pending hinit c n]
  refine ⟨hconst, fun _ => 0, ?_⟩
  intro n fuel
  have : (List.range n).map (fun _ => 0) = List.replicate n 0 := by
    simp [List.map_const']
  rw [this]
  exact hconst 0 n fuel

/-- Witness for C19: the rooms of `main` before the edge-fill loop. -/
theorem fillLoop_may_not_terminate_witness :
    Initialised dungeonStart ∧
    (∀ c n fuel, fillLoop fuel dungeonStart (List.replicate n c) = .pending) ∧
    ∃ s : Nat → Nat, ∀ n fuel, fillLoop fuel dungeonStart ((List.range n).map s) = .pending :=
  ⟨initialised_dungeonStart, fillLoop_may_not_terminate dungeonStart initialised_dungeonStart⟩

end Buildrooms

/-! ## Proofs: generation never faults -/

namespace Buildrooms

theorem graphIsFullLoop_some (rooms : List Room)
    (hmax : ∀ r ∈ rooms, r.numConnections ≤ MAX_CONNECTIONS) :
    ∀ (k i : Nat), i + k ≤ rooms.length → ∃ f, graphIsFullLoop rooms k i = some f := by
  intro k
  induction k with
  | zero => intro i _; exact ⟨1, rfl⟩
  | succ k ih =>
    intro i hik
    have hi : i < rooms.length := by omega
    simp only [graphIsFullLoop, List.getElem?_eq_getElem hi]
    rw [if_pos (hmax _ (List.getElem_mem hi))]
    split
    · exact ⟨0, rfl⟩
    · exact ih (i + 1) (by omega)

theorem unconnectedLoop_some (rx : Room) (y : Nat) :
    ∀ (k i : Nat), i + k ≤ rx.connections.length → ∃ u, unconnectedLoop rx y k i = some u := by
  intro k
  induction k with
  | zero => intro i _; exact ⟨1, rfl⟩
  | succ k ih =>
    intro i hik
    have hi : i < rx.connections.length := by omega
    simp only [unconnectedLoop, List.getElem?_eq_getElem hi]
    split
    · exact ⟨0, rfl⟩
    · exact ih (i + 1) (by omega)

theorem pickFirst_no_fault (rooms : List Room) (count : Nat) (hc : count ≠ 0)
    (hlen : count ≤ rooms.length) :
    ∀ ds, pickFirst rooms count ds ≠ .fault := by
  intro ds
  induction ds with
  | nil => simp [pickFirst]
  | cons d ds ih =>
    have hlt : d % count < rooms.length :=
      Nat.lt_of_lt_of_le (Nat.mod_lt _ (Nat.pos_of_ne_zero hc)) hlen
    simp only [pickFirst, getRandomRoom, hc, if_false, canAddConnectionFrom,
      List.getElem?_eq_getElem hlt]
    split
    · simp
    · exact ih

theorem pickSecond_no_fault (rooms : List Room) (count x : Nat) (hc : count ≠ 0)
    (hlen : count ≤ rooms.length) :
    ∀ ds, pickSecond rooms count x ds ≠ .fault := by
  intro ds
  induction ds with
  | nil => simp [pickSecond]
  | cons d ds ih =>
    have hlt : d % count < rooms.length :=
      Nat.lt_of_lt_of_le (Nat.mod_lt _ (Nat.pos_of_ne_zero hc)) hlen
    simp only [pickSecond, getRandomRoom, hc, if_false, canAddConnectionFrom,
      List.getElem?_eq_getElem hlt]
    by_cases hcond : ((if rooms[d % count].numConnections < MAX_CONNECTIONS then (1 : Int)
        else 0) = 0 ∨ isSameRoom x (d % count) = 1)
    · rw [if_pos hcond]
      exact ih
    · rw [if_neg hcond]
      intro hf
      cases hf

theorem connectIfUnconnected_some {rooms : List Room} {x y : Nat} {rx ry : Room}
    (hxy : x ≠ y) (hrx : rooms[x]? = some rx) (hry : rooms[y]? = some ry)
    (hx : rx.numConnections < rx.connections.length)
    (hy : ry.numConnections < ry.connections.length) :
    ∃ rooms1, connectIfUnconnected rooms x y = some rooms1 := by
  obtain ⟨u1, hu1⟩ := unconnectedLoop_some rx y rx.numConnections 0 (by omega)
  obtain ⟨u2, hu2⟩ := unconnectedLoop_some ry x ry.numConnections 0 (by omega)
  have hxlen : x < rooms.length := getElem?_lt_of_some hrx
  have hry1 : (rooms.set x (withConnection rx y))[y]? = some ry := by
    rw [List.getElem?_set]
    simp [hxy, hry]
  simp only [connectIfUnconnected, unconnected, hrx, hry, hu1, hu2]
  split
  · exact ⟨rooms, rfl⟩
  · split
    · exact ⟨rooms, rfl⟩
    · simp only [connectRoom, hrx, hx, if_true, hry1, hy]
      exact ⟨_, rfl⟩

theorem addRandomConnection_no_fault_of_good {rooms : List Room} (hg : Good rooms)
    (draws : List Nat) : addRandomConnection rooms NUM_ROOMS draws ≠ .fault := by
  have h7 : NUM_ROOMS ≠ 0 := by decide
  have hlen : NUM_ROOMS ≤ rooms.length := by rw [hg.len]
  unfold addRandomConnection
  split
  · simp
  · rename_i hf
    exact absurd hf (pickFirst_no_fault rooms NUM_ROOMS h7 hlen draws)
  · rename_i x ds1 hx
    split
    · simp
    · rename_i hf
      exact absurd hf (pickSecond_no_fault rooms NUM_ROOMS x h7 hlen ds1)
    · rename_i y ds2 hy
      obtain ⟨_, rx, hrx, hxn⟩ := pickFirst_spec rooms NUM_ROOMS draws x ds1 hx
      obtain ⟨_, hxy, ry, hry, hyn⟩ := pickSecond_spec rooms NUM_ROOMS x ds1 y ds2 hy
      obtain ⟨rooms1, h1⟩ := connectIfUnconnected_some hxy hrx hry
        (by rw [(hg.slots x rx hrx).1]; exact hxn) (by rw [(hg.slots y ry hry).1]; exact hyn)
      rw [h1]
      simp

theorem Good.max {rooms : List Room} (hg : Good rooms) :
    ∀ r ∈ rooms, r.numConnections ≤ MAX_CONNECTIONS := by
  intro r hr
  obtain ⟨i, hi⟩ := List.mem_iff_getElem?.mp hr
  exact (hg.slots i r hi).2

theorem Good.graphIsFull_some {rooms : List Room} (hg : Good rooms) :
    ∃ f, graphIsFull rooms NUM_ROOMS = some f :=
  graphIsFullLoop_some rooms hg.max NUM_ROOMS 0 (by rw [hg.len]; omega)

theorem fillLoop_no_fault :
    ∀ (fuel : Nat) (rooms : List Room) (draws : List Nat), Reachable rooms →
      fillLoop fuel rooms draws ≠ .fault := by
  intro fuel
  induction fuel with
  | zero => intro rooms draws _; simp [fillLoop]
  | succ fuel ih =>
    intro rooms draws hreach
    obtain ⟨f, hf⟩ := hreach.good.graphIsFull_some
    simp only [fillLoop, hf]
    split
    · split
      · simp
      · rename_i hfault
        exact absurd hfault (addRandomConnection_no_fault_of_good hreach.good draws)
      · rename_i rooms1 ds hstep
        exact ih rooms1 ds (Reachable.step rooms draws rooms1 ds hreach hstep)
    · simp

/-- C21. In every state reachable from the 7 initialised rooms by calls of
`addRandomConnection`, every room has at most `MAX_CONNECTIONS` = 6
connections.  Hence the assertion of `graphIsFull` holds there, a further call
of `addRandomConnection` and the whole edge-fill loop never fault, and a call
that connects two rooms stores into a slot with index at most 5 of each. -/
theorem reachable_degree_bound (rooms : List Room) (h : Reachable rooms) :
    (∀ r ∈ rooms, r.numConnections ≤ 6) ∧
    (∃ f, graphIsFull rooms NUM_ROOMS = some f) ∧
    (∀ draws, addRandomConnection rooms NUM_ROOMS draws ≠ .fault) ∧
    (∀ fuel draws, fillLoop fuel rooms draws ≠ .fault) ∧
    (∀ draws rooms1 rest, addRandomConnection rooms NUM_ROOMS draws = .done (rooms1, rest) →
      rooms1 = rooms ∨
      ∃ x y rx ry, x ≠ y ∧ rooms[x]? = some rx ∧ rooms[y]? = some ry ∧
        rx.numConnections ≤ 5 ∧ ry.numConnections ≤ 5 ∧
        rooms1 = (rooms.set x (withConnection rx y)).set y (withConnection ry x)) := by
  have hg := h.good
  refine ⟨hg.max, hg.graphIsFull_some, addRandomConnection_no_fault_of_good hg,
    fun fuel draws => fillLoop_no_fault fuel rooms draws h, ?_⟩
  intro draws rooms1 rest hstep
  rcases addRandomConnection_effect hstep with hsame | ⟨x, y, _, _, hadd⟩
  · exact Or.inl hsame.1
  · obtain ⟨hxy, rx, ry, hrx, hry, hxn, hyn, _, _, _, _, heq⟩ := hadd
    have h5x : rx.numConnections ≤ 5 := by
      have : rx.numConnections < 6 := hxn
      omega
    have h5y : ry.numConnections ≤ 5 := by
      have : ry.numConnections < 6 := hyn
      omega
    exact Or.inr ⟨x, y, rx, ry, hxy, hrx, hry, h5x, h5y, heq⟩

/-- Witness for C21: the rooms the edge-fill loop leaves on `fillDraws`. -/
theorem reachable_degree_bound_witness :
    Reachable filledRooms ∧ (∀ r ∈ filledRooms, r.numConnections ≤ 6) ∧
    (∃ f, graphIsFull filledRooms NUM_ROOMS = some f) :=
  ⟨(fillLoop_done 12 initRooms fillDraws filledRooms [] (by decide)
      (Reachable.init _ initialised_initRooms)).1,
   (reachable_degree_bound filledRooms
     (fillLoop_done 12 initRooms fillDraws filledRooms [] (by decide)
        (Reachable.init _ initialised_initRooms)).1).1,
   (reachable_degree_bound filledRooms
     (fillLoop_done 12 initRooms fillDraws filledRooms [] (by decide)
        (Reachable.init _ initialised_initRooms)).1).2.1⟩

/-! ## Proofs: progress is possible -/

theorem others_card (x : Nat) (hx : x < NUM_ROOMS) :
    (((Finset.range NUM_ROOMS).erase x).image some).card = 6 := by
  rw [Finset.card_image_of_injective _ (Option.some_injective _),
    Finset.card_erase_of_mem (Finset.mem_range.mpr hx), Finset.card_range]
  rfl

theorem Good.links_subset_others {rooms : List Room} (hg : Good rooms) {x : Nat} {rx : Room}
    (hrx : rooms[x]? = some rx) :
    (links rx).toFinset ⊆ ((Finset.range NUM_ROOMS).erase x).image some := by
  intro p hp
  rw [List.mem_toFinset] at hp
  obtain ⟨j, hj, hjlt, hjx⟩ := hg.valid x rx hrx p hp
  subst hj
  rw [Finset.mem_image]
  exact ⟨j, Finset.mem_erase.mpr ⟨hjx, Finset.mem_range.mpr hjlt⟩, rfl⟩

/-- A room with 6 connections lists every other room. -/
theorem Good.full_lists_all {rooms : List Room} (hg : Good rooms) {y : Nat} {ry : Room}
    (hry : rooms[y]? = some ry) (hfull : 6 ≤ ry.numConnections) {j : Nat}
    (hj : j < NUM_ROOMS) (hjy : j ≠ y) : some j ∈ links ry := by
  have hy : y < NUM_ROOMS := by
    have := getElem?_lt_of_some hry
    rw [hg.len] at this
    exact this
  have hcard : (((Finset.range NUM_ROOMS).erase y).image some).card ≤ (links ry).toFinset.card := by
    rw [others_card y hy, List.toFinset_card_of_nodup (hg.nodup y ry hry), hg.links_length hry]
    exact hfull
  have heq := Finset.eq_of_subset_of_card_le (hg.links_subset_others hry) hcard
  have hmem : some j ∈ ((Finset.range NUM_ROOMS).erase y).image some :=
    Finset.mem_image.mpr ⟨j, Finset.mem_erase.mpr ⟨hjy, Finset.mem_range.mpr hj⟩, rfl⟩
  rw [← heq] at hmem
  exact List.mem_toFinset.mp hmem

/-- A room with fewer than 6 connections has a partner: another room with
fewer than 6 connections such that neither lists the other. -/
theorem Good.free_partner {rooms : List Room} (hg : Good rooms) {x : Nat} {rx : Room}
    (hrx : rooms[x]? = some rx) (hfree : rx.numConnections < 6) :
    ∃ w rw, w ≠ x ∧ w < NUM_ROOMS ∧ rooms[w]? = some rw ∧ rw.numConnections < 6 ∧
      some w ∉ links rx ∧ some x ∉ links rw := by
  have hx : x < NUM_ROOMS := by
    have := getElem?_lt_of_some hrx
    rw [hg.len] at this
    exact this
  have hmiss : ∃ w, w < NUM_ROOMS ∧ w ≠ x ∧ some w ∉ links rx := by
    by_contra hcon
    have hsub : ((Finset.range NUM_ROOMS).erase x).image some ⊆ (links rx).toFinset := by
      intro p hp
      obtain ⟨j, hj, hpj⟩ := Finset.mem_image.mp hp
      obtain ⟨hjx, hjr⟩ := Finset.mem_erase.mp hj
      subst hpj
      rw [List.mem_toFinset]
      by_contra hnot
      exact hcon ⟨j, Finset.mem_range.mp hjr, hjx, hnot⟩
    have hle := Finset.card_le_card hsub
    rw [others_card x hx, List.toFinset_card_of_nodup (hg.nodup x rx hrx),
      hg.links_length hrx] at hle
    omega
  obtain ⟨w, hw, hwx, hnot⟩ := hmiss
  obtain ⟨rw, hrw⟩ := getElem?_of_lt_good hg hw
  have hnot2 : some x ∉ links rw := fun hm => hnot (hg.symm w x rw rx hrw hrx hm)
  refine ⟨w, rw, hwx, hw, hrw, ?_, hnot, hnot2⟩
  by_contra hfull
  exact hnot2 (hg.full_lists_all hrw (by omega) hx (fun e => hwx e.symm))

theorem graphIsFullLoop_zero (rooms : List Room) :
    ∀ (k i : Nat), graphIsFullLoop rooms k i = some 0 →
      ∃ (j : Nat) (r : Room), rooms[j]? = some r ∧ r.numConnections < MIN_CONNECTIONS := by
  intro k
  induction k with
  | zero => intro i h; simp [graphIsFullLoop] at h
  | succ k ih =>
    intro i h
    simp only [graphIsFullLoop] at h
    split at h
    · simp at h
    · rename_i r hr
      split at h
      · split at h
        · rename_i hmin
          exact ⟨i, r, hr, hmin⟩
        · exact ih (i + 1) h
      · simp at h

theorem unconnectedLoop_one (rx : Room) (y : Nat) :
    ∀ (k i : Nat), i + k ≤ rx.connections.length →
      some y ∉ (rx.connections.drop i).take k → unconnectedLoop rx y k i = some 1 := by
  intro k
  induction k with
  | zero => intro i _ _; rfl
  | succ k ih =>
    intro i hik hno
    have hi : i < rx.connections.length := by omega
    rw [List.drop_eq_getElem_cons hi, List.take_succ_cons] at hno
    simp only [unconnectedLoop, List.getElem?_eq_getElem hi]
    have hne : ¬ rx.connections[i] = some y :=
      fun e => hno (by rw [e]; exact List.mem_cons_self _ _)
    rw [if_neg hne]
    exact ih (i + 1) (by omega) (fun hm => hno (List.mem_cons_of_mem _ hm))

/-- On the draws `x`, `y` for two different rooms with a free slot each that do
not list each other, `addRandomConnection` connects `x` and `y`. -/
theorem addRandomConnection_pair {rooms : List Room} {x y : Nat} {rx ry : Room}
    (hxy : x ≠ y) (hx : x < NUM_ROOMS) (hy : y < NUM_ROOMS)
    (hrx : rooms[x]? = some rx) (hry : rooms[y]? = some ry)
    (hxn : rx.numConnections < MAX_CONNECTIONS) (hyn : ry.numConnections < MAX_CONNECTIONS)
    (hxl : rx.connections.length = MAX_CONNECTIONS)
    (hyl : ry.connections.length = MAX_CONNECTIONS)
    (hnx : some y ∉ links rx) (hny : some x ∉ links ry) :
    addRandomConnection rooms NUM_ROOMS [x, y] =
      .done ((rooms.set x (withConnection rx y)).set y (withConnection ry x), []) := by
  have h7 : NUM_ROOMS ≠ 0 := by decide
  have hxm : x % NUM_ROOMS = x := Nat.mod_eq_of_lt hx
  have hym : y % NUM_ROOMS = y := Nat.mod_eq_of_lt hy
  have hfirst : pickFirst rooms NUM_ROOMS [x, y] = .done (x, [y]) := by
    simp only [pickFirst, getRandomRoom, h7, if_false, hxm, canAddConnectionFrom, hrx, hxn,
      if_true]
  have hsame : isSameRoom x y = 0 := by simp [isSameRoom, hxy]
  have hsecond : pickSecond rooms NUM_ROOMS x [y] = .done (y, []) := by
    simp only [pickSecond, getRandomRoom, h7, if_false, hym, canAddConnectionFrom, hry, hyn,
      if_true, hsame]
    simp
  have hu1 : unconnected rooms x y = some 1 := by
    simp only [unconnected, hrx]
    exact unconnectedLoop_one rx y rx.numConnections 0 (by omega) (by simpa [links] using hnx)
  have hu2 : unconnected rooms y x = some 1 := by
    simp only [unconnected, hry]
    exact unconnectedLoop_one ry x ry.numConnections 0 (by omega) (by simpa [links] using hny)
  have hxlt : rx.numConnections < rx.connections.length := by omega
  have hylt : ry.numConnections < ry.connections.length := by omega
  have hry1 : (rooms.set x (withConnection rx y))[y]? = some ry := by
    rw [List.getElem?_set]
    simp [hxy, hry]
  have hconn : connectIfUnconnected rooms x y =
      some ((rooms.set x (withConnection rx y)).set y (withConnection ry x)) := by
    simp only [connectIfUnconnected, hu1, hu2, connectRoom, hrx, hxlt, if_true, hry1, hylt]
    simp
  simp only [addRandomConnection, hfirst, hsecond, hconn]

/-- C22. Progress is possible: in every state reachable from the 7 initialised
rooms in which `graphIsFull` returns 0, (i) for every room with fewer than 6
connections there is a different room with fewer than 6 connections, so each
resampling loop of `addRandomConnection` has a draw that ends it, and (ii)
there are two different rooms with fewer than 6 connections each that are not
connected to each other, and on the draws naming them the call adds the
edge between them. -/
theorem progress_possible (rooms : List Room) (h : Reachable rooms)
    (hnot : graphIsFull rooms NUM_ROOMS = some 0) :
    (∀ x rx, rooms[x]? = some rx → rx.numConnections < 6 →
      ∃ y ry, y ≠ x ∧ y < 7 ∧ rooms[y]? = some ry ∧ ry.numConnections < 6) ∧
    (∃ x y rx ry, x ≠ y ∧ x < 7 ∧ y < 7 ∧ rooms[x]? = some rx ∧ rooms[y]? = some ry ∧
      rx.numConnections < 6 ∧ ry.numConnections < 6 ∧
      ¬ connectedTo rooms x y ∧ ¬ connectedTo rooms y x ∧
      ∃ rooms1, addRandomConnection rooms NUM_ROOMS [x, y] = .done (rooms1, []) ∧
        rooms1 = (rooms.set x (withConnection rx y)).set y (withConnection ry x) ∧
        rooms1 ≠ rooms) := by
  have hg := h.good
  refine ⟨?_, ?_⟩
  · intro x rx hrx hfree
    obtain ⟨w, rw, hwx, hw, hrw, hwn, _, _⟩ := hg.free_partner hrx hfree
    exact ⟨w, rw, hwx, hw, hrw, hwn⟩
  · obtain ⟨z, rz, hrz, hlow⟩ := graphIsFullLoop_zero rooms NUM_ROOMS 0 hnot
    have hz : z < NUM_ROOMS := by
      have := getElem?_lt_of_some hrz
      rw [hg.len] at this
      exact this
    have hz6 : rz.numConnections < 6 := by
      have : rz.numConnections < 3 := hlow
      omega
    obtain ⟨w, rw, hwz, hw, hrw, hwn, hn1, hn2⟩ := hg.free_partner hrz hz6
    have hzw : z ≠ w := fun e => hwz e.symm
    have hrun := addRandomConnection_pair hzw hz hw hrz hrw hz6 hwn
      (hg.slots z rz hrz).1 (hg.slots w rw hrw).1 hn1 hn2
    refine ⟨z, w, rz, rw, hzw, hz, hw, hrz, hrw, hz6, hwn, ?_, ?_, _, hrun, rfl, ?_⟩
    · intro ⟨ra, hra, hmem⟩
      rw [hrz] at hra
      simp only [Option.some.injEq] at hra
      subst hra
      exact hn1 hmem
    · intro ⟨ra, hra, hmem⟩
      rw [hrw] at hra
      simp only [Option.some.injEq] at hra
      subst hra
      exact hn2 hmem
    · intro heq
      have hlen : w < rooms.length := getElem?_lt_of_some hrw
      have hat : ((rooms.set z (withConnection rz w)).set w (withConnection rw z))[w]?
          = some (withConnection rw z) := by
        rw [List.getElem?_set]
        simp [hlen]
      rw [heq, hrw] at hat
      simp only [Option.some.injEq] at hat
      have hnum := congrArg Room.numConnections hat
      simp [withConnection] at hnum

/-- Witness for C22: the initialised rooms, where no room has a connection. -/
theorem progress_possible_witness :
    Reachable initRooms ∧ graphIsFull initRooms NUM_ROOMS = some 0 ∧
    (∀ x rx, initRooms[x]? = some rx → rx.numConnections < 6 →
      ∃ y ry, y ≠ x ∧ y < 7 ∧ initRooms[y]? = some ry ∧ ry.numConnections < 6) ∧
    (∃ x y rx ry, x ≠ y ∧ x < 7 ∧ y < 7 ∧ initRooms[x]? = some rx ∧ initRooms[y]? = some ry ∧
      rx.numConnections < 6 ∧ ry.numConnections < 6 ∧
      ¬ connectedTo initRooms x y ∧ ¬ connectedTo initRooms y x ∧
      ∃ rooms1, addRandomConnection initRooms NUM_ROOMS [x, y] = .done (rooms1, []) ∧
        rooms1 = (initRooms.set x (withConnection rx y)).set y (withConnection ry x) ∧
        rooms1 ≠ initRooms) :=
  ⟨Reachable.init _ initialised_initRooms, by decide,
   progress_possible initRooms (Reachable.init _ initialised_initRooms) (by decide)⟩

end Buildrooms

/-! ## Proofs: a connection that names no room, and the history buffer -/

namespace Adventure

/-- C23. If a command other than `time` equals one of the connection names of
the current room but no room of the array has that name, `executeCommand`
returns 0 and leaves the player (current room, history, visited) unchanged. -/
theorem executeCommand_dangling (player : Player) (string : CString) (rooms : List Room)
    (cur : Room)
    (hlen : rooms.length = 7)
    (hcur : rooms[player.curRoom]? = some cur)
    (hslots : cur.numConnections ≤ cur.connections.length)
    (htime : string ≠ "time".toList)
    (hmem : string ∈ exits cur)
    (hno : ∀ r ∈ rooms, r.name ≠ string) :
    executeCommand player string rooms = some (0, player) := by
  have henter : enterRooms rooms string NUM_ROOMS 0 player = some player :=
    enterRooms_none rooms string NUM_ROOMS 0 player (by rw [hlen]; decide)
      (fun j rj _ hj => hno rj (Buildrooms.mem_of_getElem?_some hj))
  unfold executeCommand
  rw [if_neg htime, hcur]
  exact matchConnections_some rooms player string cur player henter cur.numConnections 0
    (by omega) (by simpa [exits] using hmem)

/-- Witness for C23: in `danglingRooms` the command `ATTIC` from the start
room. -/
theorem executeCommand_dangling_witness :
    executeCommand startPlayer "ATTIC".toList danglingRooms = some (0, startPlayer) :=
  executeCommand_dangling startPlayer "ATTIC".toList danglingRooms
    ⟨"PRISON_CELL".toList, ["FOYER".toList, "ATTIC".toList, "DARK_ROOM".toList, [], [], []],
     1, 3⟩
    (by decide) (by decide) (by decide) (by decide) (by decide) (by decide)

set_option maxRecDepth 1000000 in
theorem longRooms_read :
    longFiles.map (fun file => readRoom file initRoom) = longRooms.map some := by
  decide

theorem loaded_longRooms : Loaded longRooms := by
  refine ⟨by decide, ?_⟩
  intro r hr
  have hmem : some r ∈ longFiles.map (fun file => readRoom file initRoom) := by
    rw [longRooms_read]
    exact List.mem_map_of_mem some hr
  obtain ⟨file, _, hfile⟩ := List.mem_map.mp hmem
  exact ⟨file, hfile⟩

/-- Counterexample to C9 as stated: `longRooms` is a loaded graph of 7 rooms
with pairwise distinct names whose connection names all name a room, and the
name of 24 characters is a connection of the start room; on that command
`realloc` gives the history 25 bytes, the name and the terminator fill them,
and the `strcat` of the newline writes past the block. -/
theorem executeCommand_valid_move_overrun :
    Loaded longRooms ∧ longRooms.length = 7 ∧ (longRooms.map Room.name).Nodup ∧
    (∀ r ∈ longRooms, ∀ c ∈ exits r, ∃ r1 ∈ longRooms, r1.name = c) ∧
    setupPlayer longRooms = some startPlayer ∧
    "THE_VERY_DARK_ROOM_BELOW".toList ≠ "time".toList ∧
    (∃ cur, longRooms[startPlayer.curRoom]? = some cur ∧
      "THE_VERY_DARK_ROOM_BELOW".toList ∈ exits cur) ∧
    executeCommand startPlayer "THE_VERY_DARK_ROOM_BELOW".toList longRooms = none :=
  ⟨loaded_longRooms, by decide, by decide, by decide, by decide, by decide,
   ⟨_, rfl, by decide⟩, by decide⟩

theorem runCommands_append (rooms : List Room) :
    ∀ (a b : List CString) (player : Player),
      runCommands rooms player (a ++ b)
        = (runCommands rooms player a).bind (fun p1 => runCommands rooms p1 b) := by
  intro a
  induction a with
  | nil => intro b player; rfl
  | cons cmd rest ih =>
    intro b player
    simp only [List.cons_append, runCommands]
    split
    · rfl
    · exact ih b _

/-- A move in `loadedRooms` from a state with fewer than 85899345 visits: the
command is a connection of the current room and the name of room `j`. -/
theorem loadedRooms_move (p : Player) (string : CString) (cur rj : Room) (j : Nat)
    (hcur : loadedRooms[p.curRoom]? = some cur) (hmem : string ∈ exits cur)
    (hj : loadedRooms[j]? = some rj) (hname : rj.name = string)
    (hp : Sized loadedRooms p) (hv : p.visited < 85899345) :
    executeCommand p string loadedRooms = some (0, entered p j string) ∧
      Sized loadedRooms (entered p j string) := by
  have hslots : ∀ r ∈ loadedRooms, r.numConnections ≤ r.connections.length := by decide
  have hshort : ∀ r ∈ loadedRooms, r.name.length ≤ 23 := by decide
  have hnd : (loadedRooms.map Room.name).Nodup := by decide
  have htime : string ≠ "time".toList := by
    intro e
    have hno : ∀ r ∈ loadedRooms, r.name ≠ "time".toList := by decide
    exact hno rj (Buildrooms.mem_of_getElem?_some hj) (by rw [hname, e])
  have hmove := executeCommand_move p string loadedRooms cur rj j (by decide) hnd hcur
    (hslots cur (Buildrooms.mem_of_getElem?_some hcur)) htime hmem hj hname
  obtain ⟨ret, p1, hexec⟩ := executeCommand_returns loadedRooms p string (by decide) hnd
    hshort hslots hp hv
  have hsized := (executeCommand_sized (by decide) hnd hshort hslots hp hexec).1
  rw [hmove] at hexec
  cases hvr : visitRoom p j string with
  | none => simp [hvr] at hexec
  | some p2 =>
    obtain ⟨heq, _⟩ := visitRoom_some hvr
    simp only [hvr, Option.map_some', Option.some.injEq, Prod.mk.injEq] at hexec
    rw [hmove, hvr, heq]
    rw [← hexec.2, heq] at hsized
    exact ⟨rfl, hsized⟩

/-- The commands `pingPong n` from room 2 of `loadedRooms` run through while
the number of visits stays at most 85899345; they end in room 2 after `2 * n`
more visits. -/
theorem pingPong_run :
    ∀ (n : Nat) (p : Player), p.curRoom = 2 → Sized loadedRooms p →
      p.visited + 2 * (n : Int) ≤ 85899345 →
      ∃ p1, runCommands loadedRooms p (pingPong n) = some p1 ∧ p1.curRoom = 2 ∧
        Sized loadedRooms p1 ∧ p1.visited = p.visited + 2 * (n : Int) := by
  intro n
  induction n with
  | zero =>
    intro p hc hp _
    exact ⟨p, rfl, hc, hp, by simp⟩
  | succ n ih =>
    intro p hc hp hbound
    push_cast at hbound
    obtain ⟨h1, hs1⟩ := loadedRooms_move p "FOYER".toList
      ⟨"PRISON_CELL".toList,
       ["FOYER".toList, "LONG_STAIRCASE".toList, "DARK_ROOM".toList, [], [], []], 1, 3⟩
      ⟨"FOYER".toList,
       ["DUNGEON".toList, "PRISON_CELL".toList, "KITCHEN".toList, [], [], []], 2, 3⟩
      1 (by rw [hc]; rfl) (by decide) (by decide) rfl hp (by omega)
    obtain ⟨h2, hs2⟩ := loadedRooms_move (entered p 1 "FOYER".toList) "PRISON_CELL".toList
      ⟨"FOYER".toList,
       ["DUNGEON".toList, "PRISON_CELL".toList, "KITCHEN".toList, [], [], []], 2, 3⟩
      ⟨"PRISON_CELL".toList,
       ["FOYER".toList, "LONG_STAIRCASE".toList, "DARK_ROOM".toList, [], [], []], 1, 3⟩
      2 rfl (by decide) (by decide) rfl hs1
      (by show p.visited + 1 < 85899345; omega)
    obtain ⟨p1, hrun, hc1, hsz1, hv1⟩ :=
      ih (entered (entered p 1 "FOYER".toList) 2 "PRISON_CELL".toList) rfl hs2
        (by show p.visited + 1 + 1 + 2 * (n : Int) ≤ 85899345; omega)
    refine ⟨p1, ?_, hc1, hsz1, ?_⟩
    · simp only [pingPong, runCommands, h1, h2]
      exact hrun
    · rw [hv1]
      show p.visited + 1 + 1 + 2 * (n : Int) = p.visited + 2 * ((n + 1 : Nat) : Int)
      push_cast
      omega

/-- The function `visitRoom` gives no player when `25 * (visited + 1)` is
beyond `INT_MAX`. -/
theorem visitRoom_overflow (p : Player) (j : Nat) (string : CString)
    (h : INT_MAX < 25 * (p.visited + 1)) : visitRoom p j string = none := by
  unfold visitRoom
  split_ifs <;> rfl

/-- C24, up to 85899345 visits. History capacity: in a loaded graph with pairwise
distinct room names of at most 23 characters each, from the player as `main`
sets it up (nothing visited, the empty history in a buffer of 25 bytes), after
every sequence of calls of `executeCommand` that all return the length of the
history plus 1 for the terminator is at most the size last requested for the
buffer, which is `25 * max(visited, 1)`; every sequence of at most 85899345
calls is such a sequence, and so is every further call from a state with fewer
than 85899345 visits, for which `25 * (visited + 1)` is at most `INT_MAX`; and
whenever a further call changes the player, the `25 * (visited + 1)` bytes it
requests hold the history, the name, the newline and the terminator, so each
`strcat` fits. -/
theorem history_capacity (rooms : List Room) (p0 : Player)
    (hloaded : Loaded rooms) (hnd : (rooms.map Room.name).Nodup)
    (hshort : ∀ r ∈ rooms, r.name.length ≤ 23)
    (hstart : setupPlayer rooms = some p0) :
    (∀ (cmds : List CString) (p : Player), runCommands rooms p0 cmds = some p →
      (p.history.length : Int) + 1 ≤ p.histCap ∧
      p.histCap = 25 * max p.visited 1 ∧
      (p.history.length : Int) + 1 ≤ 25 * max p.visited 1) ∧
    (∀ cmds : List CString, cmds.length ≤ 85899345 →
      ∃ p, runCommands rooms p0 cmds = some p) ∧
    (∀ (cmds : List CString) (cmd : CString) (p : Player),
      runCommands rooms p0 cmds = some p → p.visited < 85899345 →
      ∃ ret p1, executeCommand p cmd rooms = some (ret, p1) ∧
        25 * (p.visited + 1) ≤ INT_MAX) ∧
    (∀ (cmds : List CString) (cmd : CString) (p p1 : Player) (ret : Int),
      runCommands rooms p0 cmds = some p → executeCommand p cmd rooms = some (ret, p1) →
      p1 ≠ p →
      ((p.history ++ cmd ++ "\n".toList).length : Int) + 1 ≤ 25 * (p.visited + 1)) := by
  have hslots := hloaded.wellFormed.2
  have hall := runCommands_sized rooms hloaded.1 hnd hshort hslots
  have h0 := setupPlayer_sized hstart
  have hv0 : p0.visited = 0 := (setupPlayer_counted hstart).2.2.1
  refine ⟨?_, ?_, ?_, ?_⟩
  · intro cmds p hrun
    obtain ⟨_, hv, hh, hcap⟩ := hall cmds p0 p h0 hrun
    have hbound : (p.history.length : Int) + 1 ≤ 25 * max p.visited 1 := by
      rcases lt_or_ge p.visited 1 with hlt | hge
      · rw [max_eq_right (by omega)]
        omega
      · rw [max_eq_left hge]
        omega
    exact ⟨by rw [hcap]; exact hbound, hcap, hbound⟩
  · intro cmds hbound
    exact runCommands_returns rooms hloaded.1 hnd hshort hslots cmds p0 h0
      (by rw [hv0]; omega)
  · intro cmds cmd p hrun hv
    obtain ⟨ret, p1, hexec⟩ := executeCommand_returns rooms p cmd hloaded.1 hnd hshort hslots
      (hall cmds p0 p h0 hrun) hv
    have hI : INT_MAX = 2147483647 := rfl
    exact ⟨ret, p1, hexec, by omega⟩
  · intro cmds cmd p p1 ret hrun hexec hne
    have hp := hall cmds p0 p h0 hrun
    obtain ⟨_, hv, hh, _⟩ := hp
    rcases (executeCommand_sized hloaded.1 hnd hshort hslots (hall cmds p0 p h0 hrun)
      hexec).2.2 with hsame | ⟨r, hr, hname⟩
    · exact absurd hsame hne
    · have hs : cmd.length ≤ 23 := by
        rw [← hname]
        exact hshort r hr
      have hn : "\n".toList.length = 1 := by decide
      rw [List.length_append, List.length_append, hn]
      push_cast
      omega

/-- Witness for C24: `loadedRooms`, whose names are names of the pool. -/
theorem history_capacity_witness :
    Loaded loadedRooms ∧ (loadedRooms.map Room.name).Nodup ∧
    (∀ r ∈ loadedRooms, r.name.length ≤ 23) ∧ setupPlayer loadedRooms = some startPlayer ∧
    (∀ (cmds : List CString) (p : Player), runCommands loadedRooms startPlayer cmds = some p →
      (p.history.length : Int) + 1 ≤ p.histCap ∧
      p.histCap = 25 * max p.visited 1 ∧
      (p.history.length : Int) + 1 ≤ 25 * max p.visited 1) ∧
    (∀ cmds : List CString, cmds.length ≤ 85899345 →
      ∃ p, runCommands loadedRooms startPlayer cmds = some p) ∧
    (∀ (cmds : List CString) (cmd : CString) (p : Player),
      runCommands loadedRooms startPlayer cmds = some p → p.visited < 85899345 →
      ∃ ret p1, executeCommand p cmd loadedRooms = some (ret, p1) ∧
        25 * (p.visited + 1) ≤ INT_MAX) ∧
    (∀ (cmds : List CString) (cmd : CString) (p p1 : Player) (ret : Int),
      runCommands loadedRooms startPlayer cmds = some p →
      executeCommand p cmd loadedRooms = some (ret, p1) → p1 ≠ p →
      ((p.history ++ cmd ++ "\n".toList).length : Int) + 1 ≤ 25 * (p.visited + 1)) :=
  ⟨loaded_loadedRooms, by decide, by decide, by decide,
   history_capacity loadedRooms startPlayer loaded_loadedRooms (by decide) (by decide)
     (by decide)⟩

/-- Counterexample to C24 as stated: in `loadedRooms`, whose names have at most
14 characters, the commands `FOYER`, `PRISON_CELL` repeated 42949672 times and
`FOYER` once more run through and leave 85899345 visits; the size
`25 * 85899346` the next move computes is beyond `INT_MAX`, so the sequence
with one more `PRISON_CELL` does not run through. -/
theorem history_capacity_overflow :
    Loaded loadedRooms ∧ (loadedRooms.map Room.name).Nodup ∧
    (∀ r ∈ loadedRooms, r.name.length ≤ 23) ∧ setupPlayer loadedRooms = some startPlayer ∧
    (∃ p, runCommands loadedRooms startPlayer (pingPong 42949672 ++ ["FOYER".toList]) = some p ∧
      p.visited = 85899345 ∧ INT_MAX < 25 * (p.visited + 1) ∧
      executeCommand p "PRISON_CELL".toList loadedRooms = none) ∧
    runCommands loadedRooms startPlayer
      (pingPong 42949672 ++ ["FOYER".toList, "PRISON_CELL".toList]) = none := by
  have hI : INT_MAX = 2147483647 := rfl
  obtain ⟨p1, hrun1, hc1, hs1, hv1⟩ := pingPong_run 42949672 startPlayer rfl
    (setupPlayer_sized (show setupPlayer loadedRooms = some startPlayer by decide))
    (by show (0 : Int) + 2 * ((42949672 : Nat) : Int) ≤ 85899345; norm_num)
  have hv1a : p1.visited = 85899344 := by
    rw [hv1]
    show (0 : Int) + 2 * ((42949672 : Nat) : Int) = 85899344
    norm_num
  obtain ⟨h2, hs2⟩ := loadedRooms_move p1 "FOYER".toList
    ⟨"PRISON_CELL".toList,
     ["FOYER".toList, "LONG_STAIRCASE".toList, "DARK_ROOM".toList, [], [], []], 1, 3⟩
    ⟨"FOYER".toList,
     ["DUNGEON".toList, "PRISON_CELL".toList, "KITCHEN".toList, [], [], []], 2, 3⟩
    1 (by rw [hc1]; rfl) (by decide) (by decide) rfl hs1 (by omega)
  have hv2 : (entered p1 1 "FOYER".toList).visited = 85899345 := by
    show p1.visited + 1 = 85899345
    omega
  have hover : INT_MAX < 25 * ((entered p1 1 "FOYER".toList).visited + 1) := by
    rw [hv2, hI]
    norm_num
  have h3 : executeCommand (entered p1 1 "FOYER".toList) "PRISON_CELL".toList loadedRooms
      = none := by
    rw [executeCommand_move (entered p1 1 "FOYER".toList) "PRISON_CELL".toList loadedRooms
      ⟨"FOYER".toList,
       ["DUNGEON".toList, "PRISON_CELL".toList, "KITCHEN".toList, [], [], []], 2, 3⟩
      ⟨"PRISON_CELL".toList,
       ["FOYER".toList, "LONG_STAIRCASE".toList, "DARK_ROOM".toList, [], [], []], 1, 3⟩
      2 (by decide) (by decide) rfl (by decide) (by decide) (by decide) (by decide)
      rfl, visitRoom_overflow _ _ _ hover]
    rfl
  refine ⟨loaded_loadedRooms, by decide, by decide, by decide,
    ⟨entered p1 1 "FOYER".toList, ?_, hv2, hover, h3⟩, ?_⟩
  · rw [runCommands_append, hrun1]
    simp only [Option.bind, runCommands, h2]
  · rw [runCommands_append, hrun1]
    simp only [Option.bind, runCommands, h2, h3]

end Adventure

/-! ## Proofs: the lock on the clock file -/

namespace Adventure

theorem startSys_lockInv (rooms : List Room) (player : Player) (inputs : List CString)
    (fileExists : Bool) : LockInv (startSys rooms player inputs fileExists) := by
  refine ⟨?_, ?_, ?_, ?_, ?_, ?_, ?_⟩ <;> simp [startSys]

theorem stepMain_lockInv (s : Sys) (h : LockInv s) : LockInv (stepMain s) := by
  obtain ⟨h1, h2, h3, h4, h5, h6, h7⟩ := h
  unfold stepMain
  split
  · rename_i hpc
    obtain ⟨ho, hc, ht⟩ := h1 hpc
    rw [if_pos ho]
    refine ⟨?_, ?_, ?_, ?_, ?_, ?_, ?_⟩ <;> first | exact h7 | simp_all
  · rename_i hpc
    obtain ⟨ho, hc, ht⟩ := h2 hpc
    refine ⟨?_, ?_, ?_, ?_, ?_, ?_, ?_⟩ <;> first | exact h7 | simp_all
  · rename_i hpc
    have ho := h3 (Or.inl hpc)
    split
    · refine ⟨?_, ?_, ?_, ?_, ?_, ?_, ?_⟩ <;> first | exact h7 | simp_all
    · split
      · split
        · refine ⟨?_, ?_, ?_, ?_, ?_, ?_, ?_⟩ <;> first | exact h7 | simp_all
        · split
          · exact ⟨h1, h2, h3, h4, h5, h6, h7⟩
          · split
            · refine ⟨?_, ?_, ?_, ?_, ?_, ?_, ?_⟩ <;> first | exact h7 | simp_all
            · split
              · refine ⟨?_, ?_, ?_, ?_, ?_, ?_, ?_⟩ <;> first | exact h7 | simp_all
              · refine ⟨?_, ?_, ?_, ?_, ?_, ?_, ?_⟩ <;> first | exact h7 | simp_all
      · refine ⟨?_, ?_, ?_, ?_, ?_, ?_, ?_⟩ <;> first | exact h7 | simp_all
  · rename_i hpc
    obtain ⟨ho, ht⟩ := h4 hpc
    split
    · refine ⟨?_, ?_, ?_, ?_, ?_, ?_, ?_⟩ <;> first | exact h7 | simp_all
    · exact ⟨h1, h2, h3, h4, h5, h6, h7⟩
  · rename_i hpc
    have ho := h3 (Or.inr (Or.inl hpc))
    split
    · refine ⟨?_, ?_, ?_, ?_, ?_, ?_, ?_⟩
      · simp_all
      · simp_all
      · simp_all
      · simp_all
      · simp_all
      · simp_all
      · intro o hmem
        rcases List.mem_cons.mp hmem with h | h
        · rw [h]
          exact ho
        · exact h7 o h
    · refine ⟨?_, ?_, ?_, ?_, ?_, ?_, ?_⟩ <;> first | exact h7 | simp_all
  · exact ⟨h1, h2, h3, h4, h5, h6, h7⟩
  · exact ⟨h1, h2, h3, h4, h5, h6, h7⟩

theorem stepClock_lockInv (s : Sys) (h : LockInv s) : LockInv (stepClock s) := by
  obtain ⟨h1, h2, h3, h4, h5, h6, h7⟩ := h
  unfold stepClock
  split
  · exact ⟨h1, h2, h3, h4, h5, h6, h7⟩
  · rename_i hnc
    split
    · exact ⟨h1, h2, h3, h4, h5, h6, h7⟩
    · rename_i hpc
      split
      · rename_i ho
        have hm : s.mainPc = .unlocked := by
          cases hm : s.mainPc <;> simp_all
        have ht : 0 < s.timeCommands := (h4 hm).2
        refine ⟨?_, ?_, ?_, ?_, ?_, ?_, ?_⟩
        · simp_all
        · simp_all
        · simp_all
        · simp_all
        · simp_all
        · intro hz
          exact absurd hz (by show s.timeCommands ≠ 0; omega)
        · exact h7
      · exact ⟨h1, h2, h3, h4, h5, h6, h7⟩
    · rename_i hpc
      have ho : s.owner = .clock := h5.mpr (Or.inl hpc)
      refine ⟨?_, ?_, ?_, ?_, ?_, ?_, ?_⟩ <;> first | exact h7 | simp_all
    · rename_i hpc
      have ho : s.owner = .clock := h5.mpr (Or.inr hpc)
      rw [if_pos ho]
      have hm : s.mainPc = .unlocked := by
        cases hm : s.mainPc <;> simp_all
      refine ⟨?_, ?_, ?_, ?_, ?_, ?_, ?_⟩ <;> first | exact h7 | simp_all
    · rename_i hpc
      refine ⟨?_, ?_, ?_, ?_, ?_, ?_, ?_⟩ <;> first | exact h7 | simp_all

theorem runSchedule_lockInv :
    ∀ (sched : List Thread) (s : Sys), LockInv s → LockInv (runSchedule sched s) := by
  intro sched
  induction sched with
  | nil => intro s h; exact h
  | cons t sched ih =>
    intro s h
    cases t with
    | main => exact ih _ (stepMain_lockInv s h)
    | clock => exact ih _ (stepClock_lockInv s h)

/-- While no line waiting to be read is `time` and no `time` command has been
executed, a step of either thread keeps it so. -/
theorem stepThread_no_time (t : Thread) (s : Sys)
    (hno : "time".toList ∉ s.inputs) (h0 : s.timeCommands = 0) :
    "time".toList ∉ (stepThread t s).inputs ∧ (stepThread t s).timeCommands = 0 := by
  cases t with
  | main =>
    simp only [stepThread]
    unfold stepMain
    split
    · split <;> exact ⟨hno, h0⟩
    · exact ⟨hno, h0⟩
    · split
      · exact ⟨hno, h0⟩
      · split
        · split
          · exact ⟨hno, h0⟩
          · split
            · exact ⟨hno, h0⟩
            · rename_i cmd rest hin
              rw [hin] at hno
              have hcmd : ¬ cmd = "time".toList := fun e =>
                hno (by rw [e]; exact List.mem_cons_self _ _)
              have hrest : "time".toList ∉ rest := fun hm => hno (List.mem_cons_of_mem _ hm)
              rw [if_neg hcmd]
              split
              · rw [hin]
                exact ⟨hno, h0⟩
              · exact ⟨hrest, h0⟩
        · exact ⟨hno, h0⟩
    · split <;> exact ⟨hno, h0⟩
    · split <;> exact ⟨hno, h0⟩
    · exact ⟨hno, h0⟩
    · exact ⟨hno, h0⟩
  | clock =>
    simp only [stepThread]
    unfold stepClock
    split
    · exact ⟨hno, h0⟩
    · split
      · exact ⟨hno, h0⟩
      · split <;> exact ⟨hno, h0⟩
      · exact ⟨hno, h0⟩
      · split <;> exact ⟨hno, h0⟩
      · exact ⟨hno, h0⟩

theorem runSchedule_no_time :
    ∀ (sched : List Thread) (s : Sys), "time".toList ∉ s.inputs → s.timeCommands = 0 →
      (runSchedule sched s).timeCommands = 0 := by
  intro sched
  induction sched with
  | nil => intro s _ h0; exact h0
  | cons t sched ih =>
    intro s hno h0
    obtain ⟨h1, h2⟩ := stepThread_no_time t s hno h0
    exact ih _ h1 h2

/-- C17. In every interleaving of the two threads, for every graph, player,
lines of input and state of the clock file: while the thread of `main` has
begun no `time` command the thread of `writeTime` does not hold the lock and
has not written the file; when no line of input is `time` this is so in every
state; and when `pthread_mutex_lock` has returned in a `time` command the
thread of `main` holds the lock, as it did at every read of the file so
far. -/
theorem lock_protocol (rooms : List Room) (player : Player) (inputs : List CString)
    (fileExists : Bool) (sched : List Thread) :
    ((runSchedule sched (startSys rooms player inputs fileExists)).timeCommands = 0 →
      (runSchedule sched (startSys rooms player inputs fileExists)).owner ≠ Owner.clock ∧
      (runSchedule sched (startSys rooms player inputs fileExists)).published = 0) ∧
    ("time".toList ∉ inputs →
      (runSchedule sched (startSys rooms player inputs fileExists)).owner ≠ Owner.clock ∧
      (runSchedule sched (startSys rooms player inputs fileExists)).published = 0) ∧
    ((runSchedule sched (startSys rooms player inputs fileExists)).mainPc = MainPc.relocked →
      (runSchedule sched (startSys rooms player inputs fileExists)).owner = Owner.main) ∧
    (∀ o ∈ (runSchedule sched (startSys rooms player inputs fileExists)).reads,
      o = Owner.main) := by
  obtain ⟨_, _, h3, _, h5, h6, h7⟩ :=
    runSchedule_lockInv sched _ (startSys_lockInv rooms player inputs fileExists)
  have hquiet : (runSchedule sched (startSys rooms player inputs fileExists)).timeCommands = 0 →
      (runSchedule sched (startSys rooms player inputs fileExists)).owner ≠ Owner.clock ∧
      (runSchedule sched (startSys rooms player inputs fileExists)).published = 0 := by
    intro hz
    obtain ⟨hpc, hpub⟩ := h6 hz
    refine ⟨?_, hpub⟩
    intro ho
    rcases h5.mp ho with hw | hw <;> rcases hpc with hp | hp <;> rw [hw] at hp <;> cases hp
  refine ⟨hquiet, ?_, ?_, h7⟩
  · intro hno
    exact hquiet (runSchedule_no_time sched _ hno rfl)
  · intro hpc
    exact h3 (Or.inr (Or.inl hpc))

/-- Witness for C17, in `loadedRooms`.  With the one line `time`: when the
thread of `main` has locked, created the other thread and not yet read the
line, the thread of `writeTime` is scheduled in vain; when the thread of
`main` is scheduled four times it has unlocked and locked again and holds the
lock; and in the schedule that lets the thread of `writeTime` run between the
unlock and the lock the file is written once and then read under the lock.
With the one line `FOYER` the same schedule leaves the file unwritten. -/
theorem lock_protocol_witness :
    ((runSchedule [.main, .main, .clock, .clock]
        (startSys loadedRooms startPlayer ["time".toList] false)).owner ≠ Owner.clock ∧
     (runSchedule [.main, .main, .clock, .clock]
        (startSys loadedRooms startPlayer ["time".toList] false)).published = 0) ∧
    (runSchedule [.main, .main, .main, .main]
        (startSys loadedRooms startPlayer ["time".toList] false)).owner = Owner.main ∧
    ((runSchedule [.main, .main, .main, .clock, .clock, .clock, .main, .main]
        (startSys loadedRooms startPlayer ["time".toList] false)).published = 1 ∧
     (runSchedule [.main, .main, .main, .clock, .clock, .clock, .main, .main]
        (startSys loadedRooms startPlayer ["time".toList] false)).reads = [Owner.main]) ∧
    ((runSchedule [.main, .main, .main, .clock, .clock, .clock, .main, .main]
        (startSys loadedRooms startPlayer ["FOYER".toList] false)).owner ≠ Owner.clock ∧
     (runSchedule [.main, .main, .main, .clock, .clock, .clock, .main, .main]
        (startSys loadedRooms startPlayer ["FOYER".toList] false)).published = 0) :=
  ⟨(lock_protocol loadedRooms startPlayer ["time".toList] false
      [.main, .main, .clock, .clock]).1 (by decide),
   (lock_protocol loadedRooms startPlayer ["time".toList] false
      [.main, .main, .main, .main]).2.2.1 (by decide),
   ⟨by decide, by decide⟩,
   (lock_protocol loadedRooms startPlayer ["FOYER".toList] false
      [.main, .main, .main, .clock, .clock, .clock, .main, .main]).2.1 (by decide)⟩

end Adventure

end Maze
